import Mathlib

/-!
Verification development for the incremental-rehash hash table ("dict")
of this repository.  The repository ships the header `src/src/dict.h`,
which fixes the data model (structs `dictEntry`, `dictht`, `dict`,
`dictIterator`), the macros (`dictSize`, `dictIsRehashing`,
`dictPauseRehashing`, `randomULong`, ...) and the public API.  The
function bodies live outside the provided sources, so every operation
body below is modelled from the specification (see the doc comments
starting with "Modelled from the spec:").

Keys and values are opaque machine words in the source; they are
modelled as `Nat`.  The type vtable (`dictType`) is modelled by passing
the hash function explicitly to each operation; `keyCompare` is `NULL`,
so key comparison is pointer equality (header line 197-200), i.e. `Nat`
equality here.  `keyDup`/`valDup` are `NULL`, so keys and values are
stored as given.
-/

/-- Hash table node (`struct dictEntry`, src/src/dict.h lines 53-70): a key,
a value (the `union v` is modelled by one numeric payload) and the chain
link; the chain itself is modelled as the enclosing `List`. -/
structure DictEntry where
  key : Nat
  val : Nat
deriving DecidableEq, Repr

/-- Hash table (`struct dictht`, src/src/dict.h lines 102-111): bucket
array (`table`), its `size`, the index mask `sizemask` and the number of
stored entries `used`.  A bucket is the list of entries chained there. -/
structure Dictht where
  table : List (List DictEntry)
  size : Nat
  sizemask : Nat
  used : Nat
deriving DecidableEq, Repr

/-- Dictionary (`struct dict`, src/src/dict.h lines 116-127): the two hash
tables `ht[0]`/`ht[1]`, the rehash cursor `rehashidx` (`long`, -1 when not
rehashing) and the `pauserehash` counter (`int16_t`).  The `type` and
`privdata` fields are modelled by the explicit `hash` parameter of each
operation. -/
structure Dict where
  ht0 : Dictht
  ht1 : Dictht
  rehashidx : Int
  pauserehash : Int
deriving DecidableEq, Repr

/-- An empty hash table: `size = 0`, `table = NULL`, `used = 0` (`_dictReset`). -/
def emptyHt : Dictht := ⟨[], 0, 0, 0⟩

/-- Modelled from the spec (4.1): `dictCreate` returns a dictionary with both
tables empty, `rehashidx = -1`, `pauserehash = 0`. -/
def dictCreate : Dict := ⟨emptyHt, emptyHt, -1, 0⟩

/-- Macro `dictSize(d)` (src/src/dict.h line 209): `ht[0].used + ht[1].used`. -/
def dictSize (d : Dict) : Nat := d.ht0.used + d.ht1.used

/-- Macro `dictSlots(d)` (src/src/dict.h line 208): `ht[0].size + ht[1].size`. -/
def dictSlots (d : Dict) : Nat := d.ht0.size + d.ht1.size

/-- Macro `dictIsRehashing(d)` (src/src/dict.h line 210): `rehashidx != -1`. -/
def dictIsRehashing (d : Dict) : Bool := d.rehashidx != -1

/-- Wrap-around semantics of the `int16_t` field `pauserehash`
(src/src/dict.h line 126): two's-complement 16-bit storage. -/
def wrap16 (x : Int) : Int := (x + 32768) % 65536 - 32768

/-- Macro `dictPauseRehashing(d)` (src/src/dict.h line 211): the unchecked
increment `(d)->pauserehash++` on the `int16_t` field. -/
def dictPauseRehashing (d : Dict) : Dict :=
  { d with pauserehash := wrap16 (d.pauserehash + 1) }

/-- Macro `dictResumeRehashing(d)` (src/src/dict.h line 212): the unchecked
decrement `(d)->pauserehash--` on the `int16_t` field. -/
def dictResumeRehashing (d : Dict) : Dict :=
  { d with pauserehash := wrap16 (d.pauserehash - 1) }

/-- Per the header comment on `pauserehash` (src/src/dict.h line 126):
"If >0 rehashing is paused (<0 indicates coding error)". -/
def rehashIsPaused (d : Dict) : Bool := d.pauserehash > 0

/-- `#define DICT_HT_INITIAL_SIZE 4` (src/src/dict.h line 160). -/
def DICT_HT_INITIAL_SIZE : Nat := 4

/-- Bucket access: `t->table[i]`; out-of-range reads (which the C code never
performs) yield the empty chain. -/
def bucketGet (t : Dictht) (i : Nat) : List DictEntry := t.table.getD i []

/-- Replace bucket `i` of a table. -/
def bucketSet (t : Dictht) (i : Nat) (b : List DictEntry) : Dictht :=
  { t with table := t.table.set i b }

/-- First entry of a chain whose key compares equal to `k`
(`dictCompareKeys` with `NULL` keyCompare is pointer equality,
src/src/dict.h lines 197-200). -/
def chainFind (k : Nat) (b : List DictEntry) : Option DictEntry :=
  b.find? (fun e => e.key == k)

/-- Modelled from the spec (4.2, "Index selection"): the target bucket for
key `k` in table `t` is `hash(k) & t.sizemask`. -/
def keyIndex (hash : Nat → Nat) (t : Dictht) (k : Nat) : Nat :=
  hash k &&& t.sizemask

/-- Modelled from the spec (4.2): pure lookup, no rehash step.  Probe
`ht[0]` first and, if absent there and rehashing, `ht[1]`. -/
def dictFindNoStep (hash : Nat → Nat) (d : Dict) (k : Nat) : Option DictEntry :=
  match chainFind k (bucketGet d.ht0 (keyIndex hash d.ht0 k)) with
  | some e => some e
  | none =>
    if dictIsRehashing d then chainFind k (bucketGet d.ht1 (keyIndex hash d.ht1 k))
    else none

/-- Head insertion of an entry into its bucket of table `t`, incrementing
`used` (used both by `dictAddRaw` and by the rehash migration). -/
def htInsert (hash : Nat → Nat) (t : Dictht) (e : DictEntry) : Dictht :=
  let i := keyIndex hash t e.key
  let t' := bucketSet t i (e :: bucketGet t i)
  { t' with used := t'.used + 1 }

/-- Modelled from the spec (4.3): migrate every entry of `ht[0]`'s bucket
`idx` into `ht[1]` (re-hashed with the current hash function, head
insertion), decrement `ht[0].used`, increment `ht[1].used`, and advance
`rehashidx` past the bucket. -/
def migrateBucket (hash : Nat → Nat) (d : Dict) (idx : Nat) : Dict :=
  let b := bucketGet d.ht0 idx
  let ht0' := bucketSet d.ht0 idx []
  { d with
    ht0 := { ht0' with used := d.ht0.used - b.length }
    ht1 := b.foldl (htInsert hash) d.ht1
    rehashidx := ((idx + 1 : Nat) : Int) }

/-- Modelled from the spec (4.3): when `ht[0].used` reaches 0 the old array
is freed, `ht[1]` is moved into `ht[0]`, `ht[1]` is reset and `rehashidx`
is set to -1 (more-work flag `false`); otherwise report more work. -/
def rehashFinalizeCheck (d : Dict) : Dict × Bool :=
  if d.ht0.used = 0 then
    ({ d with ht0 := d.ht1, ht1 := emptyHt, rehashidx := -1 }, false)
  else (d, true)

/-- Modelled from the spec (4.3): the empty-bucket skip of `dictRehash`.
Starting at index `idx` with an empty-visit budget `ev`, skip empty
buckets, consuming one unit of budget per empty bucket visited; stop
either at a non-empty bucket (`found = true`) or when the budget is
exhausted (`found = false`).  Returns the final index, the remaining
budget and the flag. -/
def rehashSkip (tbl : List (List DictEntry)) : Nat → Nat → Nat × Nat × Bool
  | idx, 0 =>
    match tbl.getD idx [] with
    | _ :: _ => (idx, 0, true)
    | [] => (idx, 0, false)
  | idx, 1 =>
    match tbl.getD idx [] with
    | _ :: _ => (idx, 1, true)
    | [] => (idx + 1, 0, false)
  | idx, ev' + 2 =>
    match tbl.getD idx [] with
    | _ :: _ => (idx, ev' + 2, true)
    | [] => rehashSkip tbl (idx + 1) (ev' + 1)

/-- Modelled from the spec (4.3): the main loop of `dictRehash(n)`: up to
`n` non-empty buckets are migrated, with the shared empty-visit budget
`ev`; yields early (flag `true`) when the budget runs out. -/
def rehashLoop (hash : Nat → Nat) : Dict → Nat → Nat → Dict × Bool
  | d, 0, _ => rehashFinalizeCheck d
  | d, n + 1, ev =>
    if d.ht0.used = 0 then rehashFinalizeCheck d
    else
      let r := rehashSkip d.ht0.table d.rehashidx.toNat ev
      if r.2.2 then rehashLoop hash (migrateBucket hash d r.1) n r.2.1
      else ({ d with rehashidx := ((r.1 : Nat) : Int) }, true)

/-- Modelled from the spec (4.3): `dictRehash(d, n)` advances by up to `n`
non-empty buckets, visiting at most `10 * n` empty buckets before
yielding; no-op when not rehashing.  Returns the updated dictionary and
a flag: `true` when rehash work remains. -/
def dictRehash (hash : Nat → Nat) (d : Dict) (n : Nat) : Dict × Bool :=
  if dictIsRehashing d then rehashLoop hash d n (n * 10) else (d, false)

/-- Modelled from the spec (4.3): `_dictRehashStep` performs `dictRehash(d,1)`
but only when `pauserehash == 0`. -/
def dictRehashStep (hash : Nat → Nat) (d : Dict) : Dict :=
  if d.pauserehash = 0 then (dictRehash hash d 1).1 else d

/-- Modelled from the spec (4.1): the doubling loop of `_dictNextPower`,
with explicit fuel (the C loop `while(1) { if (i >= size) return i; i *= 2; }`
starting at `i = DICT_HT_INITIAL_SIZE`). -/
def nextPowerLoop : Nat → Nat → Nat → Nat
  | 0, i, _ => i
  | f + 1, i, s => if s ≤ i then i else nextPowerLoop f (2 * i) s

/-- Modelled from the spec (4.1): `next_power_of_two(max(s, INITIAL_SIZE=4))`:
the smallest power of two that is at least `max s 4`. -/
def dictNextPower (s : Nat) : Nat := nextPowerLoop s DICT_HT_INITIAL_SIZE s

/-- A fresh zeroed bucket array of the given size, with its mask. -/
def newHt (size : Nat) : Dictht := ⟨List.replicate size [], size, size - 1, 0⟩

/-- Modelled from the spec (4.1): `dictExpand(d, s)`.  Let
`new_size = next_power_of_two(max(s, 4))`.  Fails (returns `DICT_ERR`,
modelled as `false`, leaving the dictionary unchanged) if already
rehashing, or if `new_size < ht[0].used`, or if `new_size == ht[0].size`.
Otherwise, if `ht[0]` is empty the new array is installed directly as
`ht[0]`; else it is installed as `ht[1]` and `rehashidx` is set to 0. -/
def dictExpand (d : Dict) (s : Nat) : Dict × Bool :=
  let realsize := dictNextPower s
  if dictIsRehashing d then (d, false)
  else if realsize < d.ht0.used then (d, false)
  else if realsize = d.ht0.size then (d, false)
  else if d.ht0.size = 0 then ({ d with ht0 := newHt realsize }, true)
  else ({ d with ht1 := newHt realsize, rehashidx := 0 }, true)

/-- Modelled from the spec (4.1, "Auto-expand trigger"): before an insertion,
if rehashing do nothing; if `size == 0` expand to `INITIAL_SIZE`; if
`used >= size` (resizing globally enabled and `expandAllowed` absent, the
default configuration modelled here) expand to `used + 1`. -/
def dictExpandIfNeeded (d : Dict) : Dict :=
  if dictIsRehashing d then d
  else if d.ht0.size = 0 then (dictExpand d DICT_HT_INITIAL_SIZE).1
  else if d.ht0.size ≤ d.ht0.used then (dictExpand d (d.ht0.used + 1)).1
  else d

/-- Modelled from the spec (4.2): insert a brand-new entry: during rehash
the insertion always goes to `ht[1]`, otherwise to `ht[0]` (head
insertion into the target chain). -/
def dictInsertNew (hash : Nat → Nat) (d : Dict) (e : DictEntry) : Dict :=
  if dictIsRehashing d then { d with ht1 := htInsert hash d.ht1 e }
  else { d with ht0 := htInsert hash d.ht0 e }

/-- Modelled from the spec (4.2): `dictAdd(d, k, v)`: a single rehash step,
the auto-expand check, a search of the relevant chains for `k`; fails
(`false`) if the key exists, otherwise allocates the entry, prepends it
to the target chain and sets its value. -/
def dictAdd (hash : Nat → Nat) (d : Dict) (k v : Nat) : Dict × Bool :=
  let d1 := dictRehashStep hash d
  let d2 := dictExpandIfNeeded d1
  match dictFindNoStep hash d2 k with
  | some _ => (d2, false)
  | none => (dictInsertNew hash d2 ⟨k, v⟩, true)

/-- Observable effects of `dictSetVal` / `dictFreeVal`
(src/src/dict.h lines 166-175): installing a value, destroying a value. -/
inductive ValEvent where
  | setVal (v : Nat)
  | freeVal (v : Nat)
deriving DecidableEq, Repr

/-- Update (in place) the value of the entry with key `k` in bucket `i`. -/
def htUpdateVal (t : Dictht) (i : Nat) (k v : Nat) : Dictht :=
  bucketSet t i
    ((bucketGet t i).map (fun e => if e.key = k then { e with val := v } else e))

/-- Update the value of the (unique) entry with key `k`, wherever it lives. -/
def replaceVal (hash : Nat → Nat) (d : Dict) (k v : Nat) : Dict :=
  { d with
    ht0 := htUpdateVal d.ht0 (keyIndex hash d.ht0 k) k v
    ht1 := htUpdateVal d.ht1 (keyIndex hash d.ht1 k) k v }

/-- Modelled from the spec (4.2): `dictReplace(d, k, v)`: if the key is new,
insert and return the inserted indication (`true`); if it existed, set
the new value first and destroy the old value afterwards (`dictSetVal`
then `dictFreeVal` on the saved aux entry), returning `false`.  The
third component records the value-lifecycle events in order. -/
def dictReplace (hash : Nat → Nat) (d : Dict) (k v : Nat) : Dict × Bool × List ValEvent :=
  let d1 := dictRehashStep hash d
  let d2 := dictExpandIfNeeded d1
  match dictFindNoStep hash d2 k with
  | none => (dictInsertNew hash d2 ⟨k, v⟩, true, [ValEvent.setVal v])
  | some e => (replaceVal hash d2 k v, false, [ValEvent.setVal v, ValEvent.freeVal e.val])

/-- Remove (unlink) the first entry with key `k` from bucket `i` of `t`;
the flag reports whether an entry was removed. -/
def htRemove (t : Dictht) (i : Nat) (k : Nat) : Dictht × Bool :=
  let b := bucketGet t i
  if b.any (fun e => e.key == k) then
    ({ bucketSet t i (b.eraseP (fun e => e.key == k)) with used := t.used - 1 }, true)
  else (t, false)

/-- Modelled from the spec (4.2): `dictDelete(d, k)`: nothing to do on an
empty dictionary; otherwise a single rehash step, then walk the chain in
`ht[0]` and, when rehashing, in `ht[1]`, unlinking the entry. -/
def dictDelete (hash : Nat → Nat) (d : Dict) (k : Nat) : Dict × Bool :=
  if dictSize d = 0 then (d, false)
  else
    let d1 := dictRehashStep hash d
    let r0 := htRemove d1.ht0 (keyIndex hash d1.ht0 k) k
    if r0.2 then ({ d1 with ht0 := r0.1 }, true)
    else if dictIsRehashing d1 then
      let r1 := htRemove d1.ht1 (keyIndex hash d1.ht1 k) k
      ({ d1 with ht1 := r1.1 }, r1.2)
    else (d1, false)

/-- Modelled from the spec (4.2): `dictFind(d, k)` returns the entry or
null; on a non-empty dictionary it performs one rehash step first. -/
def dictFind (hash : Nat → Nat) (d : Dict) (k : Nat) : Dict × Option DictEntry :=
  if dictSize d = 0 then (d, none)
  else
    let d1 := dictRehashStep hash d
    (d1, dictFindNoStep hash d1 k)

/-- Modelled from the spec (4.1): `dictResize` requests a new size of
`max(used, INITIAL_SIZE)`; disallowed while rehashing (global resizing
is modelled as enabled). -/
def dictResize (d : Dict) : Dict × Bool :=
  if dictIsRehashing d then (d, false)
  else dictExpand d (max d.ht0.used DICT_HT_INITIAL_SIZE)

/-- The public mutating/probing operations used to build reachable states. -/
inductive DictOp where
  | add (k v : Nat)
  | replace (k v : Nat)
  | del (k : Nat)
  | find (k : Nat)
  | rehash (n : Nat)
  | expand (s : Nat)
  | resize
deriving DecidableEq, Repr

/-- Apply one public operation (discarding its result value). -/
def applyOp (hash : Nat → Nat) (d : Dict) : DictOp → Dict
  | DictOp.add k v => (dictAdd hash d k v).1
  | DictOp.replace k v => (dictReplace hash d k v).1
  | DictOp.del k => (dictDelete hash d k).1
  | DictOp.find k => (dictFind hash d k).1
  | DictOp.rehash n => (dictRehash hash d n).1
  | DictOp.expand s => (dictExpand d s).1
  | DictOp.resize => (dictResize d).1

/-- Run a sequence of public operations. -/
def runOps (hash : Nat → Nat) (d : Dict) (ops : List DictOp) : Dict :=
  ops.foldl (applyOp hash) d

/-- All live entries of the dictionary, in bucket order of both tables. -/
def dictAllEntries (d : Dict) : List DictEntry := d.ht0.table.flatten ++ d.ht1.table.flatten

/-- `0xffffffffffffffff`: the 64-bit word mask used by the scan cursor
(the spec, 9 "Scan cursor portability", fixes the cursor width to 64). -/
def MASK64 : Nat := 2 ^ 64 - 1

/-- Reversal of the low `k` bits of a number (the bit-reversal step of the
reversed-bit scan cursor). -/
def revBits : Nat → Nat → Nat
  | 0, _ => 0
  | k + 1, v => v % 2 * 2 ^ k + revBits k (v / 2)

/-- Modelled from the spec (4.4): advance the scan cursor for mask `m`: set
the bits above `m` (`v |= ~m` on the 64-bit word), reverse the word,
add 1, and reverse again. -/
def scanStep (m v : Nat) : Nat :=
  revBits 64 ((revBits 64 (v ||| (m ^^^ MASK64)) + 1) % 2 ^ 64)

/-- Modelled from the spec (4.4, rehashing case): report, one after the
other, the `(m1+1)/(m0+1)` buckets of the larger table `t1` whose low bits
equal the cursor, advancing the cursor with the larger mask each time. -/
def scanInner (t1 : Dictht) : Nat → Nat → List DictEntry × Nat
  | 0, v => ([], v)
  | c + 1, v =>
    let rep := bucketGet t1 (v &&& t1.sizemask)
    let r := scanInner t1 c (scanStep t1.sizemask v)
    (rep ++ r.1, r.2)

/-- Modelled from the spec (4.4): one `dictScan` step at cursor `v`: nothing
on an empty dictionary; otherwise when not rehashing report bucket
`v & m` of `ht[0]` and advance with `ht[0]`'s mask; when rehashing let
`t0` be the smaller of the two tables, report its bucket `v & m0`, then
the corresponding buckets of the larger table `t1`, advancing with the
larger mask.  Returns the reported entries and the next cursor. -/
def dictScan (d : Dict) (v : Nat) : List DictEntry × Nat :=
  if dictSize d = 0 then ([], 0)
  else if dictIsRehashing d = false then
    (bucketGet d.ht0 (v &&& d.ht0.sizemask), scanStep d.ht0.sizemask v)
  else
    let t0 := if d.ht1.size < d.ht0.size then d.ht1 else d.ht0
    let t1 := if d.ht1.size < d.ht0.size then d.ht0 else d.ht1
    let first := bucketGet t0 (v &&& t0.sizemask)
    let r := scanInner t1 ((t1.sizemask + 1) / (t0.sizemask + 1)) v
    (first ++ r.1, r.2)

/-- The full scan protocol: starting from cursor `v`, repeatedly call
`dictScan`, feeding the returned cursor back in, until it returns 0 (with
`fuel` bounding the number of steps).  Returns all reported entries and
the final cursor. -/
def dictScanAll (d : Dict) : Nat → Nat → List DictEntry × Nat
  | 0, v => ([], v)
  | f + 1, v =>
    let s := dictScan d v
    if s.2 = 0 then (s.1, 0)
    else
      let r := dictScanAll d f s.2
      (s.1 ++ r.1, r.2)

/-- `n` is a power of two. -/
def IsP2 (n : Nat) : Prop := ∃ k, n = 2 ^ k

/-- Structural well-formedness of one hash table: the bucket array has
`size` buckets, `sizemask = size - 1`, `used` counts the stored entries,
and `size` is zero or a power of two. -/
def htWF (t : Dictht) : Prop :=
  t.table.length = t.size ∧ t.sizemask = t.size - 1 ∧
  t.used = (t.table.map List.length).sum ∧ (t.size = 0 ∨ IsP2 t.size)

/-- Every entry lives in the bucket selected by its key's hash. -/
def htPlacement (hash : Nat → Nat) (t : Dictht) : Prop :=
  ∀ i, i < t.table.length → ∀ e, e ∈ t.table.getD i [] → hash e.key &&& t.sizemask = i

/-- Number of entries with key `k` stored in table `t`. -/
def keyCount (k : Nat) (t : Dictht) : Nat :=
  t.table.flatten.countP (fun e => e.key == k)

/-- Dictionary invariant maintained by the public operations: both tables
are well-formed with correctly placed entries, no key occurs twice, and
while rehashing `ht[1].size` is a power of two at least `ht[0].used` and
all `ht[0]` buckets below `rehashidx` are empty; while not rehashing
`ht[1]` is the reset table. -/
def WF (hash : Nat → Nat) (d : Dict) : Prop :=
  htWF d.ht0 ∧ htWF d.ht1 ∧ htPlacement hash d.ht0 ∧ htPlacement hash d.ht1 ∧
  (∀ k, keyCount k d.ht0 + keyCount k d.ht1 ≤ 1) ∧
  (dictIsRehashing d = true →
    0 ≤ d.rehashidx ∧ d.rehashidx.toNat ≤ d.ht0.size ∧ 0 < d.ht0.size ∧
    IsP2 d.ht1.size ∧ d.ht0.used ≤ d.ht1.size ∧
    (∀ i, i < d.rehashidx.toNat → d.ht0.table.getD i [] = [])) ∧
  (dictIsRehashing d = false → d.ht1 = emptyHt)

/-- One step of the counting run: apply the operation and bump the
insertion counter on a successful `dictAdd` (or a `dictReplace` taking its
insert branch) and the deletion counter on a successful `dictDelete`. -/
def runOpsCountStep (hash : Nat → Nat) (s : Dict × Nat × Nat) : DictOp → Dict × Nat × Nat
  | DictOp.add k v =>
    ((dictAdd hash s.1 k v).1,
      s.2.1 + (if (dictAdd hash s.1 k v).2 then 1 else 0), s.2.2)
  | DictOp.replace k v =>
    ((dictReplace hash s.1 k v).1,
      s.2.1 + (if (dictReplace hash s.1 k v).2.1 then 1 else 0), s.2.2)
  | DictOp.del k =>
    ((dictDelete hash s.1 k).1,
      s.2.1, s.2.2 + (if (dictDelete hash s.1 k).2 then 1 else 0))
  | op => (applyOp hash s.1 op, s.2.1, s.2.2)

/-- Run a sequence of public operations from a fresh dictionary, counting
the successful insertions (`dictAdd` returning OK, and `dictReplace`
taking its insert branch) and the successful deletions. -/
def runOpsCount (hash : Nat → Nat) (ops : List DictOp) : Dict × Nat × Nat :=
  ops.foldl (runOpsCountStep hash) (dictCreate, 0, 0)

/-- Modelled from the spec (4.5): the unsafe-iterator fingerprint, a mix of
the dictionary's observable shape (`ht[0].table, ht[0].size, ht[0].used,
ht[1].table, ht[1].size, ht[1].used`) such that any change of a single
field perturbs the result.  The exact mixing constants live outside the
provided sources; the contract is modelled by an injective pairing of the
shape.  (In the shallow embedding the backing arrays have no addresses;
a table pointer changes exactly when a new array is installed, which also
changes the recorded `size` fields.) -/
def dictFingerprint (d : Dict) : Nat :=
  Nat.pair (Nat.pair d.ht0.size d.ht0.used) (Nat.pair d.ht1.size d.ht1.used)

/-- Unsafe iterator (`struct dictIterator`, src/src/dict.h lines 138-154),
reduced to the field the misuse-detection contract uses: the fingerprint
taken when iteration starts. -/
structure DictIterator where
  fingerprint : Nat
deriving DecidableEq, Repr

/-- Modelled from the spec (4.5): creating an unsafe iterator records the
dictionary's fingerprint. -/
def dictGetIterator (d : Dict) : DictIterator := ⟨dictFingerprint d⟩

/-- Modelled from the spec (4.5): on `dictReleaseIterator` the fingerprint
is recomputed and compared; `true` means the misuse is detected. -/
def dictReleaseIteratorCheck (d : Dict) (it : DictIterator) : Bool :=
  dictFingerprint d != it.fingerprint

/-- `ULONG_MAX` of a platform whose `unsigned long` is `ulongBits` bits wide
(`<limits.h>`, used by src/src/dict.h line 215). -/
def ulongMax (ulongBits : Nat) : Nat := 2 ^ ulongBits - 1

/-- Number of distinct values `randomULong()` can produce
(src/src/dict.h lines 214-219): when `ULONG_MAX >= 0xffffffffffffffff`
it is `genrand64_int64()`, the 64-bit PRNG, covering `2^64` values;
otherwise it is POSIX `random()`, whose results range over `[0, 2^31)`
(modelled from `random()`'s documented contract). -/
def randomULongValues (ulongBits : Nat) : Nat :=
  if 0xffffffffffffffff ≤ ulongMax ulongBits then 2 ^ 64 else 2 ^ 31

/-- `n` nested `dictPauseRehashing(d)` invocations. -/
def nestPause (d : Dict) : Nat → Dict
  | 0 => d
  | n + 1 => dictPauseRehashing (nestPause d n)

/-- `op` neither deletes key `k` nor replaces its value: the operations a
trace may contain, after an insertion of `k`, without disturbing the entry
stored under `k`. -/
def opAvoids (k : Nat) : DictOp → Bool
  | DictOp.replace k' _ => k' != k
  | DictOp.del k' => k' != k
  | _ => true

/-- Number of indices in `[a, a + len)` whose bucket in `tbl` is non-empty
(used to count the buckets `dictRehash` migrates). -/
def countNonEmpty (tbl : List (List DictEntry)) (a len : Nat) : Nat :=
  (List.range' a len).countP (fun j => !(tbl.getD j []).isEmpty)

/-- Number of indices in `[a, a + len)` whose bucket in `tbl` is empty
(used to count the empty buckets `dictRehash` visits). -/
def countEmpty (tbl : List (List DictEntry)) (a len : Nat) : Nat :=
  (List.range' a len).countP (fun j => (tbl.getD j []).isEmpty)

example : dictSize (runOps (fun n => n) dictCreate
    [DictOp.add 1 11, DictOp.add 2 22, DictOp.del 1]) = 1 := by decide

example :
    dictIsRehashing (runOps (fun n => n) dictCreate
      [DictOp.add 0 0, DictOp.add 1 1, DictOp.add 2 2, DictOp.add 3 3,
       DictOp.add 4 4]) = true := by decide

example :
    (runOps (fun n => n) dictCreate
      [DictOp.add 0 0, DictOp.add 1 1, DictOp.add 2 2, DictOp.add 3 3,
       DictOp.add 4 4]).ht1.size = 8 := by decide

example :
    (dictFind (fun n => n)
      (runOps (fun n => n) dictCreate
        [DictOp.add 0 0, DictOp.add 1 1, DictOp.add 2 2, DictOp.add 3 3,
         DictOp.add 4 4, DictOp.find 0, DictOp.find 0, DictOp.find 0])
      4).2 = some ⟨4, 4⟩ := by decide

/-! ### Bit-level foundations for the reversed-bit scan cursor -/

theorem testBit_pad (k b i v : Nat) (h : v < 2 ^ k) :
    (v + 2 ^ k * b).testBit i = if i < k then v.testBit i else b.testBit (i - k) := by
  by_cases hi : i < k
  · have h1 : (v + 2 ^ k * b) % 2 ^ k = v := by
      rw [Nat.add_mul_mod_self_left, Nat.mod_eq_of_lt h]
    have h2 := Nat.testBit_mod_two_pow (v + 2 ^ k * b) k i
    rw [h1] at h2
    simpa [hi] using h2.symm
  · have h1 : (v + 2 ^ k * b) / 2 ^ i = b / 2 ^ (i - k) := by
      have hsplit : (2 : Nat) ^ i = 2 ^ k * 2 ^ (i - k) := by
        rw [← pow_add]
        congr 1
        omega
      rw [hsplit, ← Nat.div_div_eq_div_mul]
      have h3 : (v + 2 ^ k * b) / 2 ^ k = b := by
        rw [Nat.add_mul_div_left _ _ (Nat.two_pow_pos k), Nat.div_eq_of_lt h, Nat.zero_add]
      rw [h3]
    rw [Nat.testBit_to_div_mod, h1]
    simp [hi, Nat.testBit_to_div_mod]

theorem or_pad (k b v : Nat) (h : v < 2 ^ k) :
    v ||| 2 ^ k * b = v + 2 ^ k * b := by
  apply Nat.eq_of_testBit_eq
  intro i
  rw [Nat.testBit_or, testBit_pad k b i v h]
  have hb : (2 ^ k * b).testBit i = if i < k then false else b.testBit (i - k) := by
    have h0 := testBit_pad k b i 0 (Nat.two_pow_pos k)
    rw [Nat.zero_add] at h0
    rw [h0]
    by_cases hi : i < k <;> simp [hi]
  rw [hb]
  by_cases hi : i < k
  · simp [hi]
  · have hv : v.testBit i = false := by
      refine Nat.testBit_lt_two_pow (Nat.lt_of_lt_of_le h ?_)
      exact Nat.pow_le_pow_right (by norm_num) (by omega)
    simp [hi, hv]

theorem xor_mask {k n : Nat} (h : k ≤ n) :
    (2 ^ k - 1) ^^^ (2 ^ n - 1) = 2 ^ k * (2 ^ (n - k) - 1) := by
  apply Nat.eq_of_testBit_eq
  intro i
  rw [Nat.testBit_xor, Nat.testBit_two_pow_sub_one, Nat.testBit_two_pow_sub_one]
  have h0 := testBit_pad k (2 ^ (n - k) - 1) i 0 (Nat.two_pow_pos k)
  rw [Nat.zero_add] at h0
  rw [h0]
  by_cases hi : i < k
  · have hn : i < n := Nat.lt_of_lt_of_le hi h
    simp [hi, hn]
  · by_cases hn : i < n
    · have h2 : i - k < n - k := by omega
      simp [hi, hn, Nat.testBit_two_pow_sub_one, h2]
    · have h2 : ¬ i - k < n - k := by omega
      simp [hi, hn, Nat.testBit_two_pow_sub_one, h2]

theorem revBits_lt (k v : Nat) : revBits k v < 2 ^ k := by
  induction k generalizing v with
  | zero => simp [revBits]
  | succ k ih =>
    have h1 := ih (v / 2)
    rcases Nat.mod_two_eq_zero_or_one v with h | h <;>
      simp [revBits, h, Nat.pow_succ] <;> omega

theorem revBits_zero (k : Nat) : revBits k 0 = 0 := by
  induction k with
  | zero => rfl
  | succ k ih => simp [revBits, ih]

theorem revBits_pad (k j v h : Nat) (hv : v < 2 ^ k) :
    revBits (k + j) (v + 2 ^ k * h) = revBits k v * 2 ^ j + revBits j h := by
  induction k generalizing v with
  | zero =>
    have hv0 : v = 0 := by omega
    simp [hv0, revBits]
  | succ k ih =>
    have hv2 : v / 2 < 2 ^ k := by
      have h2 : v < 2 ^ k * 2 := by
        rw [← Nat.pow_succ]
        exact hv
      omega
    have harr : k + 1 + j = (k + j) + 1 := by omega
    rw [harr, revBits]
    have hmul : 2 ^ (k + 1) * h = 2 * (2 ^ k * h) := by ring
    have e1 : (v + 2 ^ (k + 1) * h) % 2 = v % 2 := by
      rw [hmul, Nat.add_mul_mod_self_left]
    have e2 : (v + 2 ^ (k + 1) * h) / 2 = v / 2 + 2 ^ k * h := by
      rw [hmul, Nat.add_mul_div_left _ _ (by norm_num : (0 : Nat) < 2)]
    rw [e1, e2, ih (v / 2) hv2]
    rw [revBits, pow_add]
    ring

theorem revBits_allOnes (j : Nat) : revBits j (2 ^ j - 1) = 2 ^ j - 1 := by
  induction j with
  | zero => rfl
  | succ j ih =>
    have hpow : (2 : Nat) ^ (j + 1) = 2 * 2 ^ j := by rw [Nat.pow_succ]; ring
    have hp : 0 < 2 ^ j := Nat.two_pow_pos j
    have e1 : (2 ^ (j + 1) - 1) % 2 = 1 := by omega
    have e2 : (2 ^ (j + 1) - 1) / 2 = 2 ^ j - 1 := by omega
    rw [revBits, e1, e2, ih]
    omega

theorem revBits_rev (k v : Nat) (h : v < 2 ^ k) : revBits k (revBits k v) = v := by
  induction k generalizing v with
  | zero =>
    have : v = 0 := by omega
    simp [this, revBits]
  | succ k ih =>
    have hv2 : v / 2 < 2 ^ k := by
      have h2 : v < 2 ^ k * 2 := by
        rw [← Nat.pow_succ]
        exact h
      omega
    have hrb : revBits k (v / 2) < 2 ^ k := revBits_lt k (v / 2)
    have e : revBits (k + 1) v = revBits k (v / 2) + 2 ^ k * (v % 2) := by
      rw [revBits]
      ring
    rw [e, revBits_pad k 1 (revBits k (v / 2)) (v % 2) hrb, ih (v / 2) hv2]
    have e1 : revBits 1 (v % 2) = v % 2 := by
      rcases Nat.mod_two_eq_zero_or_one v with h2 | h2 <;> simp [revBits, h2]
    rw [e1]
    have := Nat.div_add_mod v 2
    rw [pow_one]
    omega

theorem revBits_inj {k a b : Nat} (ha : a < 2 ^ k) (hb : b < 2 ^ k)
    (h : revBits k a = revBits k b) : a = b := by
  rw [← revBits_rev k a ha, ← revBits_rev k b hb, h]

theorem scanStep_eq {k v : Nat} (hk : k ≤ 64) (hv : v < 2 ^ k) :
    scanStep (2 ^ k - 1) v = revBits k ((revBits k v + 1) % 2 ^ k) := by
  have e64 : k + (64 - k) = 64 := by omega
  unfold scanStep MASK64
  rw [xor_mask hk, or_pad k (2 ^ (64 - k) - 1) v hv]
  have e2 : revBits 64 (v + 2 ^ k * (2 ^ (64 - k) - 1))
      = revBits k v * 2 ^ (64 - k) + (2 ^ (64 - k) - 1) := by
    have hp := revBits_pad k (64 - k) v (2 ^ (64 - k) - 1) hv
    rw [e64] at hp
    rw [hp, revBits_allOnes]
  rw [e2]
  have hm : 0 < 2 ^ (64 - k) := Nat.two_pow_pos _
  have e3 : revBits k v * 2 ^ (64 - k) + (2 ^ (64 - k) - 1) + 1
      = (revBits k v + 1) * 2 ^ (64 - k) := by
    rw [Nat.add_mul, Nat.one_mul]
    omega
  rw [e3]
  have e4 : (revBits k v + 1) * 2 ^ (64 - k) % 2 ^ 64
      = (revBits k v + 1) % 2 ^ k * 2 ^ (64 - k) := by
    have hsplit : (2 : Nat) ^ 64 = 2 ^ k * 2 ^ (64 - k) := by
      rw [← pow_add, e64]
    rw [hsplit, Nat.mul_mod_mul_right]
  rw [e4]
  have hy : (revBits k v + 1) % 2 ^ k < 2 ^ k := Nat.mod_lt _ (Nat.two_pow_pos k)
  have hp := revBits_pad (64 - k) k 0 ((revBits k v + 1) % 2 ^ k) (Nat.two_pow_pos _)
  rw [Nat.zero_add, revBits_zero, Nat.zero_mul, Nat.zero_add] at hp
  have e5 : 64 - k + k = 64 := by omega
  rw [e5] at hp
  rw [Nat.mul_comm, hp]

/-! ### List and multiset toolbox -/

theorem getD_eq_getElem {α : Type} (l : List α) (i : Nat) (d : α) (h : i < l.length) :
    l.getD i d = l[i] := by
  simp [List.getElem?_eq_getElem h]

theorem getD_set_self {α : Type} (l : List α) (i : Nat) (b d : α) (h : i < l.length) :
    (l.set i b).getD i d = b := by
  simp [List.getElem?_set_self h]

theorem getD_set_ne {α : Type} (l : List α) (i j : Nat) (b d : α) (h : i ≠ j) :
    (l.set i b).getD j d = l.getD j d := by
  simp [List.getElem?_set_ne h]

theorem getD_mem_flatten {α : Type} {l : List (List α)} {i : Nat} {e : α}
    (he : e ∈ l.getD i []) : e ∈ l.flatten := by
  rcases Nat.lt_or_ge i l.length with h | h
  · rw [getD_eq_getElem _ _ _ h] at he
    exact List.mem_flatten_of_mem (List.getElem_mem h) he
  · rw [List.getD_eq_getElem?_getD, List.getElem?_eq_none h] at he
    simp at he

theorem mem_flatten_getD {α : Type} {l : List (List α)} {e : α} (he : e ∈ l.flatten) :
    ∃ i, i < l.length ∧ e ∈ l.getD i [] := by
  rcases List.mem_flatten.mp he with ⟨b, hb, heb⟩
  rcases List.getElem_of_mem hb with ⟨i, hi, hib⟩
  refine ⟨i, hi, ?_⟩
  rw [getD_eq_getElem _ _ _ hi, hib]
  exact heb

theorem countP_le_one_unique {α : Type} {p : α → Bool} :
    ∀ {l : List α}, l.countP p ≤ 1 → ∀ a ∈ l, ∀ b ∈ l, p a = true → p b = true → a = b := by
  intro l
  induction l with
  | nil => intro _ a ha; simp at ha
  | cons x xs ih =>
    intro hc a ha b hb hpa hpb
    by_cases hx : p x = true
    · have hxs : xs.countP p = 0 := by
        have hcc : (x :: xs).countP p = xs.countP p + 1 := by
          simp [List.countP_cons, hx]
        omega
      have hnone : ∀ c ∈ xs, ¬ p c = true := by
        intro c hcmem hpc
        have : 0 < xs.countP p := List.countP_pos_iff.mpr ⟨c, hcmem, hpc⟩
        omega
      have ha0 : a = x := by
        rcases List.mem_cons.mp ha with h | h
        · exact h
        · exact absurd hpa (hnone a h)
      have hb0 : b = x := by
        rcases List.mem_cons.mp hb with h | h
        · exact h
        · exact absurd hpb (hnone b h)
      rw [ha0, hb0]
    · have hc2 : xs.countP p ≤ 1 := by
        have hcc : (x :: xs).countP p = xs.countP p := by
          simp [List.countP_cons, hx]
        omega
      have ha0 : a ∈ xs := by
        rcases List.mem_cons.mp ha with h | h
        · rw [h] at hpa
          exact absurd hpa hx
        · exact h
      have hb0 : b ∈ xs := by
        rcases List.mem_cons.mp hb with h | h
        · rw [h] at hpb
          exact absurd hpb hx
        · exact h
      exact ih hc2 a ha0 b hb0 hpa hpb

theorem flatten_set_ms {α : Type} :
    ∀ (l : List (List α)) (i : Nat) (b : List α), i < l.length →
      ((l.set i b).flatten : Multiset α) + (l.getD i [] : List α) =
        (l.flatten : Multiset α) + (b : List α) := by
  intro l
  induction l with
  | nil => intro i b h; simp at h
  | cons x xs ih =>
    intro i b h
    match i with
    | 0 =>
      simp only [List.set_cons_zero, List.flatten_cons, List.getD_cons_zero]
      rw [← Multiset.coe_add, ← Multiset.coe_add]
      abel
    | i + 1 =>
      simp only [List.set_cons_succ, List.flatten_cons, List.getD_cons_succ]
      have h2 : i < xs.length := by simpa using h
      have ihx := ih i b h2
      rw [← Multiset.coe_add, ← Multiset.coe_add, add_assoc, add_assoc, ihx]

theorem sum_map_length_of_ms {α : Type} {l l' : List (List α)} {extra extra' : List α}
    (h : (l.flatten : Multiset α) + (extra : List α) =
      (l'.flatten : Multiset α) + (extra' : List α)) :
    (l.map List.length).sum + extra.length = (l'.map List.length).sum + extra'.length := by
  have := congrArg Multiset.card h
  simpa [Multiset.coe_card] using this

/-! ### The `htInsert` layer -/

theorem keyIndex_lt_size (hash : Nat → Nat) (t : Dictht) (k : Nat)
    (hmask : t.sizemask = t.size - 1) (h2 : IsP2 t.size) :
    keyIndex hash t k < t.size := by
  rcases h2 with ⟨j, hj⟩
  rw [keyIndex, hmask, hj, Nat.and_pow_two_sub_one_eq_mod]
  exact Nat.mod_lt _ (Nat.two_pow_pos j)

theorem htInsert_size (hash : Nat → Nat) (t : Dictht) (e : DictEntry) :
    (htInsert hash t e).size = t.size := rfl

theorem htInsert_sizemask (hash : Nat → Nat) (t : Dictht) (e : DictEntry) :
    (htInsert hash t e).sizemask = t.sizemask := rfl

theorem htInsert_used (hash : Nat → Nat) (t : Dictht) (e : DictEntry) :
    (htInsert hash t e).used = t.used + 1 := rfl

theorem htInsert_length (hash : Nat → Nat) (t : Dictht) (e : DictEntry) :
    (htInsert hash t e).table.length = t.table.length := by
  simp [htInsert, bucketSet]

theorem htInsert_ms (hash : Nat → Nat) (t : Dictht) (e : DictEntry)
    (h : keyIndex hash t e.key < t.table.length) :
    ((htInsert hash t e).table.flatten : Multiset DictEntry) =
      (t.table.flatten : Multiset DictEntry) + ([e] : List DictEntry) := by
  have hms := flatten_set_ms t.table (keyIndex hash t e.key)
    (e :: bucketGet t (keyIndex hash t e.key)) h
  refine add_right_cancel
    (b := ((t.table.getD (keyIndex hash t e.key) [] : List DictEntry) : Multiset DictEntry)) ?_
  rw [show ((htInsert hash t e).table.flatten : Multiset DictEntry)
      = ((t.table.set (keyIndex hash t e.key)
          (e :: bucketGet t (keyIndex hash t e.key))).flatten : Multiset DictEntry) from rfl]
  rw [hms, add_assoc]
  congr 1

theorem htInsert_placement (hash : Nat → Nat) (t : Dictht) (e : DictEntry)
    (hp : htPlacement hash t) : htPlacement hash (htInsert hash t e) := by
  intro i hi e' he'
  rw [htInsert_length] at hi
  have htab : (htInsert hash t e).table
      = t.table.set (keyIndex hash t e.key) (e :: bucketGet t (keyIndex hash t e.key)) := rfl
  by_cases hie : i = keyIndex hash t e.key
  · have hkey : keyIndex hash t e.key < t.table.length := hie ▸ hi
    rw [htab, hie, getD_set_self _ _ _ _ hkey] at he'
    rw [htInsert_sizemask, hie]
    rcases List.mem_cons.mp he' with h | h
    · rw [h]
      rfl
    · exact hp _ hkey e' h
  · rw [htab, getD_set_ne _ _ _ _ _ (fun hh => hie hh.symm)] at he'
    rw [htInsert_sizemask]
    exact hp i hi e' he'

/-! ### Miscellaneous facts about the model -/

theorem not_rehashing_rehashidx {d : Dict} (h : dictIsRehashing d = false) :
    d.rehashidx = -1 := by
  simpa [dictIsRehashing] using h

theorem rehashing_of_rehashidx {d : Dict} (h : d.rehashidx ≠ -1) :
    dictIsRehashing d = true := by
  simpa [dictIsRehashing] using h

theorem getD_ne_nil_lt {α : Type} {l : List (List α)} {i : Nat}
    (h : l.getD i [] ≠ []) : i < l.length := by
  by_contra hc
  rw [List.getD_eq_getElem?_getD, List.getElem?_eq_none (Nat.le_of_not_lt hc)] at h
  simp at h

theorem sum_pos_exists_bucket {l : List (List DictEntry)}
    (h : (l.map List.length).sum ≠ 0) : ∃ i, i < l.length ∧ l.getD i [] ≠ [] := by
  induction l with
  | nil => simp at h
  | cons x xs ih =>
    by_cases hx : x = []
    · subst hx
      simp only [List.map_cons, List.length_nil, List.sum_cons, Nat.zero_add] at h
      rcases ih h with ⟨i, hi, hne⟩
      exact ⟨i + 1, by simpa using hi, by simpa using hne⟩
    · exact ⟨0, by simp, by simpa using hx⟩

theorem rehashSkip_spec (tbl : List (List DictEntry)) :
    ∀ ev idx,
      idx ≤ (rehashSkip tbl idx ev).1 ∧
      (∀ j, idx ≤ j → j < (rehashSkip tbl idx ev).1 → tbl.getD j [] = []) ∧
      (rehashSkip tbl idx ev).1 - idx ≤ ev ∧
      ((rehashSkip tbl idx ev).2.2 = true →
        tbl.getD (rehashSkip tbl idx ev).1 [] ≠ [] ∧
        (rehashSkip tbl idx ev).2.1 + ((rehashSkip tbl idx ev).1 - idx) = ev) := by
  intro ev
  induction ev using Nat.strong_induction_on with
  | _ ev ih =>
    intro idx
    match ev with
    | 0 =>
      cases hb : tbl.getD idx [] with
      | nil =>
        simp only [rehashSkip, hb]
        refine ⟨Nat.le_refl _, ?_, by omega, by simp⟩
        intro j h1 h2
        omega
      | cons x xs =>
        simp only [rehashSkip, hb]
        refine ⟨Nat.le_refl _, ?_, by omega, ?_⟩
        · intro j h1 h2
          omega
        · intro _
          exact ⟨by simp, by omega⟩
    | 1 =>
      cases hb : tbl.getD idx [] with
      | nil =>
        simp only [rehashSkip, hb]
        refine ⟨by omega, ?_, by omega, by simp⟩
        intro j h1 h2
        have : j = idx := by omega
        rw [this, hb]
      | cons x xs =>
        simp only [rehashSkip, hb]
        refine ⟨Nat.le_refl _, ?_, by omega, ?_⟩
        · intro j h1 h2
          omega
        · intro _
          exact ⟨by simp, by omega⟩
    | ev' + 2 =>
      cases hb : tbl.getD idx [] with
      | nil =>
        have hrec := ih (ev' + 1) (by omega) (idx + 1)
        simp only [rehashSkip, hb]
        refine ⟨by omega, ?_, by omega, ?_⟩
        · intro j h1 h2
          by_cases hj : j = idx
          · rw [hj, hb]
          · exact hrec.2.1 j (by omega) h2
        · intro hf
          refine ⟨hrec.2.2.2 hf |>.1, ?_⟩
          have h2 := hrec.2.2.2 hf |>.2
          have h0 := hrec.1
          omega
      | cons x xs =>
        simp only [rehashSkip, hb]
        refine ⟨Nat.le_refl _, ?_, by omega, ?_⟩
        · intro j h1 h2
          omega
        · intro _
          exact ⟨by simp, by omega⟩

theorem pow2_double_le {i p : Nat} (hi : IsP2 i) (hp : IsP2 p) (h : i < p) :
    2 * i ≤ p := by
  rcases hi with ⟨a, rfl⟩
  rcases hp with ⟨b, rfl⟩
  have hab : a < b := by
    by_contra hc
    have hba : (2 : Nat) ^ b ≤ 2 ^ a := Nat.pow_le_pow_right (by norm_num) (Nat.le_of_not_lt hc)
    omega
  calc 2 * 2 ^ a = 2 ^ (a + 1) := by ring
  _ ≤ 2 ^ b := Nat.pow_le_pow_right (by norm_num) (by omega)

theorem nextPowerLoop_spec :
    ∀ (f i s : Nat), IsP2 i → 0 < i → s ≤ i * 2 ^ f →
      IsP2 (nextPowerLoop f i s) ∧ i ≤ nextPowerLoop f i s ∧ s ≤ nextPowerLoop f i s ∧
      (∀ p, IsP2 p → s ≤ p → i ≤ p → nextPowerLoop f i s ≤ p) := by
  intro f
  induction f with
  | zero =>
    intro i s h2 hpos hle
    rw [Nat.pow_zero, Nat.mul_one] at hle
    simp only [nextPowerLoop]
    exact ⟨h2, Nat.le_refl _, hle, fun p _ _ hip => hip⟩
  | succ f ih =>
    intro i s h2 hpos hle
    simp only [nextPowerLoop]
    by_cases hsi : s ≤ i
    · rw [if_pos hsi]
      exact ⟨h2, Nat.le_refl _, hsi, fun p _ _ hip => hip⟩
    · rw [if_neg hsi]
      have h2i : IsP2 (2 * i) := by
        rcases h2 with ⟨a, rfl⟩
        exact ⟨a + 1, by ring⟩
      have hle2 : s ≤ 2 * i * 2 ^ f := by
        have : i * 2 ^ (f + 1) = 2 * i * 2 ^ f := by ring
        omega
      rcases ih (2 * i) s h2i (by omega) hle2 with ⟨r1, r2, r3, r4⟩
      refine ⟨r1, by omega, r3, ?_⟩
      intro p hp hsp hip
      refine r4 p hp hsp ?_
      exact pow2_double_le h2 hp (by omega)

theorem dictNextPower_spec (s : Nat) :
    IsP2 (dictNextPower s) ∧ s ≤ dictNextPower s ∧ 4 ≤ dictNextPower s ∧
    (∀ p, IsP2 p → s ≤ p → 4 ≤ p → dictNextPower s ≤ p) := by
  have h4 : IsP2 4 := ⟨2, rfl⟩
  have hfuel : s ≤ 4 * 2 ^ s := by
    have := Nat.lt_two_pow s
    omega
  rcases nextPowerLoop_spec s 4 s h4 (by omega) hfuel with ⟨r1, r2, r3, r4⟩
  exact ⟨r1, r3, r2, fun p hp hsp h4p => r4 p hp hsp h4p⟩

/-! ### Migration of buckets into `ht[1]` -/

theorem perm_of_ms {α : Type} {l1 l2 : List α}
    (h : (l1 : Multiset α) = (l2 : List α)) : l1.Perm l2 :=
  Multiset.coe_eq_coe.mp h

theorem countP_of_ms {α : Type} {p : α → Bool} {l1 l2 l3 l4 : List α}
    (h : (l1 : Multiset α) + (l2 : List α) =
      (l3 : Multiset α) + (l4 : List α)) :
    l1.countP p + l2.countP p = l3.countP p + l4.countP p := by
  rw [Multiset.coe_add, Multiset.coe_add] at h
  have hperm := perm_of_ms h
  have := hperm.countP_eq p
  simpa [List.countP_append] using this

theorem countP_of_ms_eq {α : Type} {p : α → Bool} {l1 l2 : List α}
    (h : (l1 : Multiset α) = (l2 : List α)) :
    l1.countP p = l2.countP p :=
  (perm_of_ms h).countP_eq p

theorem mem_of_ms {α : Type} {l1 l2 : List α}
    (h : (l1 : Multiset α) = (l2 : List α)) (e : α) :
    e ∈ l1 ↔ e ∈ l2 :=
  (perm_of_ms h).mem_iff

theorem foldl_htInsert_props (hash : Nat → Nat) :
    ∀ (b : List DictEntry) (t : Dictht), t.table.length = t.size →
      t.sizemask = t.size - 1 → IsP2 t.size →
      (b.foldl (htInsert hash) t).size = t.size ∧
      (b.foldl (htInsert hash) t).sizemask = t.sizemask ∧
      (b.foldl (htInsert hash) t).table.length = t.table.length ∧
      (b.foldl (htInsert hash) t).used = t.used + b.length ∧
      ((b.foldl (htInsert hash) t).table.flatten : Multiset DictEntry) =
        (t.table.flatten : Multiset DictEntry) + (b : List DictEntry) ∧
      (htPlacement hash t → htPlacement hash (b.foldl (htInsert hash) t)) := by
  intro b
  induction b with
  | nil =>
    intro t h1 h2 h3
    simp
  | cons e b ih =>
    intro t h1 h2 h3
    have hki : keyIndex hash t e.key < t.table.length := by
      rw [h1]
      exact keyIndex_lt_size hash t e.key h2 h3
    have hlen := htInsert_length hash t e
    rcases ih (htInsert hash t e) (by rw [hlen, htInsert_size, h1])
        (by rw [htInsert_sizemask, htInsert_size, h2])
        (by rw [htInsert_size]; exact h3) with ⟨r1, r2, r3, r4, r5, r6⟩
    rw [List.foldl_cons]
    refine ⟨by rw [r1, htInsert_size], by rw [r2, htInsert_sizemask],
      by rw [r3, hlen], ?_, ?_, ?_⟩
    · rw [r4, htInsert_used]
      simp only [List.length_cons]
      omega
    · rw [r5, htInsert_ms hash t e hki, add_assoc, Multiset.coe_add]
      simp
    · intro hp
      exact r6 (htInsert_placement hash t e hp)

theorem migrateBucket_props (hash : Nat → Nat) (d : Dict) (idx : Nat)
    (hWF : WF hash d) (hreh : dictIsRehashing d = true)
    (hidx : idx < d.ht0.size)
    (hpre : ∀ i, i < idx → d.ht0.table.getD i [] = []) :
    WF hash (migrateBucket hash d idx) ∧
    (dictAllEntries (migrateBucket hash d idx) : Multiset DictEntry) =
      (dictAllEntries d : List DictEntry) ∧
    dictSize (migrateBucket hash d idx) = dictSize d ∧
    dictIsRehashing (migrateBucket hash d idx) = true ∧
    (migrateBucket hash d idx).rehashidx = ((idx + 1 : Nat) : Int) ∧
    (migrateBucket hash d idx).pauserehash = d.pauserehash := by
  obtain ⟨⟨hlen0, hmask0, hused0, hpow0⟩, ⟨hlen1, hmask1, hused1, hpow1⟩,
    hp0, hp1, huniq, hrinv, hnon⟩ := hWF
  obtain ⟨hr0, hr1, hr2, hr3, hr4, hr5⟩ := hrinv hreh
  have hm0t : (migrateBucket hash d idx).ht0.table = d.ht0.table.set idx [] := rfl
  have hm0u : (migrateBucket hash d idx).ht0.used
      = d.ht0.used - (bucketGet d.ht0 idx).length := rfl
  have hm0s : (migrateBucket hash d idx).ht0.size = d.ht0.size := rfl
  have hm0m : (migrateBucket hash d idx).ht0.sizemask = d.ht0.sizemask := rfl
  have hm1 : (migrateBucket hash d idx).ht1
      = (bucketGet d.ht0 idx).foldl (htInsert hash) d.ht1 := rfl
  have hmr : (migrateBucket hash d idx).rehashidx = ((idx + 1 : Nat) : Int) := rfl
  have hmp : (migrateBucket hash d idx).pauserehash = d.pauserehash := rfl
  have hidxl : idx < d.ht0.table.length := by rw [hlen0]; exact hidx
  have hms0' : ((d.ht0.table.set idx []).flatten : Multiset DictEntry) +
      (bucketGet d.ht0 idx : List DictEntry) =
      (d.ht0.table.flatten : Multiset DictEntry) + (([] : List DictEntry) : Multiset DictEntry) := by
    have h := flatten_set_ms d.ht0.table idx [] hidxl
    exact h
  have hms0 : ((d.ht0.table.set idx []).flatten : Multiset DictEntry) +
      (bucketGet d.ht0 idx : List DictEntry) = (d.ht0.table.flatten : List DictEntry) := by
    rw [hms0', Multiset.coe_nil, add_zero]
  have hsum0 := sum_map_length_of_ms hms0'
  simp only [List.length_nil, Nat.add_zero] at hsum0
  rcases foldl_htInsert_props hash (bucketGet d.ht0 idx) d.ht1 hlen1 hmask1 hr3
    with ⟨f1, f2, f3, f4, f5, f6⟩
  have hrehm : dictIsRehashing (migrateBucket hash d idx) = true := by
    apply rehashing_of_rehashidx
    rw [hmr]
    omega
  have hblen : (bucketGet d.ht0 idx).length ≤ d.ht0.used := by omega
  have f5z : (((bucketGet d.ht0 idx).foldl (htInsert hash) d.ht1).table.flatten :
      Multiset DictEntry) + (([] : List DictEntry) : Multiset DictEntry) =
      (d.ht1.table.flatten : Multiset DictEntry) + (bucketGet d.ht0 idx : List DictEntry) := by
    rw [Multiset.coe_nil, add_zero]
    exact f5
  have hsum1 := sum_map_length_of_ms f5z
  simp only [List.length_nil, Nat.add_zero] at hsum1
  refine ⟨⟨?_, ?_, ?_, ?_, ?_, ?_, ?_⟩, ?_, ?_, ?_, ?_, ?_⟩
  · refine ⟨?_, ?_, ?_, ?_⟩
    · rw [hm0t, List.length_set, hlen0, hm0s]
    · rw [hm0m, hm0s]
      exact hmask0
    · rw [hm0u, hm0t]
      omega
    · rw [hm0s]
      exact hpow0
  · refine ⟨?_, ?_, ?_, ?_⟩
    · rw [hm1, f3, hlen1, f1]
    · rw [hm1, f2, f1, hmask1]
    · rw [hm1, f4, hused1]
      omega
    · rw [hm1, f1]
      exact hpow1
  · intro i hi e he
    rw [hm0t, List.length_set] at hi
    by_cases hii : i = idx
    · rw [hm0t, hii, getD_set_self _ _ _ _ hidxl] at he
      simp at he
    · rw [hm0t, getD_set_ne _ _ _ _ _ (fun hh => hii hh.symm)] at he
      rw [hm0m]
      exact hp0 i hi e he
  · rw [hm1]
    exact f6 hp1
  · intro k
    have hc0 := countP_of_ms (p := fun e => e.key == k) hms0'
    have hc1 := countP_of_ms (p := fun e => e.key == k) f5z
    have hq := huniq k
    have e0 : keyCount k (migrateBucket hash d idx).ht0
        = ((d.ht0.table.set idx []).flatten).countP (fun e => e.key == k) := by
      rw [keyCount, hm0t]
    have e1 : keyCount k (migrateBucket hash d idx).ht1
        = ((((bucketGet d.ht0 idx).foldl (htInsert hash) d.ht1).table.flatten)).countP
          (fun e => e.key == k) := by
      rw [keyCount, hm1]
    simp only [keyCount] at hq
    simp only [List.countP_nil] at hc0 hc1
    omega
  · intro hreh2
    refine ⟨by rw [hmr]; omega, ?_, by rw [hm0s]; exact hr2, ?_, ?_, ?_⟩
    · rw [hmr, hm0s]
      simp only [Int.toNat_natCast]
      omega
    · rw [hm1, f1]
      exact hr3
    · rw [hm0u, hm1, f1]
      omega
    · intro i hi
      rw [hmr] at hi
      simp only [Int.toNat_natCast] at hi
      rw [hm0t]
      by_cases hii : i = idx
      · rw [hii]
        exact getD_set_self _ _ _ _ hidxl
      · rw [getD_set_ne _ _ _ _ _ (fun hh => hii hh.symm)]
        exact hpre i (by omega)
  · intro hfalse
    rw [hrehm] at hfalse
    simp at hfalse
  · show ((d.ht0.table.set idx []).flatten ++
        ((bucketGet d.ht0 idx).foldl (htInsert hash) d.ht1).table.flatten : List DictEntry) =
      ((d.ht0.table.flatten ++ d.ht1.table.flatten : List DictEntry) : Multiset DictEntry)
    rw [← Multiset.coe_add, ← Multiset.coe_add, f5]
    calc ((d.ht0.table.set idx []).flatten : Multiset DictEntry) +
        ((d.ht1.table.flatten : Multiset DictEntry) + (bucketGet d.ht0 idx : List DictEntry))
        = (((d.ht0.table.set idx []).flatten : Multiset DictEntry) +
          (bucketGet d.ht0 idx : List DictEntry)) + (d.ht1.table.flatten : List DictEntry) := by
          abel
      _ = (d.ht0.table.flatten : Multiset DictEntry) + (d.ht1.table.flatten : List DictEntry) := by
          rw [hms0]
  · show d.ht0.used - (bucketGet d.ht0 idx).length +
      ((bucketGet d.ht0 idx).foldl (htInsert hash) d.ht1).used = dictSize d
    rw [f4]
    simp only [dictSize]
    omega
  · exact hrehm
  · exact hmr
  · exact hmp

/-! ### The rehash engine preserves well-formedness, the stored entries,
and the size -/

theorem rehashFinalizeCheck_props (hash : Nat → Nat) (d : Dict)
    (hWF : WF hash d) (hreh : dictIsRehashing d = true) :
    WF hash (rehashFinalizeCheck d).1 ∧
    (dictAllEntries (rehashFinalizeCheck d).1 : Multiset DictEntry) =
      (dictAllEntries d : List DictEntry) ∧
    dictSize (rehashFinalizeCheck d).1 = dictSize d ∧
    (rehashFinalizeCheck d).2 = dictIsRehashing (rehashFinalizeCheck d).1 ∧
    (rehashFinalizeCheck d).1.pauserehash = d.pauserehash := by
  obtain ⟨⟨hlen0, hmask0, hused0, hpow0⟩, ⟨hlen1, hmask1, hused1, hpow1⟩,
    hp0, hp1, huniq, hrinv, hnon⟩ := hWF
  by_cases hu : d.ht0.used = 0
  · have hfin : rehashFinalizeCheck d
        = ({ d with ht0 := d.ht1, ht1 := emptyHt, rehashidx := -1 }, false) := by
      rw [rehashFinalizeCheck, if_pos hu]
    have hsum : (d.ht0.table.map List.length).sum = 0 := by omega
    have hflat : d.ht0.table.flatten = [] := by
      rw [← List.length_eq_zero, List.length_flatten]
      exact hsum
    rw [hfin]
    refine ⟨⟨⟨hlen1, hmask1, hused1, hpow1⟩, ⟨rfl, rfl, rfl, Or.inl rfl⟩,
      hp1, ?_, ?_, ?_, ?_⟩, ?_, ?_, ?_, ?_⟩
    · intro i hi e he
      simp [emptyHt] at hi
    · intro k
      have hq := huniq k
      have h0 : keyCount k emptyHt = 0 := by
        simp [keyCount, emptyHt]
      show keyCount k d.ht1 + keyCount k emptyHt ≤ 1
      omega
    · intro h
      simp [dictIsRehashing] at h
    · intro _
      rfl
    · show ((d.ht1.table.flatten ++ (emptyHt.table.flatten) : List DictEntry) : Multiset DictEntry)
        = ((d.ht0.table.flatten ++ d.ht1.table.flatten : List DictEntry) : Multiset DictEntry)
      rw [hflat]
      simp [emptyHt]
    · show d.ht1.used + emptyHt.used = dictSize d
      simp only [dictSize, emptyHt]
      omega
    · show false = dictIsRehashing { d with ht0 := d.ht1, ht1 := emptyHt, rehashidx := -1 }
      simp [dictIsRehashing]
    · rfl
  · have hfin : rehashFinalizeCheck d = (d, true) := by
      rw [rehashFinalizeCheck, if_neg hu]
    rw [hfin]
    exact ⟨⟨⟨hlen0, hmask0, hused0, hpow0⟩, ⟨hlen1, hmask1, hused1, hpow1⟩,
      hp0, hp1, huniq, hrinv, hnon⟩, rfl, rfl, hreh.symm, rfl⟩

theorem rehashLoop_succ (hash : Nat → Nat) (d : Dict) (n ev : Nat) :
    rehashLoop hash d (n + 1) ev =
      if d.ht0.used = 0 then rehashFinalizeCheck d
      else if (rehashSkip d.ht0.table d.rehashidx.toNat ev).2.2 then
        rehashLoop hash (migrateBucket hash d (rehashSkip d.ht0.table d.rehashidx.toNat ev).1) n
          (rehashSkip d.ht0.table d.rehashidx.toNat ev).2.1
      else ({ d with
        rehashidx := (((rehashSkip d.ht0.table d.rehashidx.toNat ev).1 : Nat) : Int) }, true) :=
  rfl

theorem rehashLoop_props (hash : Nat → Nat) :
    ∀ (n : Nat) (d : Dict) (ev : Nat), WF hash d → dictIsRehashing d = true →
      WF hash (rehashLoop hash d n ev).1 ∧
      (dictAllEntries (rehashLoop hash d n ev).1 : Multiset DictEntry) =
        (dictAllEntries d : List DictEntry) ∧
      dictSize (rehashLoop hash d n ev).1 = dictSize d ∧
      (rehashLoop hash d n ev).2 = dictIsRehashing (rehashLoop hash d n ev).1 ∧
      (rehashLoop hash d n ev).1.pauserehash = d.pauserehash := by
  intro n
  induction n with
  | zero =>
    intro d ev hWF hreh
    exact rehashFinalizeCheck_props hash d hWF hreh
  | succ n ih =>
    intro d ev hWF hreh
    rw [rehashLoop_succ]
    by_cases hu : d.ht0.used = 0
    · rw [if_pos hu]
      exact rehashFinalizeCheck_props hash d hWF hreh
    · rw [if_neg hu]
      obtain ⟨hw0, hw1, hp0, hp1, huniq, hrinv, hnon⟩ := hWF
      obtain ⟨hr0, hr1, hr2, hr3, hr4, hr5⟩ := hrinv hreh
      obtain ⟨hsk1, hsk2, hsk3, hsk4⟩ := rehashSkip_spec d.ht0.table ev d.rehashidx.toNat
      have hWF2 : WF hash d := ⟨hw0, hw1, hp0, hp1, huniq, fun _ => ⟨hr0, hr1, hr2, hr3, hr4, hr5⟩, hnon⟩
      have hpreAll : ∀ i, i < (rehashSkip d.ht0.table d.rehashidx.toNat ev).1 →
          d.ht0.table.getD i [] = [] := by
        intro i hi
        by_cases hlow : i < d.rehashidx.toNat
        · exact hr5 i hlow
        · exact hsk2 i (Nat.le_of_not_lt hlow) hi
      cases hfound : (rehashSkip d.ht0.table d.rehashidx.toNat ev).2.2 with
      | true =>
        rw [if_pos rfl]
        have hne := (hsk4 hfound).1
        have hidxlen : (rehashSkip d.ht0.table d.rehashidx.toNat ev).1 < d.ht0.table.length :=
          getD_ne_nil_lt hne
        have hidxsz : (rehashSkip d.ht0.table d.rehashidx.toNat ev).1 < d.ht0.size := by
          rw [← hw0.1]
          exact hidxlen
        obtain ⟨m1, m2, m3, m4, m5, m6⟩ := migrateBucket_props hash d
          (rehashSkip d.ht0.table d.rehashidx.toNat ev).1 hWF2 hreh hidxsz hpreAll
        obtain ⟨l1, l2, l3, l4, l5⟩ :=
          ih (migrateBucket hash d (rehashSkip d.ht0.table d.rehashidx.toNat ev).1)
            (rehashSkip d.ht0.table d.rehashidx.toNat ev).2.1 m1 m4
        refine ⟨l1, ?_, ?_, l4, ?_⟩
        · rw [l2]
          exact m2
        · rw [l3, m3]
        · rw [l5, m6]
      | false =>
        rw [if_neg (by simp)]
        have hreh' : dictIsRehashing
            { d with rehashidx :=
              (((rehashSkip d.ht0.table d.rehashidx.toNat ev).1 : Nat) : Int) } = true := by
          apply rehashing_of_rehashidx
          show (((rehashSkip d.ht0.table d.rehashidx.toNat ev).1 : Nat) : Int) ≠ -1
          omega
        have hex : ∃ j, j < d.ht0.table.length ∧ d.ht0.table.getD j [] ≠ [] := by
          apply sum_pos_exists_bucket
          have := hw0.2.2.1
          omega
        obtain ⟨j, hjlen, hjne⟩ := hex
        have hji : (rehashSkip d.ht0.table d.rehashidx.toNat ev).1 ≤ j := by
          by_contra hc
          exact hjne (hpreAll j (Nat.lt_of_not_le hc))
        have hi1size : (rehashSkip d.ht0.table d.rehashidx.toNat ev).1 ≤ d.ht0.size := by
          rw [← hw0.1]
          omega
        refine ⟨⟨hw0, hw1, hp0, hp1, huniq, ?_, ?_⟩, rfl, rfl, hreh'.symm, rfl⟩
        · intro _
          refine ⟨?_, ?_, hr2, hr3, hr4, ?_⟩
          · show (0 : Int) ≤ (((rehashSkip d.ht0.table d.rehashidx.toNat ev).1 : Nat) : Int)
            omega
          · show ((((rehashSkip d.ht0.table d.rehashidx.toNat ev).1 : Nat) : Int)).toNat
              ≤ d.ht0.size
            omega
          · intro i hi
            rw [show ((((rehashSkip d.ht0.table d.rehashidx.toNat ev).1 : Nat) : Int)).toNat
                = (rehashSkip d.ht0.table d.rehashidx.toNat ev).1 from by omega] at hi
            exact hpreAll i hi
        · intro h
          simp [hreh'] at h

theorem bool_eq_false {b : Bool} (h : ¬ b = true) : b = false := by
  cases b
  · rfl
  · exact absurd rfl h

theorem dictRehash_props (hash : Nat → Nat) (d : Dict) (n : Nat) (hWF : WF hash d) :
    WF hash (dictRehash hash d n).1 ∧
    (dictAllEntries (dictRehash hash d n).1 : Multiset DictEntry) =
      (dictAllEntries d : List DictEntry) ∧
    dictSize (dictRehash hash d n).1 = dictSize d ∧
    (dictRehash hash d n).2 = dictIsRehashing (dictRehash hash d n).1 ∧
    (dictRehash hash d n).1.pauserehash = d.pauserehash := by
  by_cases hreh : dictIsRehashing d = true
  · have he : dictRehash hash d n = rehashLoop hash d n (n * 10) := by
      rw [dictRehash, hreh]
      simp
    rw [he]
    exact rehashLoop_props hash n d (n * 10) hWF hreh
  · have hf : dictIsRehashing d = false := bool_eq_false hreh
    have he : dictRehash hash d n = (d, false) := by
      rw [dictRehash, hf]
      simp
    rw [he]
    exact ⟨hWF, rfl, rfl, hf.symm, rfl⟩

theorem dictRehashStep_props (hash : Nat → Nat) (d : Dict) (hWF : WF hash d) :
    WF hash (dictRehashStep hash d) ∧
    (dictAllEntries (dictRehashStep hash d) : Multiset DictEntry) =
      (dictAllEntries d : List DictEntry) ∧
    dictSize (dictRehashStep hash d) = dictSize d ∧
    (dictRehashStep hash d).pauserehash = d.pauserehash := by
  by_cases hz : d.pauserehash = 0
  · have he : dictRehashStep hash d = (dictRehash hash d 1).1 := by
      rw [dictRehashStep, if_pos hz]
    rw [he]
    obtain ⟨r1, r2, r3, _, r5⟩ := dictRehash_props hash d 1 hWF
    exact ⟨r1, r2, r3, r5⟩
  · have he : dictRehashStep hash d = d := by
      rw [dictRehashStep, if_neg hz]
    rw [he]
    exact ⟨hWF, rfl, rfl, rfl⟩

theorem wf_create (hash : Nat → Nat) : WF hash dictCreate := by
  refine ⟨⟨rfl, rfl, rfl, Or.inl rfl⟩, ⟨rfl, rfl, rfl, Or.inl rfl⟩, ?_, ?_, ?_, ?_, ?_⟩
  · intro i hi e he
    simp [dictCreate, emptyHt] at hi
  · intro i hi e he
    simp [dictCreate, emptyHt] at hi
  · intro k
    simp [keyCount, dictCreate, emptyHt]
  · intro h
    simp [dictIsRehashing, dictCreate] at h
  · intro _
    rfl

/-! ### Expansion -/

theorem newHt_length (n : Nat) : (newHt n).table.length = n := by
  simp [newHt]

theorem flatten_replicate_nil (n : Nat) :
    (List.replicate n ([] : List DictEntry)).flatten = [] := by
  induction n with
  | zero => rfl
  | succ n ih => simp [List.replicate_succ, ih]

theorem newHt_flatten (n : Nat) : (newHt n).table.flatten = [] :=
  flatten_replicate_nil n

theorem newHt_wf (n : Nat) (h : IsP2 n) : htWF (newHt n) := by
  refine ⟨newHt_length n, rfl, ?_, Or.inr h⟩
  have hf := congrArg List.length (newHt_flatten n)
  rw [List.length_flatten] at hf
  simpa [newHt] using hf.symm

theorem newHt_placement (hash : Nat → Nat) (n : Nat) : htPlacement hash (newHt n) := by
  intro i hi e he
  have hg : (newHt n).table.getD i [] = [] := by
    show (List.replicate n ([] : List DictEntry)).getD i [] = []
    rcases Nat.lt_or_ge i n with hlt | hge
    · rw [getD_eq_getElem _ _ _ (by simpa using hlt)]
      simp
    · rw [List.getD_eq_getElem?_getD, List.getElem?_eq_none (by simpa using hge)]
      rfl
  rw [hg] at he
  simp at he

theorem newHt_keyCount (k n : Nat) : keyCount k (newHt n) = 0 := by
  rw [keyCount, newHt_flatten]
  rfl

theorem htWF_size_zero {t : Dictht} (hw : htWF t) (h : t.size = 0) :
    t.table = [] ∧ t.used = 0 := by
  have hl : t.table.length = 0 := by rw [hw.1, h]
  have ht : t.table = [] := List.length_eq_zero.mp hl
  refine ⟨ht, ?_⟩
  have := hw.2.2.1
  rw [ht] at this
  simpa using this

theorem dictExpand_fail_rehashing (d : Dict) (s : Nat) (h : dictIsRehashing d = true) :
    dictExpand d s = (d, false) := by
  simp [dictExpand, h]

theorem dictExpand_fail_small (d : Dict) (s : Nat) (h : dictIsRehashing d = false)
    (h2 : dictNextPower s < d.ht0.used) : dictExpand d s = (d, false) := by
  simp [dictExpand, h, h2]

theorem dictExpand_fail_same (d : Dict) (s : Nat) (h : dictIsRehashing d = false)
    (h2 : ¬ dictNextPower s < d.ht0.used) (h3 : dictNextPower s = d.ht0.size) :
    dictExpand d s = (d, false) := by
  simp [dictExpand, h, h2, h3]

theorem dictExpand_install (d : Dict) (s : Nat) (h : dictIsRehashing d = false)
    (h2 : ¬ dictNextPower s < d.ht0.used) (h3 : dictNextPower s ≠ d.ht0.size)
    (h4 : d.ht0.size = 0) :
    dictExpand d s = ({ d with ht0 := newHt (dictNextPower s) }, true) := by
  have h3' : ¬ dictNextPower s = 0 := by
    rw [h4] at h3
    exact h3
  simp [dictExpand, h, h2, h3', h4]

theorem dictExpand_arm (d : Dict) (s : Nat) (h : dictIsRehashing d = false)
    (h2 : ¬ dictNextPower s < d.ht0.used) (h3 : dictNextPower s ≠ d.ht0.size)
    (h4 : d.ht0.size ≠ 0) :
    dictExpand d s = ({ d with ht1 := newHt (dictNextPower s), rehashidx := 0 }, true) := by
  simp [dictExpand, h, h2, h3, h4]

theorem dictExpand_install_props (hash : Nat → Nat) (d : Dict) (s : Nat) (hWF : WF hash d)
    (h : dictIsRehashing d = false) (h2 : ¬ dictNextPower s < d.ht0.used)
    (h3 : dictNextPower s ≠ d.ht0.size) (h4 : d.ht0.size = 0) :
    WF hash ({ d with ht0 := newHt (dictNextPower s) }) ∧
    (dictAllEntries ({ d with ht0 := newHt (dictNextPower s) }) : Multiset DictEntry) =
      (dictAllEntries d : List DictEntry) ∧
    dictSize ({ d with ht0 := newHt (dictNextPower s) }) = dictSize d ∧
    dictIsRehashing ({ d with ht0 := newHt (dictNextPower s) }) = false ∧
    0 < ({ d with ht0 := newHt (dictNextPower s) }).ht0.size := by
  obtain ⟨hw0, hw1, hp0, hp1, huniq, hrinv, hnon⟩ := hWF
  obtain ⟨hpow, hges, hge4, hmin⟩ := dictNextPower_spec s
  obtain ⟨htab0, hu0⟩ := htWF_size_zero hw0 h4
  have hrehE : dictIsRehashing ({ d with ht0 := newHt (dictNextPower s) }) = false := h
  refine ⟨⟨newHt_wf _ hpow, hw1, newHt_placement hash _, hp1, ?_, ?_, ?_⟩, ?_, ?_, hrehE, ?_⟩
  · intro k
    have hq := huniq k
    have h0 : keyCount k (newHt (dictNextPower s)) = 0 := newHt_keyCount k _
    show keyCount k (newHt (dictNextPower s)) + keyCount k d.ht1 ≤ 1
    omega
  · intro hcontra
    rw [hrehE] at hcontra
    simp at hcontra
  · intro _
    exact hnon h
  · show (((newHt (dictNextPower s)).table.flatten ++ d.ht1.table.flatten : List DictEntry) :
      Multiset DictEntry) = ((d.ht0.table.flatten ++ d.ht1.table.flatten : List DictEntry) :
      Multiset DictEntry)
    rw [newHt_flatten, htab0]
    rfl
  · show (newHt (dictNextPower s)).used + d.ht1.used = dictSize d
    simp only [dictSize, newHt]
    omega
  · show 0 < (newHt (dictNextPower s)).size
    simp only [newHt]
    omega

theorem dictExpand_arm_props (hash : Nat → Nat) (d : Dict) (s : Nat) (hWF : WF hash d)
    (h : dictIsRehashing d = false) (h2 : ¬ dictNextPower s < d.ht0.used)
    (h3 : dictNextPower s ≠ d.ht0.size) (h4 : d.ht0.size ≠ 0) :
    WF hash ({ d with ht1 := newHt (dictNextPower s), rehashidx := 0 }) ∧
    (dictAllEntries ({ d with ht1 := newHt (dictNextPower s), rehashidx := 0 }) :
      Multiset DictEntry) = (dictAllEntries d : List DictEntry) ∧
    dictSize ({ d with ht1 := newHt (dictNextPower s), rehashidx := 0 }) = dictSize d ∧
    dictIsRehashing ({ d with ht1 := newHt (dictNextPower s), rehashidx := 0 }) = true := by
  obtain ⟨hw0, hw1, hp0, hp1, huniq, hrinv, hnon⟩ := hWF
  obtain ⟨hpow, hges, hge4, hmin⟩ := dictNextPower_spec s
  have hht1 : d.ht1 = emptyHt := hnon h
  have hrehA : dictIsRehashing ({ d with ht1 := newHt (dictNextPower s), rehashidx := 0 })
      = true := by
    apply rehashing_of_rehashidx
    show (0 : Int) ≠ -1
    omega
  refine ⟨⟨hw0, newHt_wf _ hpow, hp0, newHt_placement hash _, ?_, ?_, ?_⟩, ?_, ?_, hrehA⟩
  · intro k
    have hq := huniq k
    have h0 : keyCount k (newHt (dictNextPower s)) = 0 := newHt_keyCount k _
    show keyCount k d.ht0 + keyCount k (newHt (dictNextPower s)) ≤ 1
    omega
  · intro _
    refine ⟨?_, ?_, ?_, ?_, ?_, ?_⟩
    · show (0 : Int) ≤ (0 : Int)
      omega
    · show ((0 : Int)).toNat ≤ d.ht0.size
      omega
    · show 0 < d.ht0.size
      omega
    · show IsP2 (newHt (dictNextPower s)).size
      exact hpow
    · show d.ht0.used ≤ (newHt (dictNextPower s)).size
      show d.ht0.used ≤ dictNextPower s
      omega
    · intro i hi
      exact absurd (show i < 0 from hi) (by omega)
  · intro hcontra
    rw [hrehA] at hcontra
    simp at hcontra
  · show ((d.ht0.table.flatten ++ (newHt (dictNextPower s)).table.flatten : List DictEntry) :
      Multiset DictEntry) = ((d.ht0.table.flatten ++ d.ht1.table.flatten : List DictEntry) :
      Multiset DictEntry)
    rw [newHt_flatten, hht1]
    rfl
  · show d.ht0.used + (newHt (dictNextPower s)).used = dictSize d
    rw [dictSize, hht1]
    rfl

theorem dictExpand_props (hash : Nat → Nat) (d : Dict) (s : Nat) (hWF : WF hash d) :
    WF hash (dictExpand d s).1 ∧
    (dictAllEntries (dictExpand d s).1 : Multiset DictEntry) =
      (dictAllEntries d : List DictEntry) ∧
    dictSize (dictExpand d s).1 = dictSize d ∧
    (dictExpand d s).1.pauserehash = d.pauserehash := by
  by_cases h : dictIsRehashing d = true
  · rw [dictExpand_fail_rehashing d s h]
    exact ⟨hWF, rfl, rfl, rfl⟩
  · have hfalse := bool_eq_false h
    by_cases h2 : dictNextPower s < d.ht0.used
    · rw [dictExpand_fail_small d s hfalse h2]
      exact ⟨hWF, rfl, rfl, rfl⟩
    · by_cases h3 : dictNextPower s = d.ht0.size
      · rw [dictExpand_fail_same d s hfalse h2 h3]
        exact ⟨hWF, rfl, rfl, rfl⟩
      · by_cases h4 : d.ht0.size = 0
        · rw [dictExpand_install d s hfalse h2 h3 h4]
          obtain ⟨e1, e2, e3, _, _⟩ := dictExpand_install_props hash d s hWF hfalse h2 h3 h4
          exact ⟨e1, e2, e3, rfl⟩
        · rw [dictExpand_arm d s hfalse h2 h3 h4]
          obtain ⟨e1, e2, e3, _⟩ := dictExpand_arm_props hash d s hWF hfalse h2 h3 h4
          exact ⟨e1, e2, e3, rfl⟩

theorem dictExpandIfNeeded_props (hash : Nat → Nat) (d : Dict) (hWF : WF hash d) :
    WF hash (dictExpandIfNeeded d) ∧
    (dictAllEntries (dictExpandIfNeeded d) : Multiset DictEntry) =
      (dictAllEntries d : List DictEntry) ∧
    dictSize (dictExpandIfNeeded d) = dictSize d ∧
    (dictExpandIfNeeded d).pauserehash = d.pauserehash ∧
    (dictIsRehashing (dictExpandIfNeeded d) = true ∨ 0 < (dictExpandIfNeeded d).ht0.size) := by
  by_cases h : dictIsRehashing d = true
  · have he : dictExpandIfNeeded d = d := by
      simp [dictExpandIfNeeded, h]
    rw [he]
    exact ⟨hWF, rfl, rfl, rfl, Or.inl h⟩
  · have hfalse := bool_eq_false h
    by_cases h0 : d.ht0.size = 0
    · have he : dictExpandIfNeeded d = (dictExpand d DICT_HT_INITIAL_SIZE).1 := by
        simp [dictExpandIfNeeded, hfalse, h0]
      obtain ⟨htab0, hu0⟩ := htWF_size_zero hWF.1 h0
      obtain ⟨hpow, hges, hge4, hmin⟩ := dictNextPower_spec DICT_HT_INITIAL_SIZE
      have h2 : ¬ dictNextPower DICT_HT_INITIAL_SIZE < d.ht0.used := by omega
      have h3 : dictNextPower DICT_HT_INITIAL_SIZE ≠ d.ht0.size := by omega
      obtain ⟨e1, e2, e3, e4, e5⟩ :=
        dictExpand_install_props hash d DICT_HT_INITIAL_SIZE hWF hfalse h2 h3 h0
      rw [he, dictExpand_install d DICT_HT_INITIAL_SIZE hfalse h2 h3 h0]
      exact ⟨e1, e2, e3, rfl, Or.inr e5⟩
    · by_cases hu : d.ht0.size ≤ d.ht0.used
      · have he : dictExpandIfNeeded d = (dictExpand d (d.ht0.used + 1)).1 := by
          simp [dictExpandIfNeeded, hfalse, h0, hu]
        obtain ⟨hpow, hges, hge4, hmin⟩ := dictNextPower_spec (d.ht0.used + 1)
        have h2 : ¬ dictNextPower (d.ht0.used + 1) < d.ht0.used := by omega
        have h3 : dictNextPower (d.ht0.used + 1) ≠ d.ht0.size := by omega
        obtain ⟨e1, e2, e3, e4⟩ :=
          dictExpand_arm_props hash d (d.ht0.used + 1) hWF hfalse h2 h3 h0
        rw [he, dictExpand_arm d (d.ht0.used + 1) hfalse h2 h3 h0]
        exact ⟨e1, e2, e3, rfl, Or.inl e4⟩
      · have he : dictExpandIfNeeded d = d := by
          simp [dictExpandIfNeeded, hfalse, h0, hu]
        rw [he]
        exact ⟨hWF, rfl, rfl, rfl, Or.inr (by omega)⟩

/-! ### Characterizing lookup on well-formed dictionaries -/

theorem chainFind_some {k : Nat} {b : List DictEntry} {e : DictEntry}
    (h : chainFind k b = some e) : e ∈ b ∧ e.key = k := by
  refine ⟨List.mem_of_find?_eq_some h, ?_⟩
  have := List.find?_some h
  simpa using this

theorem chainFind_none {k : Nat} {b : List DictEntry} :
    chainFind k b = none ↔ ∀ e ∈ b, e.key ≠ k := by
  rw [chainFind, List.find?_eq_none]
  constructor
  · intro h e he
    have := h e he
    simpa using this
  · intro h e he
    simpa using h e he

theorem chainFind_of_mem {k : Nat} {b : List DictEntry} {e : DictEntry}
    (he : e ∈ b) (hk : e.key = k) :
    ∃ e', chainFind k b = some e' ∧ e' ∈ b ∧ e'.key = k := by
  cases hf : chainFind k b with
  | none =>
    exact absurd hk (chainFind_none.mp hf e he)
  | some e' =>
    exact ⟨e', rfl, chainFind_some hf⟩

theorem key_mem_countP_pos {k : Nat} {l : List DictEntry} {e : DictEntry}
    (he : e ∈ l) (hk : e.key = k) :
    0 < l.countP (fun x => x.key == k) := by
  refine List.countP_pos_iff.mpr ⟨e, he, ?_⟩
  simpa using hk

theorem dictFindNoStep_some_iff (hash : Nat → Nat) (d : Dict) (k : Nat) (e : DictEntry)
    (hWF : WF hash d) :
    dictFindNoStep hash d k = some e ↔ (e ∈ dictAllEntries d ∧ e.key = k) := by
  obtain ⟨hw0, hw1, hp0, hp1, huniq, hrinv, hnon⟩ := hWF
  constructor
  · intro hf
    rw [dictFindNoStep] at hf
    cases h0 : chainFind k (bucketGet d.ht0 (keyIndex hash d.ht0 k)) with
    | some e0 =>
      rw [h0] at hf
      obtain ⟨hmem, hkey⟩ := chainFind_some h0
      cases hf
      refine ⟨?_, hkey⟩
      rw [dictAllEntries, List.mem_append]
      exact Or.inl (getD_mem_flatten hmem)
    | none =>
      rw [h0] at hf
      by_cases hreh : dictIsRehashing d = true
      · rw [hreh] at hf
        simp only [if_true] at hf
        obtain ⟨hmem, hkey⟩ := chainFind_some hf
        refine ⟨?_, hkey⟩
        rw [dictAllEntries, List.mem_append]
        exact Or.inr (getD_mem_flatten hmem)
      · rw [bool_eq_false hreh] at hf
        simp at hf
  · rintro ⟨hmem, hkey⟩
    rw [dictAllEntries, List.mem_append] at hmem
    rcases hmem with hmem0 | hmem1
    · obtain ⟨i, hi, hbi⟩ := mem_flatten_getD hmem0
      have hieq : i = keyIndex hash d.ht0 k := by
        have := hp0 i hi e hbi
        rw [hkey] at this
        rw [← this]
        rfl
      rw [hieq] at hbi
      obtain ⟨e', hfind, hmem', hkey'⟩ := chainFind_of_mem hbi hkey
      have hcount : (d.ht0.table.flatten).countP (fun x => x.key == k) ≤ 1 := by
        have := huniq k
        rw [keyCount, keyCount] at this
        omega
      have hee : e = e' := by
        refine countP_le_one_unique hcount e (getD_mem_flatten hbi) e'
          (getD_mem_flatten hmem') ?_ ?_
        · simpa using hkey
        · simpa using hkey'
      have hfind' : chainFind k (bucketGet d.ht0 (keyIndex hash d.ht0 k)) = some e' := hfind
      rw [dictFindNoStep, hfind', ← hee]
    · have hreh : dictIsRehashing d = true := by
        by_contra hc
        have hemp := hnon (bool_eq_false hc)
        rw [hemp] at hmem1
        simp [emptyHt] at hmem1
      have h0 : chainFind k (bucketGet d.ht0 (keyIndex hash d.ht0 k)) = none := by
        cases h0 : chainFind k (bucketGet d.ht0 (keyIndex hash d.ht0 k)) with
        | none => rfl
        | some e0 =>
          obtain ⟨hmem0, hkey0⟩ := chainFind_some h0
          have hc0 : 0 < (d.ht0.table.flatten).countP (fun x => x.key == k) :=
            key_mem_countP_pos (getD_mem_flatten hmem0) hkey0
          have hc1 : 0 < (d.ht1.table.flatten).countP (fun x => x.key == k) :=
            key_mem_countP_pos hmem1 hkey
          have := huniq k
          rw [keyCount, keyCount] at this
          omega
      obtain ⟨i, hi, hbi⟩ := mem_flatten_getD hmem1
      have hieq : i = keyIndex hash d.ht1 k := by
        have := hp1 i hi e hbi
        rw [hkey] at this
        rw [← this]
        rfl
      rw [hieq] at hbi
      obtain ⟨e', hfind, hmem', hkey'⟩ := chainFind_of_mem hbi hkey
      have hcount : (d.ht1.table.flatten).countP (fun x => x.key == k) ≤ 1 := by
        have := huniq k
        rw [keyCount, keyCount] at this
        omega
      have hee : e = e' := by
        refine countP_le_one_unique hcount e (getD_mem_flatten hbi) e'
          (getD_mem_flatten hmem') ?_ ?_
        · simpa using hkey
        · simpa using hkey'
      have hfind' : chainFind k (bucketGet d.ht1 (keyIndex hash d.ht1 k)) = some e' := hfind
      rw [dictFindNoStep, h0, hreh]
      simp only [if_true]
      rw [hfind', hee]

theorem dictFindNoStep_none_iff (hash : Nat → Nat) (d : Dict) (k : Nat)
    (hWF : WF hash d) :
    dictFindNoStep hash d k = none ↔ ∀ e ∈ dictAllEntries d, e.key ≠ k := by
  constructor
  · intro hnone e he hk
    have := (dictFindNoStep_some_iff hash d k e hWF).mpr ⟨he, hk⟩
    rw [hnone] at this
    simp at this
  · intro hall
    cases hf : dictFindNoStep hash d k with
    | none => rfl
    | some e =>
      have := (dictFindNoStep_some_iff hash d k e hWF).mp hf
      exact absurd this.2 (hall e this.1)

theorem dictFindNoStep_congr (hash : Nat → Nat) (d d' : Dict) (k : Nat)
    (hWF : WF hash d) (hWF' : WF hash d')
    (hms : (dictAllEntries d' : Multiset DictEntry) = (dictAllEntries d : List DictEntry)) :
    dictFindNoStep hash d' k = dictFindNoStep hash d k := by
  have hmem := mem_of_ms hms
  cases hf : dictFindNoStep hash d k with
  | some e =>
    apply (dictFindNoStep_some_iff hash d' k e hWF').mpr
    have := (dictFindNoStep_some_iff hash d k e hWF).mp hf
    exact ⟨(hmem e).mpr this.1, this.2⟩
  | none =>
    rw [dictFindNoStep_none_iff hash d' k hWF']
    intro e he
    exact (dictFindNoStep_none_iff hash d k hWF).mp hf e ((hmem e).mp he)

/-! ### Insertion of a new entry -/

theorem countP_of_ms_add {α : Type} {p : α → Bool} {l1 l2 l3 : List α}
    (h : (l1 : Multiset α) = (l2 : Multiset α) + (l3 : List α)) :
    l1.countP p = l2.countP p + l3.countP p := by
  rw [Multiset.coe_add] at h
  have := (perm_of_ms h).countP_eq p
  simpa [List.countP_append] using this

theorem countP_singleton_key (e : DictEntry) (k : Nat) :
    ([e] : List DictEntry).countP (fun x => x.key == k) =
      if e.key = k then 1 else 0 := by
  by_cases hk : e.key = k <;> simp [List.countP_cons, hk]

theorem countP_key_zero {l : List DictEntry} {k : Nat}
    (h : ∀ e ∈ l, e.key ≠ k) : l.countP (fun x => x.key == k) = 0 := by
  rw [List.countP_eq_zero]
  intro e he
  simpa using h e he

theorem dictInsertNew_props (hash : Nat → Nat) (d : Dict) (e : DictEntry) (hWF : WF hash d)
    (habs : ∀ e' ∈ dictAllEntries d, e'.key ≠ e.key)
    (hins : dictIsRehashing d = true ∨ 0 < d.ht0.size) :
    WF hash (dictInsertNew hash d e) ∧
    ((dictAllEntries (dictInsertNew hash d e)) : Multiset DictEntry) =
      (dictAllEntries d : Multiset DictEntry) + ([e] : List DictEntry) ∧
    dictSize (dictInsertNew hash d e) = dictSize d + 1 ∧
    (dictInsertNew hash d e).pauserehash = d.pauserehash ∧
    dictIsRehashing (dictInsertNew hash d e) = dictIsRehashing d := by
  obtain ⟨hw0, hw1, hp0, hp1, huniq, hrinv, hnon⟩ := hWF
  have habs0 : ∀ e' ∈ d.ht0.table.flatten, e'.key ≠ e.key := by
    intro e' he'
    exact habs e' (by rw [dictAllEntries, List.mem_append]; exact Or.inl he')
  have habs1 : ∀ e' ∈ d.ht1.table.flatten, e'.key ≠ e.key := by
    intro e' he'
    exact habs e' (by rw [dictAllEntries, List.mem_append]; exact Or.inr he')
  by_cases hreh : dictIsRehashing d = true
  · obtain ⟨hr0, hr1, hr2, hr3, hr4, hr5⟩ := hrinv hreh
    have he : dictInsertNew hash d e = { d with ht1 := htInsert hash d.ht1 e } := by
      simp [dictInsertNew, hreh]
    have hki : keyIndex hash d.ht1 e.key < d.ht1.table.length := by
      rw [hw1.1]
      exact keyIndex_lt_size hash d.ht1 e.key hw1.2.1 hr3
    have hms := htInsert_ms hash d.ht1 e hki
    have hcnt : ∀ k, ((htInsert hash d.ht1 e).table.flatten).countP (fun x => x.key == k) =
        (d.ht1.table.flatten).countP (fun x => x.key == k) +
        (if e.key = k then 1 else 0) := by
      intro k
      rw [countP_of_ms_add (p := fun x => x.key == k) hms, countP_singleton_key]
    have hsum1 : ((htInsert hash d.ht1 e).table.map List.length).sum =
        (d.ht1.table.map List.length).sum + 1 := by
      have := congrArg Multiset.card hms
      simpa [Multiset.coe_card] using this
    rw [he]
    refine ⟨⟨hw0, ⟨?_, ?_, ?_, ?_⟩, hp0, htInsert_placement hash d.ht1 e hp1, ?_, ?_, ?_⟩,
      ?_, ?_, rfl, ?_⟩
    · rw [htInsert_length, htInsert_size, hw1.1]
    · rw [htInsert_sizemask, htInsert_size]
      exact hw1.2.1
    · rw [htInsert_used, hsum1, hw1.2.2.1]
    · rw [htInsert_size]
      exact hw1.2.2.2
    · intro k
      show keyCount k d.ht0 + keyCount k (htInsert hash d.ht1 e) ≤ 1
      have hq := huniq k
      rw [keyCount, keyCount] at hq
      rw [keyCount, keyCount, hcnt k]
      by_cases hk : e.key = k
      · rw [if_pos hk]
        have h0 : (d.ht0.table.flatten).countP (fun x => x.key == k) = 0 := by
          apply countP_key_zero
          intro x hx
          rw [hk] at habs0
          exact habs0 x hx
        have h1 : (d.ht1.table.flatten).countP (fun x => x.key == k) = 0 := by
          apply countP_key_zero
          intro x hx
          rw [hk] at habs1
          exact habs1 x hx
        omega
      · rw [if_neg hk]
        omega
    · intro _
      refine ⟨hr0, hr1, hr2, by rw [htInsert_size]; exact hr3, ?_, hr5⟩
      show d.ht0.used ≤ (htInsert hash d.ht1 e).size
      rw [htInsert_size]
      omega
    · intro hcontra
      rw [show dictIsRehashing { d with ht1 := htInsert hash d.ht1 e } = dictIsRehashing d
        from rfl, hreh] at hcontra
      simp at hcontra
    · show ((d.ht0.table.flatten ++ (htInsert hash d.ht1 e).table.flatten : List DictEntry) :
        Multiset DictEntry) = _
      rw [← Multiset.coe_add, hms]
      show (d.ht0.table.flatten : Multiset DictEntry) +
          ((d.ht1.table.flatten : Multiset DictEntry) + ([e] : List DictEntry)) =
        ((d.ht0.table.flatten ++ d.ht1.table.flatten : List DictEntry) : Multiset DictEntry) +
          ([e] : List DictEntry)
      rw [← Multiset.coe_add]
      abel
    · show d.ht0.used + (htInsert hash d.ht1 e).used = dictSize d + 1
      rw [htInsert_used, dictSize]
      omega
    · rfl
  · have hpos : 0 < d.ht0.size := hins.resolve_left hreh
    have hfalse := bool_eq_false hreh
    have he : dictInsertNew hash d e = { d with ht0 := htInsert hash d.ht0 e } := by
      simp [dictInsertNew, hfalse]
    have hpw : IsP2 d.ht0.size := hw0.2.2.2.resolve_left (by omega)
    have hki : keyIndex hash d.ht0 e.key < d.ht0.table.length := by
      rw [hw0.1]
      exact keyIndex_lt_size hash d.ht0 e.key hw0.2.1 hpw
    have hms := htInsert_ms hash d.ht0 e hki
    have hcnt : ∀ k, ((htInsert hash d.ht0 e).table.flatten).countP (fun x => x.key == k) =
        (d.ht0.table.flatten).countP (fun x => x.key == k) +
        (if e.key = k then 1 else 0) := by
      intro k
      rw [countP_of_ms_add (p := fun x => x.key == k) hms, countP_singleton_key]
    have hsum0 : ((htInsert hash d.ht0 e).table.map List.length).sum =
        (d.ht0.table.map List.length).sum + 1 := by
      have := congrArg Multiset.card hms
      simpa [Multiset.coe_card] using this
    rw [he]
    refine ⟨⟨⟨?_, ?_, ?_, ?_⟩, hw1, htInsert_placement hash d.ht0 e hp0, hp1, ?_, ?_, ?_⟩,
      ?_, ?_, rfl, ?_⟩
    · rw [htInsert_length, htInsert_size, hw0.1]
    · rw [htInsert_sizemask, htInsert_size]
      exact hw0.2.1
    · rw [htInsert_used, hsum0, hw0.2.2.1]
    · rw [htInsert_size]
      exact hw0.2.2.2
    · intro k
      show keyCount k (htInsert hash d.ht0 e) + keyCount k d.ht1 ≤ 1
      have hq := huniq k
      rw [keyCount, keyCount] at hq
      rw [keyCount, keyCount, hcnt k]
      by_cases hk : e.key = k
      · rw [if_pos hk]
        have h0 : (d.ht0.table.flatten).countP (fun x => x.key == k) = 0 := by
          apply countP_key_zero
          intro x hx
          rw [hk] at habs0
          exact habs0 x hx
        have h1 : (d.ht1.table.flatten).countP (fun x => x.key == k) = 0 := by
          apply countP_key_zero
          intro x hx
          rw [hk] at habs1
          exact habs1 x hx
        omega
      · rw [if_neg hk]
        omega
    · intro hcontra
      rw [show dictIsRehashing { d with ht0 := htInsert hash d.ht0 e } = dictIsRehashing d
        from rfl, hfalse] at hcontra
      simp at hcontra
    · intro _
      exact hnon hfalse
    · show (((htInsert hash d.ht0 e).table.flatten ++ d.ht1.table.flatten : List DictEntry) :
        Multiset DictEntry) = _
      rw [← Multiset.coe_add, hms]
      show ((d.ht0.table.flatten : Multiset DictEntry) + ([e] : List DictEntry)) +
          (d.ht1.table.flatten : Multiset DictEntry) =
        ((d.ht0.table.flatten ++ d.ht1.table.flatten : List DictEntry) : Multiset DictEntry) +
          ([e] : List DictEntry)
      rw [← Multiset.coe_add]
      abel
    · show (htInsert hash d.ht0 e).used + d.ht1.used = dictSize d + 1
      rw [htInsert_used, dictSize]
      omega
    · rfl

/-! ### The public insertion operation -/

theorem mem_of_ms_add {α : Type} {l1 l2 : List α} {e : α}
    (h : (l1 : Multiset α) = (l2 : Multiset α) + ([e] : List α)) :
    ∀ x, x ∈ l1 ↔ (x ∈ l2 ∨ x = e) := by
  intro x
  rw [Multiset.coe_add] at h
  rw [(perm_of_ms h).mem_iff, List.mem_append]
  simp

theorem dictFindNoStep_congr_key (hash : Nat → Nat) (d d' : Dict) (k : Nat)
    (hWF : WF hash d) (hWF' : WF hash d')
    (hmem : ∀ x : DictEntry, x.key = k → (x ∈ dictAllEntries d' ↔ x ∈ dictAllEntries d)) :
    dictFindNoStep hash d' k = dictFindNoStep hash d k := by
  cases hf : dictFindNoStep hash d k with
  | some e =>
    have hp := (dictFindNoStep_some_iff hash d k e hWF).mp hf
    exact (dictFindNoStep_some_iff hash d' k e hWF').mpr ⟨(hmem e hp.2).mpr hp.1, hp.2⟩
  | none =>
    rw [dictFindNoStep_none_iff hash d' k hWF']
    intro e he hk
    exact (dictFindNoStep_none_iff hash d k hWF).mp hf e ((hmem e hk).mp he) hk

theorem dictAdd_props (hash : Nat → Nat) (d : Dict) (k v : Nat) (hWF : WF hash d) :
    WF hash (dictAdd hash d k v).1 ∧
    ((dictAdd hash d k v).2 = true ↔ dictFindNoStep hash d k = none) ∧
    ((dictAdd hash d k v).2 = true →
      ((dictAllEntries (dictAdd hash d k v).1) : Multiset DictEntry) =
        (dictAllEntries d : Multiset DictEntry) + ([(⟨k, v⟩ : DictEntry)] : List DictEntry) ∧
      dictSize (dictAdd hash d k v).1 = dictSize d + 1) ∧
    ((dictAdd hash d k v).2 = false →
      ((dictAllEntries (dictAdd hash d k v).1) : Multiset DictEntry) =
        (dictAllEntries d : List DictEntry) ∧
      dictSize (dictAdd hash d k v).1 = dictSize d) ∧
    (dictAdd hash d k v).1.pauserehash = d.pauserehash := by
  obtain ⟨s1, s2, s3, s4⟩ := dictRehashStep_props hash d hWF
  obtain ⟨e1, e2, e3, e4, e5⟩ := dictExpandIfNeeded_props hash (dictRehashStep hash d) s1
  have hms2 : (dictAllEntries (dictExpandIfNeeded (dictRehashStep hash d)) :
      Multiset DictEntry) = (dictAllEntries d : List DictEntry) := by
    rw [e2, s2]
  have hfind : dictFindNoStep hash (dictExpandIfNeeded (dictRehashStep hash d)) k
      = dictFindNoStep hash d k :=
    dictFindNoStep_congr hash d (dictExpandIfNeeded (dictRehashStep hash d)) k hWF e1 hms2
  cases hf : dictFindNoStep hash (dictExpandIfNeeded (dictRehashStep hash d)) k with
  | some e0 =>
    have he : dictAdd hash d k v = (dictExpandIfNeeded (dictRehashStep hash d), false) := by
      simp only [dictAdd]
      rw [hf]
    rw [he]
    refine ⟨e1, ?_, by intro hcontra; simp at hcontra, ?_, ?_⟩
    · simp only [Bool.false_eq_true, false_iff]
      rw [← hfind, hf]
      simp
    · intro _
      refine ⟨hms2, ?_⟩
      rw [e3, s3]
    · rw [e4, s4]
  | none =>
    have habs : ∀ e' ∈ dictAllEntries (dictExpandIfNeeded (dictRehashStep hash d)),
        e'.key ≠ (⟨k, v⟩ : DictEntry).key := by
      intro e' he'
      exact (dictFindNoStep_none_iff hash _ k e1).mp hf e' he'
    obtain ⟨i1, i2, i3, i4, i5⟩ := dictInsertNew_props hash
      (dictExpandIfNeeded (dictRehashStep hash d)) ⟨k, v⟩ e1 habs e5
    have he : dictAdd hash d k v =
        (dictInsertNew hash (dictExpandIfNeeded (dictRehashStep hash d)) ⟨k, v⟩, true) := by
      simp only [dictAdd]
      rw [hf]
    rw [he]
    refine ⟨i1, ?_, ?_, by intro hcontra; simp at hcontra, ?_⟩
    · simp only [true_iff]
      rw [← hfind, hf]
    · intro _
      refine ⟨?_, ?_⟩
      · rw [i2, hms2]
      · rw [i3, e3, s3]
    · rw [i4, e4, s4]

/-! ### Deletion -/

theorem htRemove_found_props (t : Dictht) (i k : Nat) (hw : htWF t)
    (hfound : (htRemove t i k).2 = true) :
    i < t.table.length ∧
    ∃ e, e.key = k ∧ e ∈ t.table.getD i [] ∧
      (t.table.flatten : Multiset DictEntry) =
        ((htRemove t i k).1.table.flatten : Multiset DictEntry) + ([e] : List DictEntry) ∧
      htWF (htRemove t i k).1 ∧ (htRemove t i k).1.used + 1 = t.used ∧
      (htRemove t i k).1.size = t.size ∧ (htRemove t i k).1.sizemask = t.sizemask ∧
      (htRemove t i k).1.table.length = t.table.length ∧
      (∀ j, j ≠ i → (htRemove t i k).1.table.getD j [] = t.table.getD j []) ∧
      (∀ e' ∈ (htRemove t i k).1.table.getD i [], e' ∈ t.table.getD i []) := by
  by_cases hany : (bucketGet t i).any (fun e => e.key == k)
  · have he : htRemove t i k =
        (⟨t.table.set i ((bucketGet t i).eraseP (fun e => e.key == k)), t.size, t.sizemask,
          t.used - 1⟩, true) := by
      simp only [htRemove]
      rw [if_pos hany]
      rfl
    obtain ⟨w, hw1, hw2⟩ := List.any_eq_true.mp hany
    obtain ⟨a, l1, l2, hnl1, hpa, hb, herase⟩ :=
      List.exists_of_eraseP (p := fun e => e.key == k) hw1 hw2
    have hkey : a.key = k := by simpa using hpa
    have hbne : bucketGet t i ≠ [] := by
      rw [hb]
      simp
    have hi : i < t.table.length := getD_ne_nil_lt hbne
    have hbms : (bucketGet t i : Multiset DictEntry) =
        ((bucketGet t i).eraseP (fun e => e.key == k) : Multiset DictEntry) +
          ([a] : List DictEntry) := by
      rw [herase, hb, Multiset.coe_add]
      apply Multiset.coe_eq_coe.mpr
      exact List.perm_middle.trans (List.perm_append_singleton a (l1 ++ l2)).symm
    have hsetms := flatten_set_ms t.table i ((bucketGet t i).eraseP (fun e => e.key == k)) hi
    have hsetms' : ((t.table.set i ((bucketGet t i).eraseP (fun e => e.key == k))).flatten :
        Multiset DictEntry) + (bucketGet t i : List DictEntry) =
        (t.table.flatten : Multiset DictEntry) +
          ((bucketGet t i).eraseP (fun e => e.key == k) : List DictEntry) := hsetms
    have hms : (t.table.flatten : Multiset DictEntry) =
        ((t.table.set i ((bucketGet t i).eraseP (fun e => e.key == k))).flatten :
          Multiset DictEntry) + ([a] : List DictEntry) := by
      refine add_right_cancel
        (b := ((bucketGet t i).eraseP (fun e => e.key == k) : Multiset DictEntry)) ?_
      calc (t.table.flatten : Multiset DictEntry) +
            ((bucketGet t i).eraseP (fun e => e.key == k) : Multiset DictEntry)
          = ((t.table.set i ((bucketGet t i).eraseP (fun e => e.key == k))).flatten :
              Multiset DictEntry) + (bucketGet t i : Multiset DictEntry) := hsetms'.symm
        _ = _ := by
            rw [hbms]
            abel
    have hsum : ((t.table.set i ((bucketGet t i).eraseP (fun e => e.key == k))).map
        List.length).sum + 1 = (t.table.map List.length).sum := by
      have hc1 := congrArg Multiset.card hsetms'
      have hc2 := congrArg Multiset.card hbms
      simp only [Multiset.coe_card, Multiset.card_add, List.length_flatten] at hc1 hc2
      simp at hc2
      omega
    rw [he]
    refine ⟨hi, a, hkey,
      by rw [show t.table.getD i [] = l1 ++ a :: l2 from hb]; simp, ?_,
      ⟨?_, ?_, ?_, ?_⟩, ?_, rfl, rfl, ?_, ?_, ?_⟩
    · show (t.table.flatten : Multiset DictEntry) =
        ((t.table.set i ((bucketGet t i).eraseP (fun e => e.key == k))).flatten :
          Multiset DictEntry) + ([a] : List DictEntry)
      exact hms
    · show (t.table.set i _).length = t.size
      rw [List.length_set, hw.1]
    · exact hw.2.1
    · show t.used - 1 = ((t.table.set i ((bucketGet t i).eraseP (fun e => e.key == k))).map
        List.length).sum
      have := hw.2.2.1
      omega
    · exact hw.2.2.2
    · show t.used - 1 + 1 = t.used
      have := hw.2.2.1
      omega
    · show (t.table.set i _).length = t.table.length
      rw [List.length_set]
    · intro j hj
      show (t.table.set i _).getD j [] = t.table.getD j []
      exact getD_set_ne _ _ _ _ _ (fun hh => hj hh.symm)
    · intro e' he'
      have hg : (t.table.set i ((bucketGet t i).eraseP (fun e => e.key == k))).getD i []
          = (bucketGet t i).eraseP (fun e => e.key == k) := getD_set_self _ _ _ _ hi
      have he'2 : e' ∈ (t.table.set i ((bucketGet t i).eraseP (fun e => e.key == k))).getD i [] :=
        he'
      rw [hg, herase] at he'2
      rw [show t.table.getD i [] = l1 ++ a :: l2 from hb]
      replace he' := he'2
      rcases List.mem_append.mp he' with h | h
      · exact List.mem_append.mpr (Or.inl h)
      · exact List.mem_append.mpr (Or.inr (List.mem_cons_of_mem a h))
  · exfalso
    have he : htRemove t i k = (t, false) := by
      simp only [htRemove]
      rw [if_neg hany]
    rw [he] at hfound
    simp at hfound

theorem htRemove_not_found (t : Dictht) (i k : Nat)
    (h : (htRemove t i k).2 = false) : (htRemove t i k).1 = t := by
  by_cases hany : (bucketGet t i).any (fun e => e.key == k)
  · have he : htRemove t i k =
        (⟨t.table.set i ((bucketGet t i).eraseP (fun e => e.key == k)), t.size, t.sizemask,
          t.used - 1⟩, true) := by
      simp only [htRemove]
      rw [if_pos hany]
      rfl
    rw [he] at h
    simp at h
  · have he : htRemove t i k = (t, false) := by
      simp only [htRemove]
      rw [if_neg hany]
    rw [he]

theorem dictDelete_props (hash : Nat → Nat) (d : Dict) (k : Nat) (hWF : WF hash d) :
    WF hash (dictDelete hash d k).1 ∧
    ((dictDelete hash d k).2 = true →
      ∃ e, e.key = k ∧
        (dictAllEntries d : Multiset DictEntry) =
          (dictAllEntries (dictDelete hash d k).1 : Multiset DictEntry) +
            ([e] : List DictEntry) ∧
        dictSize (dictDelete hash d k).1 + 1 = dictSize d) ∧
    ((dictDelete hash d k).2 = false →
      (dictAllEntries (dictDelete hash d k).1 : Multiset DictEntry) =
        (dictAllEntries d : List DictEntry) ∧
      dictSize (dictDelete hash d k).1 = dictSize d) ∧
    (dictDelete hash d k).1.pauserehash = d.pauserehash := by
  by_cases hsz : dictSize d = 0
  · have he : dictDelete hash d k = (d, false) := by
      simp only [dictDelete]
      rw [if_pos hsz]
    rw [he]
    exact ⟨hWF, by intro h; simp at h, fun _ => ⟨rfl, rfl⟩, rfl⟩
  · obtain ⟨s1, s2, s3, s4⟩ := dictRehashStep_props hash d hWF
    cases hr0 : (htRemove (dictRehashStep hash d).ht0
        (keyIndex hash (dictRehashStep hash d).ht0 k) k).2 with
    | true =>
      have he : dictDelete hash d k = ({ dictRehashStep hash d with
          ht0 := (htRemove (dictRehashStep hash d).ht0
            (keyIndex hash (dictRehashStep hash d).ht0 k) k).1 }, true) := by
        simp only [dictDelete]
        rw [if_neg hsz, hr0]
        simp
      obtain ⟨hs0, hs1, hsp0, hsp1, hsuniq, hsrinv, hsnon⟩ := s1
      obtain ⟨hi, e, hekey, hemem, hems, hewf, heused, hesize, hemask, helen, hother, hsub⟩ :=
        htRemove_found_props (dictRehashStep hash d).ht0
          (keyIndex hash (dictRehashStep hash d).ht0 k) k hs0 hr0
      rw [he]
      have hcnt := @countP_of_ms_add DictEntry (fun x => x.key == k)
        ((dictRehashStep hash d).ht0.table.flatten) _ _ hems
      refine ⟨⟨hewf, hs1, ?_, hsp1, ?_, ?_, ?_⟩, ?_, by intro h; simp at h, s4⟩
      · intro j hj e' he'
        rw [helen] at hj
        by_cases hji : j = keyIndex hash (dictRehashStep hash d).ht0 k
        · rw [hji] at he'
          have := hsub e' he'
          rw [show (htRemove (dictRehashStep hash d).ht0
              (keyIndex hash (dictRehashStep hash d).ht0 k) k).1.sizemask
            = (dictRehashStep hash d).ht0.sizemask from hemask, hji]
          exact hsp0 _ (by rw [← hji]; exact hj) e' this
        · rw [hother j hji] at he'
          rw [show (htRemove (dictRehashStep hash d).ht0
              (keyIndex hash (dictRehashStep hash d).ht0 k) k).1.sizemask
            = (dictRehashStep hash d).ht0.sizemask from hemask]
          exact hsp0 j hj e' he'
      · intro k0
        have hq := hsuniq k0
        have hc := countP_of_ms_add (p := fun x => x.key == k0) hems
        show keyCount k0 (htRemove (dictRehashStep hash d).ht0
            (keyIndex hash (dictRehashStep hash d).ht0 k) k).1 +
          keyCount k0 (dictRehashStep hash d).ht1 ≤ 1
        rw [keyCount, keyCount] at hq ⊢
        omega
      · intro hreh
        have hreh1 : dictIsRehashing (dictRehashStep hash d) = true := hreh
        obtain ⟨hr1, hr2, hr3, hr4, hr5, hr6⟩ := hsrinv hreh1
        refine ⟨hr1, ?_, ?_, hr4, ?_, ?_⟩
        · rw [show (htRemove (dictRehashStep hash d).ht0
            (keyIndex hash (dictRehashStep hash d).ht0 k) k).1.size
            = (dictRehashStep hash d).ht0.size from hesize]
          exact hr2
        · rw [show (htRemove (dictRehashStep hash d).ht0
            (keyIndex hash (dictRehashStep hash d).ht0 k) k).1.size
            = (dictRehashStep hash d).ht0.size from hesize]
          exact hr3
        · show (htRemove (dictRehashStep hash d).ht0
            (keyIndex hash (dictRehashStep hash d).ht0 k) k).1.used
            ≤ (dictRehashStep hash d).ht1.size
          omega
        · intro j hj
          by_cases hji : j = keyIndex hash (dictRehashStep hash d).ht0 k
          · exfalso
            have hempty := hr6 j hj
            rw [hji] at hempty
            rw [hempty] at hemem
            simp at hemem
          · rw [hother j hji]
            exact hr6 j hj
      · intro hreh
        have : dictIsRehashing (dictRehashStep hash d) = false := hreh
        exact hsnon this
      · intro _
        refine ⟨e, hekey, ?_, ?_⟩
        · rw [← s2]
          show (dictAllEntries (dictRehashStep hash d) : Multiset DictEntry) = _
          show (((dictRehashStep hash d).ht0.table.flatten ++
              (dictRehashStep hash d).ht1.table.flatten : List DictEntry) : Multiset DictEntry) = _
          rw [← Multiset.coe_add, hems]
          show _ = (((htRemove (dictRehashStep hash d).ht0
              (keyIndex hash (dictRehashStep hash d).ht0 k) k).1.table.flatten ++
              (dictRehashStep hash d).ht1.table.flatten : List DictEntry) : Multiset DictEntry) +
            ([e] : List DictEntry)
          rw [← Multiset.coe_add]
          abel
        · show (htRemove (dictRehashStep hash d).ht0
              (keyIndex hash (dictRehashStep hash d).ht0 k) k).1.used +
            (dictRehashStep hash d).ht1.used + 1 = dictSize d
          rw [← s3]
          show _ = (dictRehashStep hash d).ht0.used + (dictRehashStep hash d).ht1.used
          omega
    | false =>
      have hid := htRemove_not_found (dictRehashStep hash d).ht0
        (keyIndex hash (dictRehashStep hash d).ht0 k) k hr0
      by_cases hreh1 : dictIsRehashing (dictRehashStep hash d) = true
      · cases hr1 : (htRemove (dictRehashStep hash d).ht1
            (keyIndex hash (dictRehashStep hash d).ht1 k) k).2 with
        | true =>
          have he : dictDelete hash d k = ({ dictRehashStep hash d with
              ht1 := (htRemove (dictRehashStep hash d).ht1
                (keyIndex hash (dictRehashStep hash d).ht1 k) k).1 }, true) := by
            simp only [dictDelete]
            rw [if_neg hsz, hr0, hreh1, hr1]
            simp
          obtain ⟨hs0, hs1, hsp0, hsp1, hsuniq, hsrinv, hsnon⟩ := s1
          obtain ⟨hi, e, hekey, hemem, hems, hewf, heused, hesize, hemask, helen, hother, hsub⟩ :=
            htRemove_found_props (dictRehashStep hash d).ht1
              (keyIndex hash (dictRehashStep hash d).ht1 k) k hs1 hr1
          rw [he]
          refine ⟨⟨hs0, hewf, hsp0, ?_, ?_, ?_, ?_⟩, ?_, by intro h; simp at h, s4⟩
          · intro j hj e' he'
            rw [helen] at hj
            by_cases hji : j = keyIndex hash (dictRehashStep hash d).ht1 k
            · rw [hji] at he'
              have := hsub e' he'
              rw [show (htRemove (dictRehashStep hash d).ht1
                  (keyIndex hash (dictRehashStep hash d).ht1 k) k).1.sizemask
                = (dictRehashStep hash d).ht1.sizemask from hemask, hji]
              exact hsp1 _ (by rw [← hji]; exact hj) e' this
            · rw [hother j hji] at he'
              rw [show (htRemove (dictRehashStep hash d).ht1
                  (keyIndex hash (dictRehashStep hash d).ht1 k) k).1.sizemask
                = (dictRehashStep hash d).ht1.sizemask from hemask]
              exact hsp1 j hj e' he'
          · intro k0
            have hq := hsuniq k0
            have hc := countP_of_ms_add (p := fun x => x.key == k0) hems
            show keyCount k0 (dictRehashStep hash d).ht0 +
              keyCount k0 (htRemove (dictRehashStep hash d).ht1
                (keyIndex hash (dictRehashStep hash d).ht1 k) k).1 ≤ 1
            rw [keyCount, keyCount] at hq ⊢
            omega
          · intro hreh
            obtain ⟨hr1x, hr2x, hr3x, hr4x, hr5x, hr6x⟩ := hsrinv hreh1
            refine ⟨hr1x, hr2x, hr3x, ?_, ?_, hr6x⟩
            · rw [show (htRemove (dictRehashStep hash d).ht1
                (keyIndex hash (dictRehashStep hash d).ht1 k) k).1.size
                = (dictRehashStep hash d).ht1.size from hesize]
              exact hr4x
            · show (dictRehashStep hash d).ht0.used ≤
                (htRemove (dictRehashStep hash d).ht1
                  (keyIndex hash (dictRehashStep hash d).ht1 k) k).1.size
              rw [show (htRemove (dictRehashStep hash d).ht1
                (keyIndex hash (dictRehashStep hash d).ht1 k) k).1.size
                = (dictRehashStep hash d).ht1.size from hesize]
              exact hr5x
          · intro hreh
            rw [show dictIsRehashing ({ dictRehashStep hash d with
                ht1 := (htRemove (dictRehashStep hash d).ht1
                  (keyIndex hash (dictRehashStep hash d).ht1 k) k).1 })
              = dictIsRehashing (dictRehashStep hash d) from rfl, hreh1] at hreh
            simp at hreh
          · intro _
            refine ⟨e, hekey, ?_, ?_⟩
            · rw [← s2]
              show (((dictRehashStep hash d).ht0.table.flatten ++
                  (dictRehashStep hash d).ht1.table.flatten : List DictEntry) :
                  Multiset DictEntry) = _
              rw [← Multiset.coe_add, hems]
              show _ = (((dictRehashStep hash d).ht0.table.flatten ++
                  (htRemove (dictRehashStep hash d).ht1
                    (keyIndex hash (dictRehashStep hash d).ht1 k) k).1.table.flatten :
                  List DictEntry) : Multiset DictEntry) + ([e] : List DictEntry)
              rw [← Multiset.coe_add]
              abel
            · show (dictRehashStep hash d).ht0.used +
                (htRemove (dictRehashStep hash d).ht1
                  (keyIndex hash (dictRehashStep hash d).ht1 k) k).1.used + 1 = dictSize d
              rw [← s3]
              show _ = (dictRehashStep hash d).ht0.used + (dictRehashStep hash d).ht1.used
              omega
        | false =>
          have hid1 := htRemove_not_found (dictRehashStep hash d).ht1
            (keyIndex hash (dictRehashStep hash d).ht1 k) k hr1
          have he : dictDelete hash d k = (dictRehashStep hash d, false) := by
            simp only [dictDelete]
            rw [if_neg hsz, hr0, hreh1, hr1]
            simp
            rw [hid1]
          rw [he]
          exact ⟨s1, by intro h; simp at h, fun _ => ⟨s2, s3⟩, s4⟩
      · have he : dictDelete hash d k = (dictRehashStep hash d, false) := by
          simp only [dictDelete]
          rw [if_neg hsz, hr0, bool_eq_false hreh1]
          simp
        rw [he]
        exact ⟨s1, by intro h; simp at h, fun _ => ⟨s2, s3⟩, s4⟩

/-! ### In-place value replacement -/

theorem set_of_length_le {α : Type} :
    ∀ (l : List α) (i : Nat) (x : α), l.length ≤ i → l.set i x = l
  | [], _, _, _ => rfl
  | a :: l, 0, x, h => by simp at h
  | a :: l, i + 1, x, h => by
    rw [List.set_cons_succ]
    rw [set_of_length_le l i x (by simpa using h)]

theorem mem_map_updateVal_ne {b : List DictEntry} {x : DictEntry} {k v : Nat}
    (hx : x.key ≠ k) :
    (x ∈ b.map (fun e => if e.key = k then { e with val := v } else e) ↔ x ∈ b) := by
  constructor
  · intro h
    rcases List.mem_map.mp h with ⟨y, hy, hyx⟩
    by_cases hyk : y.key = k
    · rw [if_pos hyk] at hyx
      rw [← hyx] at hx
      simp at hx
      exact absurd hyk hx
    · rw [if_neg hyk] at hyx
      rw [← hyx]
      exact hy
  · intro h
    exact List.mem_map.mpr ⟨x, h, by rw [if_neg hx]⟩

theorem mem_map_updateVal_hit {b : List DictEntry} {e : DictEntry} {k v : Nat}
    (he : e ∈ b) (hk : e.key = k) :
    (⟨k, v⟩ : DictEntry) ∈ b.map (fun e => if e.key = k then { e with val := v } else e) := by
  refine List.mem_map.mpr ⟨e, he, ?_⟩
  rw [if_pos hk]
  cases e
  simp_all

theorem key_map_updateVal (e : DictEntry) (k v : Nat) :
    ((fun e => if e.key = k then { e with val := v } else e) e).key = e.key := by
  show (if e.key = k then { e with val := v } else e).key = e.key
  by_cases hk : e.key = k
  · rw [if_pos hk]
  · rw [if_neg hk]

theorem countP_map_updateVal (b : List DictEntry) (k v k0 : Nat) :
    (b.map (fun e => if e.key = k then { e with val := v } else e)).countP
      (fun x => x.key == k0) = b.countP (fun x => x.key == k0) := by
  rw [List.countP_map]
  apply List.countP_congr
  intro a _
  simp only [Function.comp]
  rw [key_map_updateVal]

theorem htUpdateVal_props (hash : Nat → Nat) (t : Dictht) (i k v : Nat) (hw : htWF t)
    (hp : htPlacement hash t) :
    htWF (htUpdateVal t i k v) ∧
    htPlacement hash (htUpdateVal t i k v) ∧
    (∀ k0, keyCount k0 (htUpdateVal t i k v) = keyCount k0 t) ∧
    (∀ x : DictEntry, x.key ≠ k →
      (x ∈ (htUpdateVal t i k v).table.flatten ↔ x ∈ t.table.flatten)) ∧
    (∀ j, t.table.getD j [] = [] → (htUpdateVal t i k v).table.getD j [] = []) ∧
    (htUpdateVal t i k v).size = t.size ∧
    (htUpdateVal t i k v).sizemask = t.sizemask ∧
    (htUpdateVal t i k v).used = t.used ∧
    (∀ e ∈ t.table.getD i [], e.key = k →
      (⟨k, v⟩ : DictEntry) ∈ (htUpdateVal t i k v).table.flatten) := by
  by_cases hi : i < t.table.length
  · have htab : (htUpdateVal t i k v).table =
        t.table.set i ((bucketGet t i).map
          (fun e => if e.key = k then { e with val := v } else e)) := rfl
    have hms := flatten_set_ms t.table i
      ((bucketGet t i).map (fun e => if e.key = k then { e with val := v } else e)) hi
    have hlen : (htUpdateVal t i k v).table.length = t.table.length := by
      rw [htab, List.length_set]
    have hsum : ((htUpdateVal t i k v).table.map List.length).sum =
        (t.table.map List.length).sum := by
      have hc := congrArg Multiset.card hms
      simp only [Multiset.coe_card, Multiset.card_add, List.length_flatten,
        List.length_map] at hc
      have hlink : (bucketGet t i).length = (t.table.getD i []).length := rfl
      rw [htab]
      omega
    have hbucket : ∀ j, (htUpdateVal t i k v).table.getD j [] =
        if j = i then (bucketGet t i).map (fun e => if e.key = k then { e with val := v } else e)
        else t.table.getD j [] := by
      intro j
      by_cases hj : j = i
      · rw [if_pos hj, htab, hj]
        exact getD_set_self _ _ _ _ hi
      · rw [if_neg hj, htab]
        exact getD_set_ne _ _ _ _ _ (fun hh => hj hh.symm)
    refine ⟨⟨by rw [hlen, hw.1]; rfl, hw.2.1, by rw [hsum]; exact hw.2.2.1, hw.2.2.2⟩,
      ?_, ?_, ?_, ?_, rfl, rfl, rfl, ?_⟩
    · intro j hj e' he'
      rw [hlen] at hj
      rw [hbucket j] at he'
      show hash e'.key &&& t.sizemask = j
      by_cases hji : j = i
      · rw [if_pos hji] at he'
        rcases List.mem_map.mp he' with ⟨y, hy, hyx⟩
        have hkk : e'.key = y.key := by
          rw [← hyx, key_map_updateVal]
        rw [hkk, hji]
        exact hp i (by rw [← hji]; exact hj) y hy
      · rw [if_neg hji] at he'
        exact hp j hj e' he'
    · intro k0
      have hc := countP_of_ms (p := fun x => x.key == k0) hms
      have hmapc := countP_map_updateVal (bucketGet t i) k v k0
      have hlk : List.countP (fun x => x.key == k0) (bucketGet t i) =
          List.countP (fun x => x.key == k0) (t.table.getD i []) := rfl
      rw [keyCount, keyCount, htab]
      omega
    · intro x hx
      constructor
      · intro hmem
        obtain ⟨j, hj, hjb⟩ := mem_flatten_getD hmem
        rw [hbucket j] at hjb
        by_cases hji : j = i
        · rw [if_pos hji] at hjb
          exact getD_mem_flatten ((mem_map_updateVal_ne hx).mp hjb)
        · rw [if_neg hji] at hjb
          exact getD_mem_flatten hjb
      · intro hmem
        obtain ⟨j, hj, hjb⟩ := mem_flatten_getD hmem
        by_cases hji : j = i
        · have : x ∈ (htUpdateVal t i k v).table.getD j [] := by
            rw [hbucket j, if_pos hji]
            rw [hji] at hjb
            exact (mem_map_updateVal_ne hx).mpr hjb
          exact getD_mem_flatten this
        · have : x ∈ (htUpdateVal t i k v).table.getD j [] := by
            rw [hbucket j, if_neg hji]
            exact hjb
          exact getD_mem_flatten this
    · intro j hj
      rw [hbucket j]
      by_cases hji : j = i
      · rw [if_pos hji]
        rw [hji] at hj
        show (bucketGet t i).map _ = []
        rw [show bucketGet t i = t.table.getD i [] from rfl, hj]
        rfl
      · rw [if_neg hji]
        exact hj
    · intro e he hk
      have : (⟨k, v⟩ : DictEntry) ∈ (htUpdateVal t i k v).table.getD i [] := by
        rw [hbucket i, if_pos rfl]
        exact mem_map_updateVal_hit he hk
      exact getD_mem_flatten this
  · have hb : bucketGet t i = [] := by
      rw [bucketGet, List.getD_eq_getElem?_getD,
        List.getElem?_eq_none (Nat.le_of_not_lt hi)]
      rfl
    have htt : htUpdateVal t i k v = t := by
      rw [htUpdateVal]
      show bucketSet t i ((bucketGet t i).map _) = t
      rw [hb]
      show { t with table := t.table.set i [] } = t
      rw [set_of_length_le t.table i [] (Nat.le_of_not_lt hi)]
    rw [htt]
    refine ⟨hw, hp, fun _ => rfl, fun _ _ => Iff.rfl, fun _ h => h, rfl, rfl, rfl, ?_⟩
    intro e he hk
    rw [show t.table.getD i [] = bucketGet t i from rfl, hb] at he
    simp at he

theorem replaceVal_props (hash : Nat → Nat) (d : Dict) (k v : Nat) (hWF : WF hash d) :
    WF hash (replaceVal hash d k v) ∧
    dictSize (replaceVal hash d k v) = dictSize d ∧
    (replaceVal hash d k v).pauserehash = d.pauserehash ∧
    (∀ k', k' ≠ k →
      dictFindNoStep hash (replaceVal hash d k v) k' = dictFindNoStep hash d k') ∧
    (∀ e, dictFindNoStep hash d k = some e →
      dictFindNoStep hash (replaceVal hash d k v) k = some ⟨k, v⟩) := by
  obtain ⟨hw0, hw1, hp0, hp1, huniq, hrinv, hnon⟩ := hWF
  obtain ⟨u0wf, u0p, u0cnt, u0mem, u0emp, u0sz, u0mask, u0used, u0hit⟩ :=
    htUpdateVal_props hash d.ht0 (keyIndex hash d.ht0 k) k v hw0 hp0
  obtain ⟨u1wf, u1p, u1cnt, u1mem, u1emp, u1sz, u1mask, u1used, u1hit⟩ :=
    htUpdateVal_props hash d.ht1 (keyIndex hash d.ht1 k) k v hw1 hp1
  have hd0 : (replaceVal hash d k v).ht0 = htUpdateVal d.ht0 (keyIndex hash d.ht0 k) k v := rfl
  have hd1 : (replaceVal hash d k v).ht1 = htUpdateVal d.ht1 (keyIndex hash d.ht1 k) k v := rfl
  have hreheq : dictIsRehashing (replaceVal hash d k v) = dictIsRehashing d := rfl
  have hWFv : WF hash (replaceVal hash d k v) := by
    refine ⟨u0wf, u1wf, u0p, u1p, ?_, ?_, ?_⟩
    · intro k0
      show keyCount k0 (htUpdateVal d.ht0 (keyIndex hash d.ht0 k) k v) +
        keyCount k0 (htUpdateVal d.ht1 (keyIndex hash d.ht1 k) k v) ≤ 1
      rw [u0cnt, u1cnt]
      exact huniq k0
    · intro hreh
      obtain ⟨hr1, hr2, hr3, hr4, hr5, hr6⟩ := hrinv hreh
      refine ⟨hr1, ?_, ?_, ?_, ?_, ?_⟩
      · show d.rehashidx.toNat ≤ (htUpdateVal d.ht0 (keyIndex hash d.ht0 k) k v).size
        rw [u0sz]
        exact hr2
      · show 0 < (htUpdateVal d.ht0 (keyIndex hash d.ht0 k) k v).size
        rw [u0sz]
        exact hr3
      · show IsP2 (htUpdateVal d.ht1 (keyIndex hash d.ht1 k) k v).size
        rw [u1sz]
        exact hr4
      · show (htUpdateVal d.ht0 (keyIndex hash d.ht0 k) k v).used ≤
          (htUpdateVal d.ht1 (keyIndex hash d.ht1 k) k v).size
        rw [u0used, u1sz]
        exact hr5
      · intro j hj
        exact u0emp j (hr6 j hj)
    · intro hreh
      have hemp := hnon hreh
      show htUpdateVal d.ht1 (keyIndex hash d.ht1 k) k v = emptyHt
      rw [hemp]
      have : htUpdateVal emptyHt (keyIndex hash emptyHt k) k v = emptyHt := rfl
      exact this
  refine ⟨hWFv, ?_, rfl, ?_, ?_⟩
  · show (htUpdateVal d.ht0 (keyIndex hash d.ht0 k) k v).used +
      (htUpdateVal d.ht1 (keyIndex hash d.ht1 k) k v).used = dictSize d
    rw [u0used, u1used]
    rfl
  · intro k' hk'
    refine dictFindNoStep_congr_key hash d (replaceVal hash d k v) k'
      ⟨hw0, hw1, hp0, hp1, huniq, hrinv, hnon⟩ hWFv ?_
    intro x hx
    have hxk : x.key ≠ k := by rw [hx]; exact hk'
    show x ∈ dictAllEntries (replaceVal hash d k v) ↔ x ∈ dictAllEntries d
    rw [dictAllEntries, dictAllEntries, List.mem_append, List.mem_append]
    rw [show (replaceVal hash d k v).ht0.table =
      (htUpdateVal d.ht0 (keyIndex hash d.ht0 k) k v).table from rfl]
    rw [show (replaceVal hash d k v).ht1.table =
      (htUpdateVal d.ht1 (keyIndex hash d.ht1 k) k v).table from rfl]
    rw [u0mem x hxk, u1mem x hxk]
  · intro e hfe
    obtain ⟨hemem, hekey⟩ := (dictFindNoStep_some_iff hash d k e
      ⟨hw0, hw1, hp0, hp1, huniq, hrinv, hnon⟩).mp hfe
    apply (dictFindNoStep_some_iff hash (replaceVal hash d k v) k ⟨k, v⟩ hWFv).mpr
    refine ⟨?_, rfl⟩
    rw [dictAllEntries, List.mem_append] at hemem ⊢
    rcases hemem with h0 | h0
    · obtain ⟨j, hj, hjb⟩ := mem_flatten_getD h0
      have hji : j = keyIndex hash d.ht0 k := by
        have := hp0 j hj e hjb
        rw [hekey] at this
        rw [← this]
        rfl
      rw [hji] at hjb
      exact Or.inl (u0hit e hjb hekey)
    · obtain ⟨j, hj, hjb⟩ := mem_flatten_getD h0
      have hji : j = keyIndex hash d.ht1 k := by
        have := hp1 j hj e hjb
        rw [hekey] at this
        rw [← this]
        rfl
      rw [hji] at hjb
      exact Or.inr (u1hit e hjb hekey)

theorem dictReplace_props (hash : Nat → Nat) (d : Dict) (k v : Nat) (hWF : WF hash d) :
    WF hash (dictReplace hash d k v).1 ∧
    ((dictReplace hash d k v).2.1 = true ↔ dictFindNoStep hash d k = none) ∧
    ((dictReplace hash d k v).2.1 = true →
      (dictReplace hash d k v).2.2 = [ValEvent.setVal v] ∧
      ((dictAllEntries (dictReplace hash d k v).1) : Multiset DictEntry) =
        (dictAllEntries d : Multiset DictEntry) + ([(⟨k, v⟩ : DictEntry)] : List DictEntry) ∧
      dictSize (dictReplace hash d k v).1 = dictSize d + 1) ∧
    (∀ e, dictFindNoStep hash d k = some e →
      (dictReplace hash d k v).2.2 = [ValEvent.setVal v, ValEvent.freeVal e.val] ∧
      dictFindNoStep hash (dictReplace hash d k v).1 k = some ⟨k, v⟩ ∧
      dictSize (dictReplace hash d k v).1 = dictSize d ∧
      (∀ k', k' ≠ k → dictFindNoStep hash (dictReplace hash d k v).1 k' =
        dictFindNoStep hash d k')) ∧
    (dictReplace hash d k v).1.pauserehash = d.pauserehash := by
  obtain ⟨s1, s2, s3, s4⟩ := dictRehashStep_props hash d hWF
  obtain ⟨e1, e2, e3, e4, e5⟩ := dictExpandIfNeeded_props hash (dictRehashStep hash d) s1
  have hms2 : (dictAllEntries (dictExpandIfNeeded (dictRehashStep hash d)) :
      Multiset DictEntry) = (dictAllEntries d : List DictEntry) := by
    rw [e2, s2]
  have hfindAll : ∀ k0, dictFindNoStep hash (dictExpandIfNeeded (dictRehashStep hash d)) k0
      = dictFindNoStep hash d k0 := fun k0 =>
    dictFindNoStep_congr hash d (dictExpandIfNeeded (dictRehashStep hash d)) k0 hWF e1 hms2
  cases hf : dictFindNoStep hash (dictExpandIfNeeded (dictRehashStep hash d)) k with
  | none =>
    have habs : ∀ e' ∈ dictAllEntries (dictExpandIfNeeded (dictRehashStep hash d)),
        e'.key ≠ (⟨k, v⟩ : DictEntry).key := by
      intro e' he'
      exact (dictFindNoStep_none_iff hash _ k e1).mp hf e' he'
    obtain ⟨i1, i2, i3, i4, i5⟩ := dictInsertNew_props hash
      (dictExpandIfNeeded (dictRehashStep hash d)) ⟨k, v⟩ e1 habs e5
    have he : dictReplace hash d k v =
        (dictInsertNew hash (dictExpandIfNeeded (dictRehashStep hash d)) ⟨k, v⟩, true,
          [ValEvent.setVal v]) := by
      simp only [dictReplace]
      rw [hf]
    rw [he]
    refine ⟨i1, ?_, ?_, ?_, ?_⟩
    · simp only [true_iff]
      rw [← hfindAll k, hf]
    · intro _
      refine ⟨rfl, ?_, ?_⟩
      · rw [i2, hms2]
      · rw [i3, e3, s3]
    · intro e hfe
      rw [← hfindAll k, hf] at hfe
      simp at hfe
    · rw [i4, e4, s4]
  | some e0 =>
    have he : dictReplace hash d k v =
        (replaceVal hash (dictExpandIfNeeded (dictRehashStep hash d)) k v, false,
          [ValEvent.setVal v, ValEvent.freeVal e0.val]) := by
      simp only [dictReplace]
      rw [hf]
    obtain ⟨r1, r2, r3, r4, r5⟩ :=
      replaceVal_props hash (dictExpandIfNeeded (dictRehashStep hash d)) k v e1
    rw [he]
    refine ⟨r1, ?_, by intro hcontra; simp at hcontra, ?_, ?_⟩
    · simp only [Bool.false_eq_true, false_iff]
      rw [← hfindAll k, hf]
      simp
    · intro e hfe
      have he0 : e = e0 := by
        rw [← hfindAll k, hf] at hfe
        exact (Option.some_inj.mp hfe).symm
      refine ⟨by rw [he0], ?_, ?_, ?_⟩
      · exact r5 e0 hf
      · rw [r2, e3, s3]
      · intro k' hk'
        rw [r4 k' hk', hfindAll k']
    · rw [r3, e4, s4]

theorem dictFind_props (hash : Nat → Nat) (d : Dict) (k : Nat) (hWF : WF hash d) :
    WF hash (dictFind hash d k).1 ∧
    (dictAllEntries (dictFind hash d k).1 : Multiset DictEntry) =
      (dictAllEntries d : List DictEntry) ∧
    dictSize (dictFind hash d k).1 = dictSize d ∧
    (dictFind hash d k).1.pauserehash = d.pauserehash := by
  by_cases hsz : dictSize d = 0
  · have he : dictFind hash d k = (d, none) := by
      simp only [dictFind]
      rw [if_pos hsz]
    rw [he]
    exact ⟨hWF, rfl, rfl, rfl⟩
  · have he : (dictFind hash d k).1 = dictRehashStep hash d := by
      simp only [dictFind]
      rw [if_neg hsz]
    rw [he]
    exact dictRehashStep_props hash d hWF

theorem dictResize_props (hash : Nat → Nat) (d : Dict) (hWF : WF hash d) :
    WF hash (dictResize d).1 ∧
    (dictAllEntries (dictResize d).1 : Multiset DictEntry) =
      (dictAllEntries d : List DictEntry) ∧
    dictSize (dictResize d).1 = dictSize d ∧
    (dictResize d).1.pauserehash = d.pauserehash := by
  by_cases hreh : dictIsRehashing d = true
  · have he : dictResize d = (d, false) := by
      rw [dictResize, if_pos hreh]
    rw [he]
    exact ⟨hWF, rfl, rfl, rfl⟩
  · have he : dictResize d = dictExpand d (max d.ht0.used DICT_HT_INITIAL_SIZE) := by
      rw [dictResize, if_neg hreh]
    rw [he]
    exact dictExpand_props hash d (max d.ht0.used DICT_HT_INITIAL_SIZE) hWF

theorem applyOp_props (hash : Nat → Nat) (d : Dict) (op : DictOp) (hWF : WF hash d) :
    WF hash (applyOp hash d op) := by
  cases op with
  | add k v => exact (dictAdd_props hash d k v hWF).1
  | replace k v => exact (dictReplace_props hash d k v hWF).1
  | del k => exact (dictDelete_props hash d k hWF).1
  | find k => exact (dictFind_props hash d k hWF).1
  | rehash n => exact (dictRehash_props hash d n hWF).1
  | expand s => exact (dictExpand_props hash d s hWF).1
  | resize => exact (dictResize_props hash d hWF).1

theorem wf_runOps (hash : Nat → Nat) (ops : List DictOp) :
    ∀ d : Dict, WF hash d → WF hash (runOps hash d ops) := by
  induction ops with
  | nil => intro d hWF; exact hWF
  | cons op ops ih =>
    intro d hWF
    exact ih (applyOp hash d op) (applyOp_props hash d op hWF)

theorem dictFindNoStep_keep_add (hash : Nat → Nat) (d d' : Dict) (k : Nat) (e' : DictEntry)
    (hWF : WF hash d) (hWF' : WF hash d') (hk : e'.key ≠ k)
    (hms : (dictAllEntries d' : Multiset DictEntry) =
      (dictAllEntries d : Multiset DictEntry) + ([e'] : List DictEntry)) :
    dictFindNoStep hash d' k = dictFindNoStep hash d k := by
  apply dictFindNoStep_congr_key hash d d' k hWF hWF'
  intro x hx
  rw [mem_of_ms_add hms x]
  constructor
  · rintro (h | rfl)
    · exact h
    · exact absurd hx hk
  · exact Or.inl

theorem dictFindNoStep_keep_del (hash : Nat → Nat) (d d' : Dict) (k : Nat) (e' : DictEntry)
    (hWF : WF hash d) (hWF' : WF hash d') (hk : e'.key ≠ k)
    (hms : (dictAllEntries d : Multiset DictEntry) =
      (dictAllEntries d' : Multiset DictEntry) + ([e'] : List DictEntry)) :
    dictFindNoStep hash d' k = dictFindNoStep hash d k := by
  apply dictFindNoStep_congr_key hash d d' k hWF hWF'
  intro x hx
  rw [mem_of_ms_add hms x]
  constructor
  · exact Or.inl
  · rintro (h | rfl)
    · exact h
    · exact absurd hx hk

theorem applyOp_keeps (hash : Nat → Nat) (d : Dict) (op : DictOp) (k : Nat) (e : DictEntry)
    (hWF : WF hash d) (havoid : opAvoids k op = true)
    (hfound : dictFindNoStep hash d k = some e) :
    dictFindNoStep hash (applyOp hash d op) k = some e := by
  cases op with
  | add k' v' =>
    obtain ⟨a1, a2, a3, a4, _⟩ := dictAdd_props hash d k' v' hWF
    show dictFindNoStep hash (dictAdd hash d k' v').1 k = some e
    cases hr : (dictAdd hash d k' v').2 with
    | false =>
      obtain ⟨hms, _⟩ := a4 hr
      rw [dictFindNoStep_congr hash d _ k hWF a1 hms, hfound]
    | true =>
      have hnone := a2.mp hr
      have hkk : (⟨k', v'⟩ : DictEntry).key ≠ k := by
        intro heq
        rw [show k' = k from heq, hfound] at hnone
        simp at hnone
      obtain ⟨hms, _⟩ := a3 hr
      rw [dictFindNoStep_keep_add hash d _ k ⟨k', v'⟩ hWF a1 hkk hms, hfound]
  | replace k' v' =>
    have hkk : k' ≠ k := by simpa [opAvoids] using havoid
    obtain ⟨r1, r2, r3, r4, _⟩ := dictReplace_props hash d k' v' hWF
    show dictFindNoStep hash (dictReplace hash d k' v').1 k = some e
    cases hr : (dictReplace hash d k' v').2.1 with
    | true =>
      obtain ⟨_, hms, _⟩ := r3 hr
      rw [dictFindNoStep_keep_add hash d _ k ⟨k', v'⟩ hWF r1 hkk hms, hfound]
    | false =>
      cases hf0 : dictFindNoStep hash d k' with
      | none =>
        rw [r2.mpr hf0] at hr
        simp at hr
      | some e0 =>
        obtain ⟨_, _, _, hpres⟩ := r4 e0 hf0
        rw [hpres k (Ne.symm hkk), hfound]
  | del k' =>
    have hkk : k' ≠ k := by simpa [opAvoids] using havoid
    obtain ⟨d1, d2, d3, _⟩ := dictDelete_props hash d k' hWF
    show dictFindNoStep hash (dictDelete hash d k').1 k = some e
    cases hr : (dictDelete hash d k').2 with
    | true =>
      obtain ⟨e0, hek, hms, _⟩ := d2 hr
      have hek' : e0.key ≠ k := by rw [hek]; exact hkk
      rw [dictFindNoStep_keep_del hash d _ k e0 hWF d1 hek' hms, hfound]
    | false =>
      obtain ⟨hms, _⟩ := d3 hr
      rw [dictFindNoStep_congr hash d _ k hWF d1 hms, hfound]
  | find k' =>
    obtain ⟨f1, f2, _⟩ := dictFind_props hash d k' hWF
    show dictFindNoStep hash (dictFind hash d k').1 k = some e
    rw [dictFindNoStep_congr hash d _ k hWF f1 f2, hfound]
  | rehash n =>
    obtain ⟨f1, f2, _⟩ := dictRehash_props hash d n hWF
    show dictFindNoStep hash (dictRehash hash d n).1 k = some e
    rw [dictFindNoStep_congr hash d _ k hWF f1 f2, hfound]
  | expand s =>
    obtain ⟨f1, f2, _⟩ := dictExpand_props hash d s hWF
    show dictFindNoStep hash (dictExpand d s).1 k = some e
    rw [dictFindNoStep_congr hash d _ k hWF f1 f2, hfound]
  | resize =>
    obtain ⟨f1, f2, _⟩ := dictResize_props hash d hWF
    show dictFindNoStep hash (dictResize d).1 k = some e
    rw [dictFindNoStep_congr hash d _ k hWF f1 f2, hfound]

theorem runOps_keeps (hash : Nat → Nat) (ops : List DictOp) (k : Nat) (e : DictEntry) :
    ∀ d : Dict, WF hash d → (∀ op ∈ ops, opAvoids k op = true) →
    dictFindNoStep hash d k = some e →
    dictFindNoStep hash (runOps hash d ops) k = some e := by
  induction ops with
  | nil => intro d _ _ hfound; exact hfound
  | cons op ops ih =>
    intro d hWF havoid hfound
    exact ih (applyOp hash d op) (applyOp_props hash d op hWF)
      (fun o ho => havoid o (List.mem_cons_of_mem op ho))
      (applyOp_keeps hash d op k e hWF (havoid op (List.mem_cons_self op ops)) hfound)

theorem runOpsCountStep_inv (hash : Nat → Nat) (s : Dict × Nat × Nat) (op : DictOp)
    (hWF : WF hash s.1) (hinv : dictSize s.1 + s.2.2 = s.2.1) :
    WF hash (runOpsCountStep hash s op).1 ∧
    dictSize (runOpsCountStep hash s op).1 + (runOpsCountStep hash s op).2.2
      = (runOpsCountStep hash s op).2.1 := by
  cases op with
  | add k v =>
    obtain ⟨a1, _, a3, a4, _⟩ := dictAdd_props hash s.1 k v hWF
    simp only [runOpsCountStep]
    refine ⟨a1, ?_⟩
    cases hr : (dictAdd hash s.1 k v).2 with
    | true =>
      obtain ⟨_, hsz⟩ := a3 hr
      simp
      omega
    | false =>
      obtain ⟨_, hsz⟩ := a4 hr
      simp
      omega
  | replace k v =>
    obtain ⟨r1, r2, r3, r4, _⟩ := dictReplace_props hash s.1 k v hWF
    simp only [runOpsCountStep]
    refine ⟨r1, ?_⟩
    cases hr : (dictReplace hash s.1 k v).2.1 with
    | true =>
      obtain ⟨_, _, hsz⟩ := r3 hr
      simp
      omega
    | false =>
      cases hf0 : dictFindNoStep hash s.1 k with
      | none =>
        rw [r2.mpr hf0] at hr
        simp at hr
      | some e0 =>
        obtain ⟨_, _, hsz, _⟩ := r4 e0 hf0
        simp
        omega
  | del k =>
    obtain ⟨d1, d2, d3, _⟩ := dictDelete_props hash s.1 k hWF
    simp only [runOpsCountStep]
    refine ⟨d1, ?_⟩
    cases hr : (dictDelete hash s.1 k).2 with
    | true =>
      obtain ⟨e0, _, _, hsz⟩ := d2 hr
      simp
      omega
    | false =>
      obtain ⟨_, hsz⟩ := d3 hr
      simp
      omega
  | find k =>
    obtain ⟨f1, _, hsz, _⟩ := dictFind_props hash s.1 k hWF
    exact ⟨f1, by simp only [runOpsCountStep, applyOp]; omega⟩
  | rehash n =>
    obtain ⟨f1, _, hsz, _, _⟩ := dictRehash_props hash s.1 n hWF
    exact ⟨f1, by simp only [runOpsCountStep, applyOp]; omega⟩
  | expand sz =>
    obtain ⟨f1, _, hsz, _⟩ := dictExpand_props hash s.1 sz hWF
    exact ⟨f1, by simp only [runOpsCountStep, applyOp]; omega⟩
  | resize =>
    obtain ⟨f1, _, hsz, _⟩ := dictResize_props hash s.1 hWF
    exact ⟨f1, by simp only [runOpsCountStep, applyOp]; omega⟩

theorem runOpsCount_inv (hash : Nat → Nat) (ops : List DictOp) :
    ∀ s : Dict × Nat × Nat, WF hash s.1 → dictSize s.1 + s.2.2 = s.2.1 →
    WF hash (ops.foldl (runOpsCountStep hash) s).1 ∧
    dictSize (ops.foldl (runOpsCountStep hash) s).1 +
      (ops.foldl (runOpsCountStep hash) s).2.2 =
      (ops.foldl (runOpsCountStep hash) s).2.1 := by
  induction ops with
  | nil => intro s hWF hinv; exact ⟨hWF, hinv⟩
  | cons op ops ih =>
    intro s hWF hinv
    rw [List.foldl_cons]
    obtain ⟨h1, h2⟩ := runOpsCountStep_inv hash s op hWF hinv
    exact ih (runOpsCountStep hash s op) h1 h2

theorem countNonEmpty_zero (tbl : List (List DictEntry)) (a : Nat) :
    countNonEmpty tbl a 0 = 0 := rfl

theorem countEmpty_zero (tbl : List (List DictEntry)) (a : Nat) :
    countEmpty tbl a 0 = 0 := rfl

theorem countNonEmpty_split (tbl : List (List DictEntry)) (a m n : Nat) :
    countNonEmpty tbl a (m + n) = countNonEmpty tbl a m + countNonEmpty tbl (a + m) n := by
  have hr : List.range' a m ++ List.range' (a + m) n = List.range' a (m + n) := by
    have := List.range'_append a m n 1
    rw [Nat.add_comm m n]
    simpa using this
  rw [countNonEmpty, countNonEmpty, countNonEmpty, ← hr, List.countP_append]

theorem countEmpty_split (tbl : List (List DictEntry)) (a m n : Nat) :
    countEmpty tbl a (m + n) = countEmpty tbl a m + countEmpty tbl (a + m) n := by
  have hr : List.range' a m ++ List.range' (a + m) n = List.range' a (m + n) := by
    have := List.range'_append a m n 1
    rw [Nat.add_comm m n]
    simpa using this
  rw [countEmpty, countEmpty, countEmpty, ← hr, List.countP_append]

theorem count_all_empty (tbl : List (List DictEntry)) (a m : Nat)
    (h : ∀ j, a ≤ j → j < a + m → tbl.getD j [] = []) :
    countNonEmpty tbl a m = 0 ∧ countEmpty tbl a m = m := by
  constructor
  · apply List.countP_eq_zero.mpr
    intro j hj
    obtain ⟨h1, h2⟩ := List.mem_range'_1.mp hj
    show ¬(!(tbl.getD j []).isEmpty) = true
    rw [h j h1 h2]
    decide
  · rw [countEmpty]
    have hall : ∀ j ∈ List.range' a m, ((fun j => (tbl.getD j []).isEmpty) j) = true := by
      intro j hj
      obtain ⟨h1, h2⟩ := List.mem_range'_1.mp hj
      show (tbl.getD j []).isEmpty = true
      rw [h j h1 h2]
      rfl
    rw [List.countP_eq_length.mpr hall]
    simp

theorem count_one_nonempty (tbl : List (List DictEntry)) (a : Nat)
    (h : tbl.getD a [] ≠ []) :
    countNonEmpty tbl a 1 = 1 ∧ countEmpty tbl a 1 = 0 := by
  have hr : List.range' a 1 = [a] := by simp
  have hp : (!(tbl.getD a []).isEmpty) = true := by
    cases hb : tbl.getD a [] with
    | nil => exact absurd hb h
    | cons x xs => rfl
  have hq : ((tbl.getD a []).isEmpty) = false := by
    cases hb : tbl.getD a [] with
    | nil => exact absurd hb h
    | cons x xs => rfl
  rw [countNonEmpty, countEmpty, hr]
  refine ⟨?_, ?_⟩
  · simp only [List.countP_cons, List.countP_nil, hp]
    rfl
  · simp only [List.countP_cons, List.countP_nil, hq]
    rfl

theorem count_congr (tbl tbl' : List (List DictEntry)) (a m : Nat)
    (h : ∀ j, a ≤ j → j < a + m → tbl.getD j [] = tbl'.getD j []) :
    countNonEmpty tbl a m = countNonEmpty tbl' a m ∧
    countEmpty tbl a m = countEmpty tbl' a m := by
  constructor
  · apply List.countP_congr
    intro j hj
    obtain ⟨h1, h2⟩ := List.mem_range'_1.mp hj
    show (!(tbl.getD j []).isEmpty) = true ↔ (!(tbl'.getD j []).isEmpty) = true
    rw [h j h1 h2]
  · apply List.countP_congr
    intro j hj
    obtain ⟨h1, h2⟩ := List.mem_range'_1.mp hj
    show ((tbl.getD j []).isEmpty) = true ↔ ((tbl'.getD j []).isEmpty) = true
    rw [h j h1 h2]

theorem rehashLoop_account (hash : Nat → Nat) :
    ∀ (n : Nat) (d : Dict) (ev : Nat), dictIsRehashing d = true → 0 ≤ d.rehashidx →
    ∃ f, d.rehashidx.toNat ≤ f ∧
      countNonEmpty d.ht0.table d.rehashidx.toNat (f - d.rehashidx.toNat) ≤ n ∧
      countEmpty d.ht0.table d.rehashidx.toNat (f - d.rehashidx.toNat) ≤ ev ∧
      ((rehashLoop hash d n ev).1.rehashidx = ((f : Nat) : Int) ∨
        (rehashLoop hash d n ev).1.rehashidx = -1) ∧
      (rehashLoop hash d n ev).2 = dictIsRehashing (rehashLoop hash d n ev).1 := by
  intro n
  induction n with
  | zero =>
    intro d ev hreh hidx
    refine ⟨d.rehashidx.toNat, Nat.le_refl _, ?_, ?_, ?_, ?_⟩
    · rw [Nat.sub_self, countNonEmpty_zero]
    · rw [Nat.sub_self, countEmpty_zero]
      exact Nat.zero_le ev
    all_goals (
      show _ 
      by_cases hu : d.ht0.used = 0)
    · have hfin : rehashLoop hash d 0 ev
          = ({ d with ht0 := d.ht1, ht1 := emptyHt, rehashidx := -1 }, false) := by
        show rehashFinalizeCheck d = _
        rw [rehashFinalizeCheck, if_pos hu]
      rw [hfin]
      exact Or.inr rfl
    · have hfin : rehashLoop hash d 0 ev = (d, true) := by
        show rehashFinalizeCheck d = _
        rw [rehashFinalizeCheck, if_neg hu]
      rw [hfin]
      refine Or.inl ?_
      show d.rehashidx = ((d.rehashidx.toNat : Nat) : Int)
      omega
    · have hfin : rehashLoop hash d 0 ev
          = ({ d with ht0 := d.ht1, ht1 := emptyHt, rehashidx := -1 }, false) := by
        show rehashFinalizeCheck d = _
        rw [rehashFinalizeCheck, if_pos hu]
      rw [hfin]
      simp [dictIsRehashing]
    · have hfin : rehashLoop hash d 0 ev = (d, true) := by
        show rehashFinalizeCheck d = _
        rw [rehashFinalizeCheck, if_neg hu]
      rw [hfin]
      exact hreh.symm
  | succ n ih =>
    intro d ev hreh hidx
    by_cases hu : d.ht0.used = 0
    · have hfin : rehashLoop hash d (n + 1) ev
          = ({ d with ht0 := d.ht1, ht1 := emptyHt, rehashidx := -1 }, false) := by
        rw [rehashLoop_succ, if_pos hu, rehashFinalizeCheck, if_pos hu]
      refine ⟨d.rehashidx.toNat, Nat.le_refl _, ?_, ?_, ?_, ?_⟩
      · rw [Nat.sub_self, countNonEmpty_zero]
        exact Nat.zero_le _
      · rw [Nat.sub_self, countEmpty_zero]
        exact Nat.zero_le ev
      · rw [hfin]
        exact Or.inr rfl
      · rw [hfin]
        simp [dictIsRehashing]
    · obtain ⟨sk1, sk2, sk3, sk4⟩ :=
        rehashSkip_spec d.ht0.table ev d.rehashidx.toNat
      by_cases hfound : (rehashSkip d.ht0.table d.rehashidx.toNat ev).2.2 = true
      · have hloop : rehashLoop hash d (n + 1) ev =
            rehashLoop hash
              (migrateBucket hash d (rehashSkip d.ht0.table d.rehashidx.toNat ev).1) n
              (rehashSkip d.ht0.table d.rehashidx.toNat ev).2.1 := by
          rw [rehashLoop_succ, if_neg hu, if_pos hfound]
        obtain ⟨hnonnil, hbudget⟩ := sk4 hfound
        have hridx' : (migrateBucket hash d
            (rehashSkip d.ht0.table d.rehashidx.toNat ev).1).rehashidx
            = (((rehashSkip d.ht0.table d.rehashidx.toNat ev).1 + 1 : Nat) : Int) := rfl
        have htab' : (migrateBucket hash d
            (rehashSkip d.ht0.table d.rehashidx.toNat ev).1).ht0.table
            = d.ht0.table.set (rehashSkip d.ht0.table d.rehashidx.toNat ev).1 [] := rfl
        have hreh' : dictIsRehashing (migrateBucket hash d
            (rehashSkip d.ht0.table d.rehashidx.toNat ev).1) = true := by
          apply rehashing_of_rehashidx
          rw [hridx']
          omega
        have hidx' : 0 ≤ (migrateBucket hash d
            (rehashSkip d.ht0.table d.rehashidx.toNat ev).1).rehashidx := by
          rw [hridx']
          omega
        obtain ⟨f', hf1, hf2, hf3, hf4, hf5⟩ := ih
          (migrateBucket hash d (rehashSkip d.ht0.table d.rehashidx.toNat ev).1)
          (rehashSkip d.ht0.table d.rehashidx.toNat ev).2.1 hreh' hidx'
        have ha' : (migrateBucket hash d
            (rehashSkip d.ht0.table d.rehashidx.toNat ev).1).rehashidx.toNat
            = (rehashSkip d.ht0.table d.rehashidx.toNat ev).1 + 1 := by
          rw [hridx', Int.toNat_natCast]
        rw [ha'] at hf1 hf2 hf3
        have hcongr := count_congr
          (d.ht0.table.set (rehashSkip d.ht0.table d.rehashidx.toNat ev).1 [])
          d.ht0.table
          ((rehashSkip d.ht0.table d.rehashidx.toNat ev).1 + 1)
          (f' - ((rehashSkip d.ht0.table d.rehashidx.toNat ev).1 + 1))
          (by
            intro j h1 h2
            exact getD_set_ne _ _ _ _ _ (by omega))
        rw [htab'] at hf2 hf3
        rw [hcongr.1] at hf2
        rw [hcongr.2] at hf3
        have hemp := count_all_empty d.ht0.table d.rehashidx.toNat
          ((rehashSkip d.ht0.table d.rehashidx.toNat ev).1 - d.rehashidx.toNat)
          (by
            intro j h1 h2
            exact sk2 j h1 (by omega))
        have hone := count_one_nonempty d.ht0.table
          (rehashSkip d.ht0.table d.rehashidx.toNat ev).1 hnonnil
        refine ⟨f', by omega, ?_, ?_, ?_, ?_⟩
        · have hsplit1 : f' - d.rehashidx.toNat =
              ((rehashSkip d.ht0.table d.rehashidx.toNat ev).1 - d.rehashidx.toNat) +
              (1 + (f' - ((rehashSkip d.ht0.table d.rehashidx.toNat ev).1 + 1))) := by
            omega
          rw [hsplit1, countNonEmpty_split]
          have hmid : d.rehashidx.toNat +
              ((rehashSkip d.ht0.table d.rehashidx.toNat ev).1 - d.rehashidx.toNat)
              = (rehashSkip d.ht0.table d.rehashidx.toNat ev).1 := by omega
          rw [hmid, countNonEmpty_split]
          rw [hemp.1, hone.1]
          omega
        · have hsplit1 : f' - d.rehashidx.toNat =
              ((rehashSkip d.ht0.table d.rehashidx.toNat ev).1 - d.rehashidx.toNat) +
              (1 + (f' - ((rehashSkip d.ht0.table d.rehashidx.toNat ev).1 + 1))) := by
            omega
          rw [hsplit1, countEmpty_split]
          have hmid : d.rehashidx.toNat +
              ((rehashSkip d.ht0.table d.rehashidx.toNat ev).1 - d.rehashidx.toNat)
              = (rehashSkip d.ht0.table d.rehashidx.toNat ev).1 := by omega
          rw [hmid, countEmpty_split]
          rw [hemp.2, hone.2]
          omega
        · rw [hloop]
          exact hf4
        · rw [hloop]
          exact hf5
      · have hloop : rehashLoop hash d (n + 1) ev =
            ({ d with rehashidx :=
              (((rehashSkip d.ht0.table d.rehashidx.toNat ev).1 : Nat) : Int) }, true) := by
          rw [rehashLoop_succ, if_neg hu, if_neg hfound]
        have hemp := count_all_empty d.ht0.table d.rehashidx.toNat
          ((rehashSkip d.ht0.table d.rehashidx.toNat ev).1 - d.rehashidx.toNat)
          (by
            intro j h1 h2
            exact sk2 j h1 (by omega))
        refine ⟨(rehashSkip d.ht0.table d.rehashidx.toNat ev).1, sk1, ?_, ?_, ?_, ?_⟩
        · rw [hemp.1]
          exact Nat.zero_le _
        · rw [hemp.2]
          exact sk3
        · rw [hloop]
          exact Or.inl rfl
        · rw [hloop]
          refine (rehashing_of_rehashidx ?_).symm
          show (((rehashSkip d.ht0.table d.rehashidx.toNat ev).1 : Nat) : Int) ≠ -1
          omega

/-! ### The scan protocol on a static dictionary -/

theorem and_mask_of_lt {v k : Nat} (h : v < 2 ^ k) : v &&& (2 ^ k - 1) = v := by
  rw [Nat.and_pow_two_sub_one_eq_mod, Nat.mod_eq_of_lt h]

theorem revBits_mul_pow (k0 k1 j : Nat) (hk : k0 ≤ k1) :
    revBits k1 (j * 2 ^ (k1 - k0)) = revBits k0 j := by
  have hpad := revBits_pad (k1 - k0) k0 0 j (Nat.two_pow_pos (k1 - k0))
  rw [revBits_zero] at hpad
  have he : k1 - k0 + k0 = k1 := by omega
  rw [he] at hpad
  simpa [Nat.mul_comm] using hpad

theorem dictScanAll_succ (d : Dict) (f v : Nat) :
    dictScanAll d (f + 1) v =
      if (dictScan d v).2 = 0 then ((dictScan d v).1, 0)
      else ((dictScan d v).1 ++ (dictScanAll d f (dictScan d v).2).1,
        (dictScanAll d f (dictScan d v).2).2) := rfl

theorem range_map_getD {α : Type} (l : List α) (dflt : α) :
    (List.range' 0 l.length).map (fun i => l.getD i dflt) = l := by
  apply List.ext_getElem
  · simp
  · intro i h1 h2
    simp only [List.getElem_map, List.getElem_range', Nat.zero_add, Nat.one_mul]
    exact getD_eq_getElem l i dflt h2

theorem revBits_range_perm (k : Nat) :
    ((List.range' 0 (2 ^ k)).map (revBits k)).Perm (List.range' 0 (2 ^ k)) := by
  apply List.perm_of_nodup_nodup_toFinset_eq
  · apply List.Nodup.map_on
    · intro x hx y hy hxy
      obtain ⟨_, hx2⟩ := List.mem_range'_1.mp hx
      obtain ⟨_, hy2⟩ := List.mem_range'_1.mp hy
      exact revBits_inj (by omega) (by omega) hxy
    · exact List.nodup_range' ..
  · exact List.nodup_range' ..
  · ext x
    simp only [List.mem_toFinset, List.mem_map, List.mem_range'_1, Nat.zero_add, Nat.zero_le,
      true_and]
    constructor
    · rintro ⟨i, hi, rfl⟩
      exact revBits_lt k i
    · intro hx
      exact ⟨revBits k x, revBits_lt k x, revBits_rev k x hx⟩

theorem map_bucket_perm (t : Dictht) (k : Nat) (hlen : t.table.length = 2 ^ k) :
    ((List.range' 0 (2 ^ k)).map (fun i => bucketGet t (revBits k i))).Perm t.table := by
  have h1 := (revBits_range_perm k).map (fun i => bucketGet t i)
  rw [List.map_map] at h1
  have h2 : (List.range' 0 (2 ^ k)).map (fun i => bucketGet t i) = t.table := by
    have := range_map_getD t.table ([] : List DictEntry)
    rw [hlen] at this
    exact this
  rw [h2] at h1
  exact h1

theorem scanAll_nonrehash (d : Dict) (k : Nat) (hk : k ≤ 64)
    (hsz : ¬ dictSize d = 0) (hreh : dictIsRehashing d = false)
    (hmask : d.ht0.sizemask = 2 ^ k - 1) :
    ∀ (c j : Nat), j + (c + 1) = 2 ^ k →
      (dictScanAll d (c + 1) (revBits k j)).1 =
        ((List.range' j (c + 1)).map (fun i => bucketGet d.ht0 (revBits k i))).flatten ∧
      (dictScanAll d (c + 1) (revBits k j)).2 = 0 := by
  have hscan : ∀ v, dictScan d v =
      (bucketGet d.ht0 (v &&& d.ht0.sizemask), scanStep d.ht0.sizemask v) := by
    intro v
    rw [dictScan, if_neg hsz, if_pos hreh]
  intro c
  induction c with
  | zero =>
    intro j hj
    have hjlt : j < 2 ^ k := by omega
    have hstep : (dictScan d (revBits k j)).2 = 0 := by
      rw [hscan, hmask, scanStep_eq hk (revBits_lt k j), revBits_rev k j hjlt]
      have : (j + 1) % 2 ^ k = 0 := by
        rw [show j + 1 = 2 ^ k by omega]
        exact Nat.mod_self _
      rw [this, revBits_zero]
    rw [dictScanAll_succ, if_pos hstep]
    refine ⟨?_, rfl⟩
    rw [hscan, hmask, and_mask_of_lt (revBits_lt k j)]
    simp
  | succ c ih =>
    intro j hj
    have hjlt : j + 1 < 2 ^ k := by omega
    have hstep : (dictScan d (revBits k j)).2 = revBits k (j + 1) := by
      rw [hscan, hmask, scanStep_eq hk (revBits_lt k j), revBits_rev k j (by omega)]
      rw [Nat.mod_eq_of_lt hjlt]
    have hne : (dictScan d (revBits k j)).2 ≠ 0 := by
      rw [hstep]
      intro h0
      have := revBits_inj (a := j + 1) (b := 0) (by omega) (Nat.two_pow_pos k) (by
        rw [h0, revBits_zero])
      omega
    obtain ⟨ih1, ih2⟩ := ih (j + 1) (by omega)
    rw [dictScanAll_succ, if_neg hne]
    refine ⟨?_, by rw [hstep]; exact ih2⟩
    show (dictScan d (revBits k j)).1 ++ (dictScanAll d (c + 1) (dictScan d (revBits k j)).2).1
      = _
    rw [List.range'_succ, List.map_cons, List.flatten_cons]
    rw [hstep, ih1, hscan, hmask, and_mask_of_lt (revBits_lt k j)]

theorem scan_nonrehash_ms (hash : Nat → Nat) (d : Dict) (hWF : WF hash d)
    (hreh : dictIsRehashing d = false) (h64 : d.ht0.size ≤ 2 ^ 64)
    (hsz : ¬ dictSize d = 0) :
    ((dictScanAll d d.ht0.size 0).1 : Multiset DictEntry) =
      (dictAllEntries d : List DictEntry) ∧
    (dictScanAll d d.ht0.size 0).2 = 0 := by
  obtain ⟨⟨hlen0, hmask0, hused0, hpow0⟩, hw1, hp0, hp1, huniq, hrinv, hnon⟩ := hWF
  have hht1 : d.ht1 = emptyHt := hnon hreh
  rcases hpow0 with h0 | ⟨k, hk⟩
  · exfalso
    apply hsz
    have hlt : d.ht0.table = [] := by
      have := hlen0
      rw [h0] at this
      exact List.length_eq_zero.mp this
    have hu0 : d.ht0.used = 0 := by
      rw [hused0, hlt]
      rfl
    show d.ht0.used + d.ht1.used = 0
    rw [hu0, hht1]
    rfl
  · have hk64 : k ≤ 64 := by
      by_contra hgt
      have : 2 ^ 64 < 2 ^ k := Nat.pow_lt_pow_right (by norm_num) (by omega)
      omega
    have hmask : d.ht0.sizemask = 2 ^ k - 1 := by rw [hmask0, hk]
    have hpos : 0 < 2 ^ k := Nat.two_pow_pos k
    obtain ⟨hs1, hs2⟩ := scanAll_nonrehash d k hk64 hsz hreh hmask (2 ^ k - 1) 0
      (by omega)
    have hfuel : d.ht0.size = 2 ^ k - 1 + 1 := by omega
    have hcur : revBits k 0 = 0 := revBits_zero k
    rw [hcur] at hs1 hs2
    rw [hfuel]
    refine ⟨?_, hs2⟩
    rw [hs1]
    have hperm := (map_bucket_perm d.ht0 k (by rw [hlen0, hk])).flatten
    have hall : dictAllEntries d = d.ht0.table.flatten := by
      rw [dictAllEntries, hht1]
      show _ ++ ([] : List (List DictEntry)).flatten = _
      rw [List.flatten_nil, List.append_nil]
    rw [hall, show 2 ^ k - 1 + 1 = 2 ^ k by omega]
    exact Multiset.coe_eq_coe.mpr hperm

theorem revBits_mod (k v : Nat) : revBits k (v % 2 ^ k) = revBits k v := by
  induction k generalizing v with
  | zero => rfl
  | succ k ih =>
    show (v % 2 ^ (k + 1)) % 2 * 2 ^ k + revBits k (v % 2 ^ (k + 1) / 2)
      = v % 2 * 2 ^ k + revBits k (v / 2)
    have h1 : v % 2 ^ (k + 1) % 2 = v % 2 := by
      rw [Nat.mod_mod_of_dvd]
      exact Dvd.intro (2 ^ k) (by rw [pow_succ, Nat.mul_comm])
    have h2 : v % 2 ^ (k + 1) / 2 = v / 2 % 2 ^ k := by
      rw [pow_succ, Nat.mul_comm, Nat.mod_mul_right_div_self]
    rw [h1, h2, ih]

theorem scanInner_succ (t1 : Dictht) (c v : Nat) :
    scanInner t1 (c + 1) v =
      (bucketGet t1 (v &&& t1.sizemask) ++ (scanInner t1 c (scanStep t1.sizemask v)).1,
        (scanInner t1 c (scanStep t1.sizemask v)).2) := rfl

theorem scanInner_spec (t1 : Dictht) (k1 : Nat) (hk1 : k1 ≤ 64)
    (hm1 : t1.sizemask = 2 ^ k1 - 1) :
    ∀ (c t : Nat), t + c ≤ 2 ^ k1 →
      (scanInner t1 c (revBits k1 t)).1 =
        ((List.range' t c).map (fun u => bucketGet t1 (revBits k1 u))).flatten ∧
      (scanInner t1 c (revBits k1 t)).2 = revBits k1 ((t + c) % 2 ^ k1) := by
  intro c
  induction c with
  | zero =>
    intro t ht
    refine ⟨rfl, ?_⟩
    show revBits k1 t = _
    rw [Nat.add_zero, revBits_mod]
  | succ c ih =>
    intro t ht
    have htlt : t < 2 ^ k1 := by omega
    have hstep : scanStep t1.sizemask (revBits k1 t) = revBits k1 (t + 1) := by
      rw [hm1, scanStep_eq hk1 (revBits_lt k1 t), revBits_rev k1 t htlt, revBits_mod]
    obtain ⟨ih1, ih2⟩ := ih (t + 1) (by omega)
    rw [scanInner_succ, hstep]
    refine ⟨?_, ?_⟩
    · show bucketGet t1 (revBits k1 t &&& t1.sizemask) ++ (scanInner t1 c (revBits k1 (t + 1))).1
        = _
      rw [List.range'_succ, List.map_cons, List.flatten_cons, ih1, hm1,
        and_mask_of_lt (revBits_lt k1 t)]
    · show (scanInner t1 c (revBits k1 (t + 1))).2 = _
      rw [ih2]
      have harith : t + 1 + c = t + (c + 1) := by omega
      rw [harith]

theorem scanAll_rehash (d : Dict) (t0 t1 : Dictht) (k0 k1 : Nat)
    (hk1 : k1 ≤ 64) (hkk : k0 ≤ k1)
    (hm0 : t0.sizemask = 2 ^ k0 - 1) (hm1 : t1.sizemask = 2 ^ k1 - 1)
    (hscan : ∀ v, dictScan d v =
      (bucketGet t0 (v &&& t0.sizemask) ++ (scanInner t1 (2 ^ (k1 - k0)) v).1,
        (scanInner t1 (2 ^ (k1 - k0)) v).2)) :
    ∀ (c j : Nat), j + (c + 1) = 2 ^ k0 →
      (dictScanAll d (c + 1) (revBits k0 j)).1 =
        ((List.range' j (c + 1)).map (fun i =>
          bucketGet t0 (revBits k0 i) ++
          ((List.range' (i * 2 ^ (k1 - k0)) (2 ^ (k1 - k0))).map
            (fun u => bucketGet t1 (revBits k1 u))).flatten)).flatten ∧
      (dictScanAll d (c + 1) (revBits k0 j)).2 = 0 := by
  have hpow : 2 ^ k0 * 2 ^ (k1 - k0) = 2 ^ k1 := by
    rw [← pow_add]
    congr 1
    omega
  have hDpos : 0 < 2 ^ (k1 - k0) := Nat.two_pow_pos _
  intro c
  induction c with
  | zero =>
    intro j hj
    have hjlt : j < 2 ^ k0 := by omega
    have hjj : revBits k0 j = revBits k1 (j * 2 ^ (k1 - k0)) :=
      (revBits_mul_pow k0 k1 j hkk).symm
    have hsm : (j + 1) * 2 ^ (k1 - k0) = j * 2 ^ (k1 - k0) + 2 ^ (k1 - k0) :=
      Nat.succ_mul j _
    have h1 : (j + 1) * 2 ^ (k1 - k0) ≤ 2 ^ k0 * 2 ^ (k1 - k0) :=
      Nat.mul_le_mul_right _ (by omega)
    have hbound : j * 2 ^ (k1 - k0) + 2 ^ (k1 - k0) ≤ 2 ^ k1 := by omega
    obtain ⟨hi1, hi2⟩ := scanInner_spec t1 k1 hk1 hm1 (2 ^ (k1 - k0))
      (j * 2 ^ (k1 - k0)) hbound
    have hfin : (j + 1) * 2 ^ (k1 - k0) = 2 ^ k1 := by
      rw [show j + 1 = 2 ^ k0 by omega, hpow]
    have hstep : (dictScan d (revBits k0 j)).2 = 0 := by
      rw [hscan, hjj]
      show (scanInner t1 (2 ^ (k1 - k0)) (revBits k1 (j * 2 ^ (k1 - k0)))).2 = 0
      rw [hi2, show j * 2 ^ (k1 - k0) + 2 ^ (k1 - k0) = 2 ^ k1 by omega, Nat.mod_self,
        revBits_zero]
    rw [dictScanAll_succ, if_pos hstep]
    refine ⟨?_, rfl⟩
    show (dictScan d (revBits k0 j)).1 = _
    rw [hscan]
    show bucketGet t0 (revBits k0 j &&& t0.sizemask) ++
      (scanInner t1 (2 ^ (k1 - k0)) (revBits k0 j)).1 = _
    have h01 : List.range' j (0 + 1) = [j] := by
      rw [Nat.zero_add, List.range'_one]
    rw [hm0, and_mask_of_lt (revBits_lt k0 j), hjj, hi1, h01,
      List.map_singleton, List.flatten_cons, List.flatten_nil, List.append_nil, ← hjj]
  | succ c ih =>
    intro j hj
    have hjlt : j + 1 < 2 ^ k0 := by omega
    have hjj : revBits k0 j = revBits k1 (j * 2 ^ (k1 - k0)) :=
      (revBits_mul_pow k0 k1 j hkk).symm
    have hsm : (j + 1) * 2 ^ (k1 - k0) = j * 2 ^ (k1 - k0) + 2 ^ (k1 - k0) :=
      Nat.succ_mul j _
    have h1 : (j + 1) * 2 ^ (k1 - k0) < 2 ^ k0 * 2 ^ (k1 - k0) :=
      Nat.mul_lt_mul_of_lt_of_le hjlt (Nat.le_refl _) hDpos
    have hbound : j * 2 ^ (k1 - k0) + 2 ^ (k1 - k0) ≤ 2 ^ k1 := by omega
    obtain ⟨hi1, hi2⟩ := scanInner_spec t1 k1 hk1 hm1 (2 ^ (k1 - k0))
      (j * 2 ^ (k1 - k0)) hbound
    have hstep : (dictScan d (revBits k0 j)).2 = revBits k0 (j + 1) := by
      rw [hscan, hjj]
      show (scanInner t1 (2 ^ (k1 - k0)) (revBits k1 (j * 2 ^ (k1 - k0)))).2 = _
      rw [hi2, ← hsm, Nat.mod_eq_of_lt (by omega)]
      exact revBits_mul_pow k0 k1 (j + 1) hkk
    have hne : (dictScan d (revBits k0 j)).2 ≠ 0 := by
      rw [hstep]
      intro h0
      have := revBits_inj (a := j + 1) (b := 0) (by omega) (Nat.two_pow_pos k0) (by
        rw [h0, revBits_zero])
      omega
    obtain ⟨ih1, ih2⟩ := ih (j + 1) (by omega)
    rw [dictScanAll_succ, if_neg hne]
    refine ⟨?_, by rw [hstep]; exact ih2⟩
    show (dictScan d (revBits k0 j)).1 ++ (dictScanAll d (c + 1) (dictScan d (revBits k0 j)).2).1
      = _
    rw [List.range'_succ, List.map_cons, List.flatten_cons]
    rw [hstep, ih1, hscan]
    show (bucketGet t0 (revBits k0 j &&& t0.sizemask) ++
      (scanInner t1 (2 ^ (k1 - k0)) (revBits k0 j)).1) ++ _ = _
    rw [hm0, and_mask_of_lt (revBits_lt k0 j), hjj, hi1]

theorem flatten_map_append_ms (A B : Nat → List DictEntry) :
    ∀ l : List Nat,
      ((l.map (fun i => A i ++ B i)).flatten : Multiset DictEntry) =
        ((l.map A).flatten : List DictEntry) + ((l.map B).flatten : List DictEntry) := by
  intro l
  induction l with
  | nil => rfl
  | cons a l ih =>
    show (((A a ++ B a) ++ (l.map (fun i => A i ++ B i)).flatten : List DictEntry) :
      Multiset DictEntry) = ((A a ++ (l.map A).flatten : List DictEntry) : Multiset DictEntry) +
        ((B a ++ (l.map B).flatten : List DictEntry) : Multiset DictEntry)
    rw [← Multiset.coe_add, ← Multiset.coe_add, ← Multiset.coe_add, ← Multiset.coe_add, ih]
    abel

theorem flatten_map_flatten {α β : Type} (g : β → List α) (r : Nat → List β) :
    ∀ l : List Nat,
      (l.map (fun i => ((r i).map g).flatten)).flatten = (((l.map r).flatten).map g).flatten := by
  intro l
  induction l with
  | nil => rfl
  | cons a l ih =>
    show ((r a).map g).flatten ++ (l.map (fun i => ((r i).map g).flatten)).flatten = _
    rw [ih]
    show _ = ((r a ++ (l.map r).flatten).map g).flatten
    rw [List.map_append, List.flatten_append]

theorem range_blocks_flatten (D : Nat) :
    ∀ n : Nat, ((List.range' 0 n).map (fun i => List.range' (i * D) D)).flatten =
      List.range' 0 (n * D) := by
  intro n
  induction n with
  | zero => simp
  | succ n ih =>
    have hcat : List.range' 0 (n + 1) = List.range' 0 n ++ [n] := by
      have h := List.range'_append 0 n 1 1
      simp only [Nat.one_mul, Nat.zero_add, List.range'_one] at h
      rw [Nat.add_comm n 1]
      exact h.symm
    rw [hcat, List.map_append, List.flatten_append, ih]
    show _ ++ (List.range' (n * D) D ++ [].flatten) = _
    rw [List.flatten_nil, List.append_nil]
    have happ : List.range' 0 (n * D) ++ List.range' (0 + n * D) D
        = List.range' 0 (D + n * D) := by
      have := List.range'_append 0 (n * D) D 1
      simpa using this
    rw [Nat.zero_add] at happ
    rw [happ]
    have : D + n * D = (n + 1) * D := by ring
    rw [this]

theorem scanAll_rehash_ms_core (d : Dict) (t0 t1 : Dictht) (k0 k1 : Nat)
    (hk1 : k1 ≤ 64) (hkk : k0 ≤ k1)
    (hm0 : t0.sizemask = 2 ^ k0 - 1) (hm1 : t1.sizemask = 2 ^ k1 - 1)
    (hlen0 : t0.table.length = 2 ^ k0) (hlen1 : t1.table.length = 2 ^ k1)
    (hscan : ∀ v, dictScan d v =
      (bucketGet t0 (v &&& t0.sizemask) ++ (scanInner t1 (2 ^ (k1 - k0)) v).1,
        (scanInner t1 (2 ^ (k1 - k0)) v).2)) :
    ((dictScanAll d (2 ^ k0) 0).1 : Multiset DictEntry) =
      (t0.table.flatten : List DictEntry) + (t1.table.flatten : List DictEntry) ∧
    (dictScanAll d (2 ^ k0) 0).2 = 0 := by
  have hpos : 0 < 2 ^ k0 := Nat.two_pow_pos k0
  have hpow : 2 ^ k0 * 2 ^ (k1 - k0) = 2 ^ k1 := by
    rw [← pow_add]
    congr 1
    omega
  obtain ⟨hs1, hs2⟩ := scanAll_rehash d t0 t1 k0 k1 hk1 hkk hm0 hm1 hscan
    (2 ^ k0 - 1) 0 (by omega)
  rw [revBits_zero] at hs1 hs2
  rw [show (2 : Nat) ^ k0 = 2 ^ k0 - 1 + 1 by omega]
  refine ⟨?_, hs2⟩
  rw [hs1, show (2 : Nat) ^ k0 - 1 + 1 = 2 ^ k0 by omega]
  have hsplit : (((List.range' 0 (2 ^ k0)).map (fun i =>
      bucketGet t0 (revBits k0 i) ++
      ((List.range' (i * 2 ^ (k1 - k0)) (2 ^ (k1 - k0))).map
        (fun u => bucketGet t1 (revBits k1 u))).flatten)).flatten : Multiset DictEntry) =
      (((List.range' 0 (2 ^ k0)).map (fun i => bucketGet t0 (revBits k0 i))).flatten :
        List DictEntry) +
      (((List.range' 0 (2 ^ k0)).map (fun i =>
        ((List.range' (i * 2 ^ (k1 - k0)) (2 ^ (k1 - k0))).map
          (fun u => bucketGet t1 (revBits k1 u))).flatten)).flatten : List DictEntry) :=
    flatten_map_append_ms _ _ _
  rw [hsplit]
  have hA : (((List.range' 0 (2 ^ k0)).map (fun i => bucketGet t0 (revBits k0 i))).flatten :
      Multiset DictEntry) = (t0.table.flatten : List DictEntry) :=
    Multiset.coe_eq_coe.mpr (map_bucket_perm t0 k0 hlen0).flatten
  have hBlist : ((List.range' 0 (2 ^ k0)).map (fun i =>
      ((List.range' (i * 2 ^ (k1 - k0)) (2 ^ (k1 - k0))).map
        (fun u => bucketGet t1 (revBits k1 u))).flatten)).flatten =
      ((((List.range' 0 (2 ^ k0)).map
        (fun i => List.range' (i * 2 ^ (k1 - k0)) (2 ^ (k1 - k0)))).flatten).map
        (fun u => bucketGet t1 (revBits k1 u))).flatten :=
    flatten_map_flatten _ _ _
  have hranges := range_blocks_flatten (2 ^ (k1 - k0)) (2 ^ k0)
  rw [hpow] at hranges
  have hB : (((List.range' 0 (2 ^ k0)).map (fun i =>
      ((List.range' (i * 2 ^ (k1 - k0)) (2 ^ (k1 - k0))).map
        (fun u => bucketGet t1 (revBits k1 u))).flatten)).flatten : Multiset DictEntry) =
      (t1.table.flatten : List DictEntry) := by
    rw [hBlist, hranges]
    exact Multiset.coe_eq_coe.mpr (map_bucket_perm t1 k1 hlen1).flatten
  rw [hA, hB]

theorem scan_rehash_ms (hash : Nat → Nat) (d : Dict) (hWF : WF hash d)
    (hreh : dictIsRehashing d = true)
    (h640 : d.ht0.size ≤ 2 ^ 64) (h641 : d.ht1.size ≤ 2 ^ 64)
    (hsz : ¬ dictSize d = 0) :
    ((dictScanAll d (min d.ht0.size d.ht1.size) 0).1 : Multiset DictEntry) =
      (dictAllEntries d : List DictEntry) ∧
    (dictScanAll d (min d.ht0.size d.ht1.size) 0).2 = 0 := by
  obtain ⟨⟨hlen0, hmask0, hused0, hpow0⟩, ⟨hlen1, hmask1, hused1, hpow1⟩,
    _, _, _, hrinv, _⟩ := hWF
  obtain ⟨_, _, hpos0, hP21, _, _⟩ := hrinv hreh
  obtain ⟨b, hb⟩ := hP21
  have hP20 : IsP2 d.ht0.size := by
    rcases hpow0 with h0 | h
    · omega
    · exact h
  obtain ⟨a, ha⟩ := hP20
  have hka : a ≤ 64 := by
    by_contra hgt
    have : 2 ^ 64 < 2 ^ a := Nat.pow_lt_pow_right (by norm_num) (by omega)
    omega
  have hkb : b ≤ 64 := by
    by_contra hgt
    have : 2 ^ 64 < 2 ^ b := Nat.pow_lt_pow_right (by norm_num) (by omega)
    omega
  have hreh' : ¬ (dictIsRehashing d = false) := by
    rw [hreh]
    simp
  have hall : ((dictAllEntries d : List DictEntry) : Multiset DictEntry) =
      (d.ht0.table.flatten : List DictEntry) + (d.ht1.table.flatten : List DictEntry) := by
    show ((d.ht0.table.flatten ++ d.ht1.table.flatten : List DictEntry) :
      Multiset DictEntry) = _
    rw [← Multiset.coe_add]
  have hscan0 : ∀ v, dictScan d v =
      (bucketGet (if d.ht1.size < d.ht0.size then d.ht1 else d.ht0)
        (v &&& (if d.ht1.size < d.ht0.size then d.ht1 else d.ht0).sizemask) ++
       (scanInner (if d.ht1.size < d.ht0.size then d.ht0 else d.ht1)
         (((if d.ht1.size < d.ht0.size then d.ht0 else d.ht1).sizemask + 1) /
          ((if d.ht1.size < d.ht0.size then d.ht1 else d.ht0).sizemask + 1)) v).1,
       (scanInner (if d.ht1.size < d.ht0.size then d.ht0 else d.ht1)
         (((if d.ht1.size < d.ht0.size then d.ht0 else d.ht1).sizemask + 1) /
          ((if d.ht1.size < d.ht0.size then d.ht1 else d.ht0).sizemask + 1)) v).2) := by
    intro v
    rw [dictScan, if_neg hsz, if_neg hreh']
  by_cases hcmp : d.ht1.size < d.ht0.size
  · have hba : b < a := by
      rw [ha, hb] at hcmp
      exact (Nat.pow_lt_pow_iff_right (by norm_num)).mp hcmp
    have hmin : min d.ht0.size d.ht1.size = 2 ^ b := by
      rw [Nat.min_eq_right (Nat.le_of_lt hcmp), hb]
    have hcnt : ((if d.ht1.size < d.ht0.size then d.ht0 else d.ht1).sizemask + 1) /
        ((if d.ht1.size < d.ht0.size then d.ht1 else d.ht0).sizemask + 1) = 2 ^ (a - b) := by
      rw [if_pos hcmp, if_pos hcmp, hmask0, hmask1, ha, hb]
      rw [Nat.sub_add_cancel (Nat.one_le_two_pow), Nat.sub_add_cancel (Nat.one_le_two_pow)]
      rw [Nat.pow_div (by omega) (by norm_num)]
    have hscan : ∀ v, dictScan d v =
        (bucketGet d.ht1 (v &&& d.ht1.sizemask) ++
          (scanInner d.ht0 (2 ^ (a - b)) v).1, (scanInner d.ht0 (2 ^ (a - b)) v).2) := by
      intro v
      rw [hscan0 v, hcnt, if_pos hcmp, if_pos hcmp]
    obtain ⟨hc1, hc2⟩ := scanAll_rehash_ms_core d d.ht1 d.ht0 b a hka (by omega)
      (by rw [hmask1, hb]) (by rw [hmask0, ha])
      (by rw [hlen1, hb]) (by rw [hlen0, ha]) hscan
    rw [hmin]
    refine ⟨?_, hc2⟩
    rw [hc1, hall]
    exact add_comm _ _
  · have hab : a ≤ b := by
      have hle : d.ht0.size ≤ d.ht1.size := by omega
      rw [ha, hb] at hle
      exact (Nat.pow_le_pow_iff_right (by norm_num)).mp hle
    have hmin : min d.ht0.size d.ht1.size = 2 ^ a := by
      rw [Nat.min_eq_left (by omega), ha]
    have hcnt : ((if d.ht1.size < d.ht0.size then d.ht0 else d.ht1).sizemask + 1) /
        ((if d.ht1.size < d.ht0.size then d.ht1 else d.ht0).sizemask + 1) = 2 ^ (b - a) := by
      rw [if_neg hcmp, if_neg hcmp, hmask0, hmask1, ha, hb]
      rw [Nat.sub_add_cancel (Nat.one_le_two_pow), Nat.sub_add_cancel (Nat.one_le_two_pow)]
      rw [Nat.pow_div (by omega) (by norm_num)]
    have hscan : ∀ v, dictScan d v =
        (bucketGet d.ht0 (v &&& d.ht0.sizemask) ++
          (scanInner d.ht1 (2 ^ (b - a)) v).1, (scanInner d.ht1 (2 ^ (b - a)) v).2) := by
      intro v
      rw [hscan0 v, hcnt, if_neg hcmp, if_neg hcmp]
    obtain ⟨hc1, hc2⟩ := scanAll_rehash_ms_core d d.ht0 d.ht1 a b hkb hab
      (by rw [hmask0, ha]) (by rw [hmask1, hb])
      (by rw [hlen0, ha]) (by rw [hlen1, hb]) hscan
    rw [hmin]
    refine ⟨?_, hc2⟩
    rw [hc1, hall]

theorem dictFind_found (hash : Nat → Nat) (d : Dict) (k : Nat) (e : DictEntry)
    (hWF : WF hash d) (hfound : dictFindNoStep hash d k = some e) :
    (dictFind hash d k).2 = some e := by
  have hmem := ((dictFindNoStep_some_iff hash d k e hWF).mp hfound).1
  have hsz : ¬ dictSize d = 0 := by
    intro h0
    obtain ⟨⟨_, _, hused0, _⟩, ⟨_, _, hused1, _⟩, _⟩ := hWF
    have hl0 : d.ht0.table.flatten.length = (d.ht0.table.map List.length).sum :=
      List.length_flatten _
    have hl1 : d.ht1.table.flatten.length = (d.ht1.table.map List.length).sum :=
      List.length_flatten _
    have hlen : (dictAllEntries d).length =
        d.ht0.table.flatten.length + d.ht1.table.flatten.length :=
      List.length_append _ _
    have hpos : 0 < (dictAllEntries d).length := List.length_pos.mpr (by
      intro hnil
      rw [hnil] at hmem
      simp at hmem)
    have : dictSize d = d.ht0.used + d.ht1.used := rfl
    omega
  obtain ⟨s1, s2, s3, s4⟩ := dictRehashStep_props hash d hWF
  have he : (dictFind hash d k).2 = dictFindNoStep hash (dictRehashStep hash d) k := by
    simp only [dictFind]
    rw [if_neg hsz]
  rw [he, dictFindNoStep_congr hash d (dictRehashStep hash d) k hWF s1 s2, hfound]

theorem count_entry_one (hash : Nat → Nat) (d : Dict) (rep : List DictEntry)
    (hWF : WF hash d)
    (hms : (rep : Multiset DictEntry) = (dictAllEntries d : List DictEntry)) :
    ∀ e ∈ dictAllEntries d, rep.count e = 1 := by
  intro e hmem
  obtain ⟨_, _, _, _, huniq, _, _⟩ := hWF
  have hperm := perm_of_ms hms
  rw [hperm.count_eq e]
  have hcp : (dictAllEntries d).countP (fun x => x.key == e.key) =
      keyCount e.key d.ht0 + keyCount e.key d.ht1 := by
    show (d.ht0.table.flatten ++ d.ht1.table.flatten).countP _ = _
    rw [List.countP_append]
    rfl
  have hle : (dictAllEntries d).count e ≤
      (dictAllEntries d).countP (fun x => x.key == e.key) := by
    apply List.countP_mono_left
    intro a _ ha
    have : a = e := by simpa using ha
    rw [this]
    simp
  have hpos : 0 < (dictAllEntries d).count e := List.count_pos_iff.mpr hmem
  have := huniq e.key
  omega

theorem fingerprint_dictSize {d d' : Dict}
    (h : dictFingerprint d' = dictFingerprint d) : dictSize d' = dictSize d := by
  obtain ⟨h1, h2⟩ := Nat.pair_eq_pair.mp h
  obtain ⟨_, h12⟩ := Nat.pair_eq_pair.mp h1
  obtain ⟨_, h22⟩ := Nat.pair_eq_pair.mp h2
  show d'.ht0.used + d'.ht1.used = d.ht0.used + d.ht1.used
  omega

theorem mismatch_of_size {d d' : Dict} (h : dictSize d' ≠ dictSize d) :
    dictReleaseIteratorCheck d' (dictGetIterator d) = true := by
  have hne : dictFingerprint d' ≠ dictFingerprint d := by
    intro heq
    exact h (fingerprint_dictSize heq)
  simpa [dictReleaseIteratorCheck, dictGetIterator] using hne

theorem nestPause_val (d : Dict) (h0 : d.pauserehash = 0) :
    ∀ n : Nat, n ≤ 32768 → (nestPause d n).pauserehash = wrap16 n := by
  intro n
  induction n with
  | zero =>
    intro _
    show d.pauserehash = wrap16 0
    rw [h0]
    rfl
  | succ n ih =>
    intro hn
    show wrap16 ((nestPause d n).pauserehash + 1) = wrap16 (n + 1)
    rw [ih (by omega)]
    have hw : wrap16 (n : Int) = (n : Int) := by
      show ((n : Int) + 32768) % 65536 - 32768 = (n : Int)
      omega
    rw [hw]

/-! ### The claims -/

/-- C1, counterexample: the claim promises that after a successful
`dictAdd(d, k, v)` with no subsequent `dictDelete(d, k)`, every later
`dictFind(d, k)` returns an entry whose value equals `v`.  A
`dictReplace(d, k, v2)` is neither a delete nor blocked, yet it overwrites
the stored value: after `dictAdd(d, 1, 1)` and `dictReplace(d, 1, 2)` the
find returns value 2, not 1. -/
theorem c1_counterexample :
    (dictAdd (fun n => n) dictCreate 1 1).2 = true ∧
    DictOp.del 1 ∉ [DictOp.replace 1 2] ∧
    (dictFind (fun n => n)
      (runOps (fun n => n) (dictAdd (fun n => n) dictCreate 1 1).1 [DictOp.replace 1 2])
      1).2 = some ⟨1, 2⟩ ∧
    (some (⟨1, 2⟩ : DictEntry)).map DictEntry.val ≠ some 1 := by
  decide

/-- C1, amended: after a successful `dictAdd(d, k, v)`, as long as the
subsequent operations contain no `dictDelete(d, k)` and no
`dictReplace(d, k, ·)` (other keys, failing re-adds, finds, rehashes,
expands and resizes are all allowed), every later `dictFind(d, k)` returns
the entry `⟨k, v⟩`, regardless of any rehashing in between. -/
theorem c1_amended_theorem (hash : Nat → Nat) (d : Dict) (k v : Nat) (ops : List DictOp)
    (hWF : WF hash d) (hadd : (dictAdd hash d k v).2 = true)
    (havoid : ∀ op ∈ ops, opAvoids k op = true) :
    (dictFind hash (runOps hash (dictAdd hash d k v).1 ops) k).2 = some ⟨k, v⟩ := by
  obtain ⟨a1, a2, a3, _, _⟩ := dictAdd_props hash d k v hWF
  obtain ⟨hms, _⟩ := a3 hadd
  have hmem : (⟨k, v⟩ : DictEntry) ∈ dictAllEntries (dictAdd hash d k v).1 :=
    (mem_of_ms_add hms ⟨k, v⟩).mpr (Or.inr rfl)
  have hfound0 : dictFindNoStep hash (dictAdd hash d k v).1 k = some ⟨k, v⟩ :=
    (dictFindNoStep_some_iff hash _ k ⟨k, v⟩ a1).mpr ⟨hmem, rfl⟩
  have hWFrun := wf_runOps hash ops (dictAdd hash d k v).1 a1
  have hfound := runOps_keeps hash ops k ⟨k, v⟩ (dictAdd hash d k v).1 a1 havoid hfound0
  exact dictFind_found hash _ k ⟨k, v⟩ hWFrun hfound

/-- C1, witness: a concrete run of the amended theorem — add key 1 with
value 5, then add another key, re-add key 1 (which fails), delete the other
key; the find still returns `⟨1, 5⟩`. -/
theorem c1_amended_witness :
    (dictAdd (fun n => n) dictCreate 1 5).2 = true ∧
    (∀ op ∈ [DictOp.add 2 7, DictOp.add 1 9, DictOp.del 2, DictOp.rehash 1],
      opAvoids 1 op = true) ∧
    (dictFind (fun n => n)
      (runOps (fun n => n) (dictAdd (fun n => n) dictCreate 1 5).1
        [DictOp.add 2 7, DictOp.add 1 9, DictOp.del 2, DictOp.rehash 1]) 1).2
      = some ⟨1, 5⟩ :=
  ⟨by decide, by decide,
    c1_amended_theorem (fun n => n) dictCreate 1 5
      [DictOp.add 2 7, DictOp.add 1 9, DictOp.del 2, DictOp.rehash 1]
      (wf_create (fun n => n)) (by decide) (by decide)⟩

/-- C2: in every dictionary state reachable by the public operations from a
fresh dictionary, whenever `rehashidx ≠ -1`, `ht[1].size` is a power of two
at least `ht[0].used`, and every bucket `ht[0][i]` for `i < rehashidx` is
empty. -/
theorem c2_rehash_invariant (hash : Nat → Nat) (ops : List DictOp)
    (hreh : dictIsRehashing (runOps hash dictCreate ops) = true) :
    IsP2 (runOps hash dictCreate ops).ht1.size ∧
    (runOps hash dictCreate ops).ht0.used ≤ (runOps hash dictCreate ops).ht1.size ∧
    (∀ i, i < (runOps hash dictCreate ops).rehashidx.toNat →
      (runOps hash dictCreate ops).ht0.table.getD i [] = []) := by
  obtain ⟨_, _, _, _, _, hrinv, _⟩ := wf_runOps hash ops dictCreate (wf_create hash)
  obtain ⟨_, _, _, h4, h5, h6⟩ := hrinv hreh
  exact ⟨h4, h5, h6⟩

/-- C2, witness: five insertions trigger the auto-expand, leaving the
dictionary mid-rehash; the invariant holds there. -/
theorem c2_witness :
    dictIsRehashing (runOps (fun n => n) dictCreate
      [DictOp.add 0 0, DictOp.add 1 1, DictOp.add 2 2, DictOp.add 3 3,
        DictOp.add 4 4]) = true ∧
    (IsP2 (runOps (fun n => n) dictCreate
      [DictOp.add 0 0, DictOp.add 1 1, DictOp.add 2 2, DictOp.add 3 3,
        DictOp.add 4 4]).ht1.size ∧
    (runOps (fun n => n) dictCreate
      [DictOp.add 0 0, DictOp.add 1 1, DictOp.add 2 2, DictOp.add 3 3,
        DictOp.add 4 4]).ht0.used ≤
      (runOps (fun n => n) dictCreate
        [DictOp.add 0 0, DictOp.add 1 1, DictOp.add 2 2, DictOp.add 3 3,
          DictOp.add 4 4]).ht1.size ∧
    (∀ i, i < (runOps (fun n => n) dictCreate
        [DictOp.add 0 0, DictOp.add 1 1, DictOp.add 2 2, DictOp.add 3 3,
          DictOp.add 4 4]).rehashidx.toNat →
      (runOps (fun n => n) dictCreate
        [DictOp.add 0 0, DictOp.add 1 1, DictOp.add 2 2, DictOp.add 3 3,
          DictOp.add 4 4]).ht0.table.getD i [] = [])) :=
  ⟨by decide,
    c2_rehash_invariant (fun n => n)
      [DictOp.add 0 0, DictOp.add 1 1, DictOp.add 2 2, DictOp.add 3 3, DictOp.add 4 4]
      (by decide)⟩

/-- C3: on a dictionary that is not mutated between steps, running the scan
protocol from cursor 0 (feeding each returned cursor back in) terminates
with cursor 0 after at most `ht[0].size` steps (the smaller table's size
while rehashing), and reports every stored entry exactly once — at least
once, and, the tables not changing size during the scan, no more than
`ceil(final_size / initial_size) = 1` times. -/
theorem c3_scan_complete (hash : Nat → Nat) (d : Dict) (hWF : WF hash d)
    (h0 : d.ht0.size ≤ 2 ^ 64) (h1 : d.ht1.size ≤ 2 ^ 64) :
    (dictScanAll d (if dictIsRehashing d = true then min d.ht0.size d.ht1.size
      else d.ht0.size) 0).2 = 0 ∧
    ∀ e ∈ dictAllEntries d,
      (dictScanAll d (if dictIsRehashing d = true then min d.ht0.size d.ht1.size
        else d.ht0.size) 0).1.count e = 1 := by
  by_cases hsz : dictSize d = 0
  · have hent : dictAllEntries d = [] := by
      obtain ⟨⟨_, _, hused0, _⟩, ⟨_, _, hused1, _⟩, _⟩ := hWF
      have hl0 : d.ht0.table.flatten.length = (d.ht0.table.map List.length).sum :=
        List.length_flatten _
      have hl1 : d.ht1.table.flatten.length = (d.ht1.table.map List.length).sum :=
        List.length_flatten _
      have hsz' : d.ht0.used + d.ht1.used = 0 := hsz
      have hlen : (dictAllEntries d).length = 0 := by
        rw [dictAllEntries, List.length_append]
        omega
      exact List.length_eq_zero.mp hlen
    constructor
    · generalize (if dictIsRehashing d = true then min d.ht0.size d.ht1.size
        else d.ht0.size) = F
      cases F with
      | zero => rfl
      | succ f =>
        have hs : dictScan d 0 = ([], 0) := by
          rw [dictScan, if_pos hsz]
        rw [dictScanAll_succ, hs]
        simp
    · intro e he
      rw [hent] at he
      simp at he
  · by_cases hreh : dictIsRehashing d = true
    · rw [if_pos hreh]
      obtain ⟨hms, hc⟩ := scan_rehash_ms hash d hWF hreh h0 h1 hsz
      exact ⟨hc, count_entry_one hash d _ hWF hms⟩
    · have hrehf : dictIsRehashing d = false := bool_eq_false hreh
      rw [if_neg hreh]
      obtain ⟨hms, hc⟩ := scan_nonrehash_ms hash d hWF hrehf h0 hsz
      exact ⟨hc, count_entry_one hash d _ hWF hms⟩

/-- C3, witness: the five-insertion dictionary is mid-rehash (tables of
size 4 and 8); the scan from cursor 0 ends at 0 and reports each of its
five entries exactly once. -/
theorem c3_witness :
    (runOps (fun n => n) dictCreate
      [DictOp.add 0 0, DictOp.add 1 1, DictOp.add 2 2, DictOp.add 3 3,
        DictOp.add 4 4]).ht0.size ≤ 2 ^ 64 ∧
    ((dictScanAll (runOps (fun n => n) dictCreate
        [DictOp.add 0 0, DictOp.add 1 1, DictOp.add 2 2, DictOp.add 3 3,
          DictOp.add 4 4])
      (if dictIsRehashing (runOps (fun n => n) dictCreate
          [DictOp.add 0 0, DictOp.add 1 1, DictOp.add 2 2, DictOp.add 3 3,
            DictOp.add 4 4]) = true then
        min (runOps (fun n => n) dictCreate
          [DictOp.add 0 0, DictOp.add 1 1, DictOp.add 2 2, DictOp.add 3 3,
            DictOp.add 4 4]).ht0.size
          (runOps (fun n => n) dictCreate
            [DictOp.add 0 0, DictOp.add 1 1, DictOp.add 2 2, DictOp.add 3 3,
              DictOp.add 4 4]).ht1.size
      else (runOps (fun n => n) dictCreate
        [DictOp.add 0 0, DictOp.add 1 1, DictOp.add 2 2, DictOp.add 3 3,
          DictOp.add 4 4]).ht0.size) 0).2 = 0 ∧
    ∀ e ∈ dictAllEntries (runOps (fun n => n) dictCreate
        [DictOp.add 0 0, DictOp.add 1 1, DictOp.add 2 2, DictOp.add 3 3,
          DictOp.add 4 4]),
      (dictScanAll (runOps (fun n => n) dictCreate
          [DictOp.add 0 0, DictOp.add 1 1, DictOp.add 2 2, DictOp.add 3 3,
            DictOp.add 4 4])
        (if dictIsRehashing (runOps (fun n => n) dictCreate
            [DictOp.add 0 0, DictOp.add 1 1, DictOp.add 2 2, DictOp.add 3 3,
              DictOp.add 4 4]) = true then
          min (runOps (fun n => n) dictCreate
            [DictOp.add 0 0, DictOp.add 1 1, DictOp.add 2 2, DictOp.add 3 3,
              DictOp.add 4 4]).ht0.size
            (runOps (fun n => n) dictCreate
              [DictOp.add 0 0, DictOp.add 1 1, DictOp.add 2 2, DictOp.add 3 3,
                DictOp.add 4 4]).ht1.size
        else (runOps (fun n => n) dictCreate
          [DictOp.add 0 0, DictOp.add 1 1, DictOp.add 2 2, DictOp.add 3 3,
            DictOp.add 4 4]).ht0.size) 0).1.count e = 1) :=
  ⟨by decide,
    c3_scan_complete (fun n => n)
      (runOps (fun n => n) dictCreate
        [DictOp.add 0 0, DictOp.add 1 1, DictOp.add 2 2, DictOp.add 3 3,
          DictOp.add 4 4])
      (wf_runOps (fun n => n)
        [DictOp.add 0 0, DictOp.add 1 1, DictOp.add 2 2, DictOp.add 3 3,
          DictOp.add 4 4] dictCreate (wf_create (fun n => n)))
      (by decide) (by decide)⟩

/-- C4: after any sequence of public operations on a fresh dictionary,
`dictSize(d) = ht[0].used + ht[1].used` equals the number of successful
insertions (each of which inserts a key distinct from those present) minus
the number of successful deletions: `size + deleted = inserted`. -/
theorem c4_size_accounting (hash : Nat → Nat) (ops : List DictOp) :
    dictSize (runOpsCount hash ops).1 + (runOpsCount hash ops).2.2 =
      (runOpsCount hash ops).2.1 :=
  (runOpsCount_inv hash ops (dictCreate, 0, 0) (wf_create hash) rfl).2

/-- C5: `dictExpand(d, s)` targets `new_size = next_power_of_two(max(s, 4))`
— `dictNextPower s` is the least power of two that is at least `s` and at
least `DICT_HT_INITIAL_SIZE = 4` — and returns `DICT_ERR` exactly when the
dictionary is already rehashing, or `new_size < ht[0].used`, or
`new_size = ht[0].size`; on failure the dictionary is unchanged. -/
theorem c5_expand_conditions (d : Dict) (s : Nat) :
    IsP2 (dictNextPower s) ∧ s ≤ dictNextPower s ∧
    DICT_HT_INITIAL_SIZE ≤ dictNextPower s ∧
    (∀ p, IsP2 p → s ≤ p → DICT_HT_INITIAL_SIZE ≤ p → dictNextPower s ≤ p) ∧
    ((dictExpand d s).2 = false ↔
      (dictIsRehashing d = true ∨ dictNextPower s < d.ht0.used ∨
        dictNextPower s = d.ht0.size)) ∧
    ((dictExpand d s).2 = false → (dictExpand d s).1 = d) := by
  obtain ⟨hp1, hp2, hp3, hp4⟩ := dictNextPower_spec s
  refine ⟨hp1, hp2, hp3, hp4, ?_, ?_⟩
  all_goals (
    by_cases hreh : dictIsRehashing d = true)
  · rw [dictExpand_fail_rehashing d s hreh]
    simp [hreh]
  · have hrehf := bool_eq_false hreh
    by_cases h2 : dictNextPower s < d.ht0.used
    · rw [dictExpand_fail_small d s hrehf h2]
      simp [h2]
    · by_cases h3 : dictNextPower s = d.ht0.size
      · rw [dictExpand_fail_same d s hrehf h2 h3]
        simp [h3]
      · by_cases h4 : d.ht0.size = 0
        · rw [dictExpand_install d s hrehf h2 h3 h4]
          simp [hreh, h2, h3]
        · rw [dictExpand_arm d s hrehf h2 h3 h4]
          simp [hreh, h2, h3]
  · rw [dictExpand_fail_rehashing d s hreh]
    intro _
    rfl
  · have hrehf := bool_eq_false hreh
    by_cases h2 : dictNextPower s < d.ht0.used
    · rw [dictExpand_fail_small d s hrehf h2]
      intro _
      rfl
    · by_cases h3 : dictNextPower s = d.ht0.size
      · rw [dictExpand_fail_same d s hrehf h2 h3]
        intro _
        rfl
      · by_cases h4 : d.ht0.size = 0
        · rw [dictExpand_install d s hrehf h2 h3 h4]
          intro hcontra
          simp at hcontra
        · rw [dictExpand_arm d s hrehf h2 h3 h4]
          intro hcontra
          simp at hcontra

/-- C6: `dictReplace(d, k, v)` reports *inserted* exactly when `k` is
absent (with the single value event `setVal v`); when `k` is present with
entry `e` it reports *updated*, the stored entry becomes `⟨k, v⟩`, and the
value events are `setVal v` followed by `freeVal e.val`: the old value's
destructor runs exactly once, on the old value only, and only after the
new value has been installed — safe for the aliasing case `new == old`. -/
theorem c6_replace_semantics (hash : Nat → Nat) (d : Dict) (k v : Nat)
    (hWF : WF hash d) :
    ((dictReplace hash d k v).2.1 = true ↔ dictFindNoStep hash d k = none) ∧
    ((dictReplace hash d k v).2.1 = true →
      (dictReplace hash d k v).2.2 = [ValEvent.setVal v]) ∧
    (∀ e, dictFindNoStep hash d k = some e →
      (dictReplace hash d k v).2.2 = [ValEvent.setVal v, ValEvent.freeVal e.val] ∧
      dictFindNoStep hash (dictReplace hash d k v).1 k = some ⟨k, v⟩) := by
  obtain ⟨_, r2, r3, r4, _⟩ := dictReplace_props hash d k v hWF
  exact ⟨r2, fun h => (r3 h).1, fun e he => ⟨(r4 e he).1, (r4 e he).2.1⟩⟩

/-- C6, witness: on a dictionary holding `⟨1, 1⟩`, `dictReplace(d, 1, 2)`
reports *updated* with events `[setVal 2, freeVal 1]` and the entry becomes
`⟨1, 2⟩`. -/
theorem c6_witness :
    ((dictReplace (fun n => n) (dictAdd (fun n => n) dictCreate 1 1).1 1 2).2.1 = true ↔
      dictFindNoStep (fun n => n) (dictAdd (fun n => n) dictCreate 1 1).1 1 = none) ∧
    ((dictReplace (fun n => n) (dictAdd (fun n => n) dictCreate 1 1).1 1 2).2.1 = true →
      (dictReplace (fun n => n) (dictAdd (fun n => n) dictCreate 1 1).1 1 2).2.2
        = [ValEvent.setVal 2]) ∧
    (∀ e, dictFindNoStep (fun n => n) (dictAdd (fun n => n) dictCreate 1 1).1 1 = some e →
      (dictReplace (fun n => n) (dictAdd (fun n => n) dictCreate 1 1).1 1 2).2.2
        = [ValEvent.setVal 2, ValEvent.freeVal e.val] ∧
      dictFindNoStep (fun n => n)
        (dictReplace (fun n => n) (dictAdd (fun n => n) dictCreate 1 1).1 1 2).1 1
        = some ⟨1, 2⟩) :=
  c6_replace_semantics (fun n => n) (dictAdd (fun n => n) dictCreate 1 1).1 1 2
    (dictAdd_props (fun n => n) dictCreate 1 1 (wf_create (fun n => n))).1

/-- C7: on a rehashing dictionary, `dictRehash(d, n)` with `n > 0` processes
one contiguous run of `ht[0]` buckets starting at `rehashidx`: at most `n`
of them non-empty (the migrated buckets) and at most `10 * n` of them empty
(the bounded empty visits); `rehashidx` ends just past the run (or at -1
when the rehash completed), and the returned flag is `true` exactly when
rehash work remains. -/
theorem c7_rehash_budget (hash : Nat → Nat) (d : Dict) (n : Nat) (hWF : WF hash d)
    (hreh : dictIsRehashing d = true) (hn : 0 < n) :
    ∃ f, d.rehashidx.toNat ≤ f ∧
      countNonEmpty d.ht0.table d.rehashidx.toNat (f - d.rehashidx.toNat) ≤ n ∧
      countEmpty d.ht0.table d.rehashidx.toNat (f - d.rehashidx.toNat) ≤ 10 * n ∧
      ((dictRehash hash d n).1.rehashidx = ((f : Nat) : Int) ∨
        (dictRehash hash d n).1.rehashidx = -1) ∧
      (dictRehash hash d n).2 = dictIsRehashing (dictRehash hash d n).1 := by
  have he : dictRehash hash d n = rehashLoop hash d n (n * 10) := by
    rw [dictRehash, hreh]
    simp
  obtain ⟨_, _, _, _, _, hrinv, _⟩ := hWF
  obtain ⟨hidx0, _⟩ := hrinv hreh
  obtain ⟨f, h1, h2, h3, h4, h5⟩ := rehashLoop_account hash n d (n * 10) hreh hidx0
  exact ⟨f, h1, h2, by omega, by rw [he]; exact h4, by rw [he]; exact h5⟩

/-- C7, witness: the mid-rehash five-entry dictionary, advanced by
`dictRehash(d, 1)`. -/
theorem c7_witness :
    dictIsRehashing (runOps (fun n => n) dictCreate
      [DictOp.add 0 0, DictOp.add 1 1, DictOp.add 2 2, DictOp.add 3 3,
        DictOp.add 4 4]) = true ∧
    ∃ f, (runOps (fun n => n) dictCreate
        [DictOp.add 0 0, DictOp.add 1 1, DictOp.add 2 2, DictOp.add 3 3,
          DictOp.add 4 4]).rehashidx.toNat ≤ f ∧
      countNonEmpty (runOps (fun n => n) dictCreate
          [DictOp.add 0 0, DictOp.add 1 1, DictOp.add 2 2, DictOp.add 3 3,
            DictOp.add 4 4]).ht0.table
        (runOps (fun n => n) dictCreate
          [DictOp.add 0 0, DictOp.add 1 1, DictOp.add 2 2, DictOp.add 3 3,
            DictOp.add 4 4]).rehashidx.toNat
        (f - (runOps (fun n => n) dictCreate
          [DictOp.add 0 0, DictOp.add 1 1, DictOp.add 2 2, DictOp.add 3 3,
            DictOp.add 4 4]).rehashidx.toNat) ≤ 1 ∧
      countEmpty (runOps (fun n => n) dictCreate
          [DictOp.add 0 0, DictOp.add 1 1, DictOp.add 2 2, DictOp.add 3 3,
            DictOp.add 4 4]).ht0.table
        (runOps (fun n => n) dictCreate
          [DictOp.add 0 0, DictOp.add 1 1, DictOp.add 2 2, DictOp.add 3 3,
            DictOp.add 4 4]).rehashidx.toNat
        (f - (runOps (fun n => n) dictCreate
          [DictOp.add 0 0, DictOp.add 1 1, DictOp.add 2 2, DictOp.add 3 3,
            DictOp.add 4 4]).rehashidx.toNat) ≤ 10 * 1 ∧
      ((dictRehash (fun n => n) (runOps (fun n => n) dictCreate
          [DictOp.add 0 0, DictOp.add 1 1, DictOp.add 2 2, DictOp.add 3 3,
            DictOp.add 4 4]) 1).1.rehashidx = ((f : Nat) : Int) ∨
        (dictRehash (fun n => n) (runOps (fun n => n) dictCreate
          [DictOp.add 0 0, DictOp.add 1 1, DictOp.add 2 2, DictOp.add 3 3,
            DictOp.add 4 4]) 1).1.rehashidx = -1) ∧
      (dictRehash (fun n => n) (runOps (fun n => n) dictCreate
          [DictOp.add 0 0, DictOp.add 1 1, DictOp.add 2 2, DictOp.add 3 3,
            DictOp.add 4 4]) 1).2 =
        dictIsRehashing (dictRehash (fun n => n) (runOps (fun n => n) dictCreate
          [DictOp.add 0 0, DictOp.add 1 1, DictOp.add 2 2, DictOp.add 3 3,
            DictOp.add 4 4]) 1).1 :=
  ⟨by decide,
    c7_rehash_budget (fun n => n)
      (runOps (fun n => n) dictCreate
        [DictOp.add 0 0, DictOp.add 1 1, DictOp.add 2 2, DictOp.add 3 3,
          DictOp.add 4 4]) 1
      (wf_runOps (fun n => n)
        [DictOp.add 0 0, DictOp.add 1 1, DictOp.add 2 2, DictOp.add 3 3,
          DictOp.add 4 4] dictCreate (wf_create (fun n => n)))
      (by decide) (by decide)⟩

/-- C8, counterexample: the fingerprint only hashes the dictionary's
observable shape, so a `dictAdd` followed by a `dictDelete` of the same key
between iterator creation and release restores the fingerprint and the
misuse goes undetected — the claim's "any dictAdd or dictDelete ...
produces a fingerprint mismatch" fails for such compensating pairs. -/
theorem c8_counterexample :
    (dictAdd (fun n => n)
      (runOps (fun n => n) dictCreate [DictOp.add 1 11]) 2 22).2 = true ∧
    (dictDelete (fun n => n)
      (dictAdd (fun n => n)
        (runOps (fun n => n) dictCreate [DictOp.add 1 11]) 2 22).1 2).2 = true ∧
    dictReleaseIteratorCheck
      (dictDelete (fun n => n)
        (dictAdd (fun n => n)
          (runOps (fun n => n) dictCreate [DictOp.add 1 11]) 2 22).1 2).1
      (dictGetIterator (runOps (fun n => n) dictCreate [DictOp.add 1 11])) = false := by
  decide

/-- C8, amended: a SINGLE successful `dictAdd` or `dictDelete` between
`dictGetIterator` and `dictReleaseIterator` is always detected: the
operation changes `dictSize`, the fingerprint pairing is injective in the
`used` fields, so the recomputed fingerprint differs. -/
theorem c8_amended_theorem (hash : Nat → Nat) (d : Dict) (k v : Nat)
    (hWF : WF hash d) :
    ((dictAdd hash d k v).2 = true →
      dictReleaseIteratorCheck (dictAdd hash d k v).1 (dictGetIterator d) = true) ∧
    ((dictDelete hash d k).2 = true →
      dictReleaseIteratorCheck (dictDelete hash d k).1 (dictGetIterator d) = true) := by
  constructor
  · intro hadd
    obtain ⟨_, _, a3, _, _⟩ := dictAdd_props hash d k v hWF
    obtain ⟨_, hsz⟩ := a3 hadd
    exact mismatch_of_size (by omega)
  · intro hdel
    obtain ⟨_, d2, _, _⟩ := dictDelete_props hash d k hWF
    obtain ⟨e, _, _, hsz⟩ := d2 hdel
    exact mismatch_of_size (by omega)

/-- C8, witness: a single insertion into a fresh dictionary is detected at
release. -/
theorem c8_amended_witness :
    (dictAdd (fun n => n) dictCreate 1 1).2 = true ∧
    dictReleaseIteratorCheck (dictAdd (fun n => n) dictCreate 1 1).1
      (dictGetIterator dictCreate) = true :=
  ⟨by decide,
    (c8_amended_theorem (fun n => n) dictCreate 1 1 (wf_create (fun n => n))).1
      (by decide)⟩

/-- C9, counterexample: on a platform whose `unsigned long` is 32 bits,
`ULONG_MAX < 0xffffffffffffffff`, so `randomULong()` falls back to POSIX
`random()`, whose results range over `[0, 2^31)` — only `2^31` values, not
the `2^32` of the full word width: the sampling randomness is NOT uniform
over the platform word width on every configuration. -/
theorem c9_counterexample :
    ulongMax 32 < 0xffffffffffffffff ∧
    randomULongValues 32 = 2 ^ 31 ∧
    randomULongValues 32 < 2 ^ 32 := by
  refine ⟨by decide, ?_, ?_⟩
  · rw [randomULongValues, if_neg (by decide)]
  · rw [randomULongValues, if_neg (by decide)]
    decide

/-- C9, amended: when `unsigned long` holds 64 bits (`64 ≤ w`),
`randomULong()` is the 64-bit PRNG and ranges over the full `2^64` values;
on a 32-bit platform it is `random()` with only `2^31` values, strictly
fewer than the word width admits. -/
theorem c9_amended_theorem (w : Nat) :
    (64 ≤ w → randomULongValues w = 2 ^ 64) ∧
    (w < 64 → randomULongValues w = 2 ^ 31) := by
  constructor
  · intro hw
    have hle : (0xffffffffffffffff : Nat) ≤ ulongMax w := by
      show (0xffffffffffffffff : Nat) ≤ 2 ^ w - 1
      have h1 : (2 : Nat) ^ 64 ≤ 2 ^ w := Nat.pow_le_pow_right (by norm_num) hw
      have h2 : (0xffffffffffffffff : Nat) = 2 ^ 64 - 1 := by norm_num
      omega
    rw [randomULongValues, if_pos hle]
  · intro hw
    have hlt : ¬ (0xffffffffffffffff : Nat) ≤ ulongMax w := by
      show ¬ (0xffffffffffffffff : Nat) ≤ 2 ^ w - 1
      have h1 : (2 : Nat) ^ w < 2 ^ 64 := Nat.pow_lt_pow_right (by norm_num) hw
      have h2 : (0xffffffffffffffff : Nat) = 2 ^ 64 - 1 := by norm_num
      have h3 : (2 : Nat) ^ w ≤ 2 ^ 64 - 1 := by omega
      omega
    rw [randomULongValues, if_neg hlt]

/-- C9, witness: the two platform widths of the conditional. -/
theorem c9_amended_witness :
    randomULongValues 64 = 2 ^ 64 ∧ randomULongValues 32 = 2 ^ 31 :=
  ⟨(c9_amended_theorem 64).1 (by decide), (c9_amended_theorem 32).2 (by decide)⟩

/-- C10: `pauserehash` is an unchecked `int16_t` counter: starting from 0,
any nesting depth from 1 to 32767 keeps rehashing paused
(`pauserehash > 0`), but the 32768th nested `dictPauseRehashing` wraps the
counter to -32768, so `pauserehash > 0` no longer holds and the pause
guarantee is silently voided. -/
theorem c10_pause_overflow (d : Dict) (h0 : d.pauserehash = 0) :
    (∀ n, 1 ≤ n → n ≤ 32767 → rehashIsPaused (nestPause d n) = true) ∧
    (nestPause d 32768).pauserehash = -32768 ∧
    rehashIsPaused (nestPause d 32768) = false := by
  have hval := nestPause_val d h0
  refine ⟨?_, ?_, ?_⟩
  · intro n h1 h2
    have hv := hval n (by omega)
    have hw : wrap16 (n : Int) = (n : Int) := by
      show ((n : Int) + 32768) % 65536 - 32768 = (n : Int)
      omega
    rw [hw] at hv
    simp only [rehashIsPaused, hv, gt_iff_lt, decide_eq_true_eq]
    omega
  · have hv := hval 32768 (Nat.le_refl _)
    rw [hv]
    decide
  · have hv := hval 32768 (Nat.le_refl _)
    simp only [rehashIsPaused, hv, gt_iff_lt]
    decide

/-- C10, witness: a fresh dictionary has `pauserehash = 0`; one pause is in
effect at depth 1 and at depth 32767, and voided at depth 32768. -/
theorem c10_witness :
    dictCreate.pauserehash = 0 ∧
    ((∀ n, 1 ≤ n → n ≤ 32767 → rehashIsPaused (nestPause dictCreate n) = true) ∧
    (nestPause dictCreate 32768).pauserehash = -32768 ∧
    rehashIsPaused (nestPause dictCreate 32768) = false) :=
  ⟨rfl, c10_pause_overflow dictCreate rfl⟩
